import Mathlib

/-! # LRU memoization caches of `modules/utils/cache.hpp`

A shallow embedding of the cache family of `cache.hpp` and a verification of
its sequential behaviour.

* `SingleCache` is the LRU store: a `boost::bimap` whose left view is a set of
  keys and whose right view is a list.  It is embedded as the list of
  `(key, value)` relations in right-view order, so the head of the list is
  `_container.right.begin()` (the next entry to be erased) and the end of the
  list is `_container.right.end()` (where entries are inserted and relocated).
* The cached function `_fn` is an argument of the operations.  It returns
  `Except E V`: `Except.error e` stands for an exception `e` leaving `_fn`.
* `uint64_t` counters are natural numbers reduced modulo `2 ^ 64`; the `int`
  accumulators of the rollup accessors are integers reduced to 32 bits.
* An operation whose C++ behaviour is undefined (erasing `begin()` of an empty
  list, dividing by zero, indexing a vector out of range) returns `none`.
* The composite caches are followed on the thread of the caller:
  `omp_get_max_threads()` and `omp_get_thread_num()` are inputs, and the OpenMP
  locks of `MultiRingPriorityCache` are a list of lock states.
* The timing members (`_lookup_time_total`, `SCOPED_TIMER`) are wall-clock
  floating point values and are not part of the embedding.
-/

namespace VocabTree

/-- Number of values of a `uint64_t`. -/
def UINT64_RANGE : Nat := 2 ^ 64

/-! ## The bimap container -/

/-- Left-view lookup `_container.left.find(k)`: the value related to `k`, or
`none` for `_container.left.end()`. -/
def bimapFind {K V : Type} [DecidableEq K] (k : K) : List (K × V) → Option V
  | [] => none
  | (k', v) :: rest => if k' = k then some v else bimapFind k rest

/-- Removal of the relation whose left key is `k` from the right-view list. -/
def bimapRemove {K V : Type} [DecidableEq K] (k : K) : List (K × V) → List (K × V)
  | [] => []
  | (k', v) :: rest => if k' = k then rest else (k', v) :: bimapRemove k rest

/-- The call `_container.right.relocate(_container.right.end(), it)` for the
relation `it` found under key `k`: the relation is unlinked from its position and
linked again in front of `end()`. -/
def bimapRelocateEnd {K V : Type} [DecidableEq K] (k : K) (l : List (K × V)) : List (K × V) :=
  match bimapFind k l with
  | none => l
  | some v => bimapRemove k l ++ [(k, v)]

/-- The call `_container.insert(value_type(k, v))`: the set-of-keys left view
refuses a relation whose key is already present; otherwise the relation is
appended to the list view. -/
def bimapInsert {K V : Type} [DecidableEq K] (k : K) (v : V) (l : List (K × V)) : List (K × V) :=
  match bimapFind k l with
  | none => l ++ [(k, v)]
  | some _ => l

/-! ## SingleCache -/

/-- Data members of `SingleCache<B, K, V>` (the cached function `_fn` is passed
to the operations instead of being stored). -/
structure SingleCache (K V : Type) where
  /-- Member `_capacity`. -/
  capacity : Nat
  /-- Member `_container` in right-view (list) order. -/
  container : List (K × V)
  /-- Member `cache_hits`. -/
  cache_hits : Nat
  /-- Member `cache_misses`. -/
  cache_misses : Nat
deriving DecidableEq, Repr

/-- What the caller of a constructor gets: `some` cache object, or `none` when
no object is produced. -/
abbrev Constructed (α : Type) := Option α

/-- The object initialised by `SingleCache(f, c)`: capacity `c`, an empty
container, both counters zero. -/
def SingleCache.fresh {K V : Type} (c : Nat) : SingleCache K V :=
  { capacity := c, container := [], cache_hits := 0, cache_misses := 0 }

/-- Constructor `SingleCache(f, c)`.  Its body only zeroes the counters; there
is no check of `c` and no throw, so an object is produced for every `c`. -/
def SingleCache.construct {K V : Type} (c : Nat) : Constructed (SingleCache K V) :=
  some (SingleCache.fresh c)

/-- Accessor `hits()`. -/
def SingleCache.hits {K V : Type} (c : SingleCache K V) : Nat := c.cache_hits

/-- Accessor `misses()`. -/
def SingleCache.misses {K V : Type} (c : SingleCache K V) : Nat := c.cache_misses

/-- Accessor `num_lookups()`: `cache_misses + cache_hits` in `uint64_t`. -/
def SingleCache.num_lookups {K V : Type} (c : SingleCache K V) : Nat :=
  (c.cache_misses + c.cache_hits) % UINT64_RANGE

/-- Private member `insert(k, v)`.  Returns the new object state and the
entries erased on the way; `none` when `erase` is applied to `begin()` of an
empty list, which has no defined behaviour. -/
def SingleCache.insert {K V : Type} [DecidableEq K] (c : SingleCache K V) (k : K) (v : V) :
    Option (SingleCache K V × List (K × V)) :=
  if c.container.length = c.capacity then
    match c.container with
    | [] => none
    | e :: rest => some ({ c with container := bimapInsert k v rest }, [e])
  else
    some ({ c with container := bimapInsert k v c.container }, [])

/-- Record of one call of `operator()(const K&)`. -/
structure Step (K E V : Type) where
  /-- The value returned, or the exception that left the call. -/
  outcome : Except E V
  /-- The object state when control leaves the call. -/
  cache : SingleCache K V
  /-- The arguments of the invocations of `_fn` made during the call. -/
  calls : List K
  /-- The entries erased from the container during the call. -/
  evicted : List (K × V)

/-- The non-locking `operator()(const K&)` of `SingleCache<false, K, V>`. -/
def SingleCache.get_nolock {K E V : Type} [DecidableEq K] (fn : K → Except E V)
    (c : SingleCache K V) (k : K) : Option (Step K E V) :=
  match bimapFind k c.container with
  | none =>
    match fn k with
    | Except.error e => some { outcome := Except.error e, cache := c, calls := [k], evicted := [] }
    | Except.ok v =>
      match SingleCache.insert { c with cache_misses := (c.cache_misses + 1) % UINT64_RANGE } k v with
      | none => none
      | some (c2, ev) => some { outcome := Except.ok v, cache := c2, calls := [k], evicted := ev }
  | some v =>
    some { outcome := Except.ok v,
           cache := { c with cache_hits := (c.cache_hits + 1) % UINT64_RANGE,
                             container := bimapRelocateEnd k c.container },
           calls := [],
           evicted := [] }

/-- The locking `operator()(const K&)` of `SingleCache<true, K, V>`, executed by
one thread at a time: the body of the critical section assigns the result to
the local `v`, which is returned after the section. -/
def SingleCache.get_lock {K E V : Type} [DecidableEq K] (fn : K → Except E V)
    (c : SingleCache K V) (k : K) : Option (Step K E V) :=
  match bimapFind k c.container with
  | none =>
    match fn k with
    | Except.error e => some { outcome := Except.error e, cache := c, calls := [k], evicted := [] }
    | Except.ok v =>
      match SingleCache.insert { c with cache_misses := (c.cache_misses + 1) % UINT64_RANGE } k v with
      | none => none
      | some (c2, ev) => some { outcome := Except.ok v, cache := c2, calls := [k], evicted := ev }
  | some v =>
    let c1 : SingleCache K V := { c with cache_hits := (c.cache_hits + 1) % UINT64_RANGE }
    let c2 : SingleCache K V := { c1 with container := bimapRelocateEnd k c1.container }
    some { outcome := Except.ok v, cache := c2, calls := [], evicted := [] }

/-- The call `cache(k)` on a `SingleCache<B, K, V>`: template parameter `B`
selects the locking (`true`) or the non-locking (`false`) overload. -/
def SingleCache.get {K E V : Type} [DecidableEq K] (B : Bool) (fn : K → Except E V)
    (c : SingleCache K V) (k : K) : Option (Step K E V) :=
  if B then SingleCache.get_lock fn c k else SingleCache.get_nolock fn c k

/-- A caller issuing `cache(k)` for each key of a list in turn, one call after
the other; the records of the calls are collected in order. -/
def SingleCache.gets {K E V : Type} [DecidableEq K] (B : Bool) (fn : K → Except E V) :
    SingleCache K V → List K → Option (List (Step K E V))
  | _, [] => some []
  | c, k :: ks =>
    match SingleCache.get B fn c k with
    | none => none
    | some s =>
      match SingleCache.gets B fn s.cache ks with
      | none => none
      | some ss => some (s :: ss)

/-- The object state after a list of calls: the state left by the last call, or
the initial state when no call was made. -/
def finalCache {K E V : Type} (c : SingleCache K V) (ss : List (Step K E V)) : SingleCache K V :=
  match ss.getLast? with
  | none => c
  | some s => s.cache

/-- A producer that never throws: the pure function `P` as cached function. -/
def pureFn {K V : Type} (E : Type) (P : K → V) : K → Except E V :=
  fun k => Except.ok (P k)

/-! ## Recency of calls -/

/-- Recency over the reversed call sequence (most recent call first). -/
def lastUseRev {K : Type} [DecidableEq K] (x : K) : List K → Nat
  | [] => 0
  | k :: earlier => if k = x then earlier.length + 1 else lastUseRev x earlier

/-- The number, counted from 1, of the most recent call for key `x` in the
sequence of calls `ks`; `0` when no call for `x` was made. -/
def lastUse {K : Type} [DecidableEq K] (x : K) (ks : List K) : Nat :=
  lastUseRev x ks.reverse

/-- The arguments of all invocations of `_fn` made by a list of calls, in
order. -/
def callLog {K E V : Type} : List (Step K E V) → List K
  | [] => []
  | s :: ss => s.calls ++ callLog ss

/-! ## Invariants -/

/-- Every stored value is the producer value for its key. -/
def Sound {K V : Type} (P : K → V) (c : SingleCache K V) : Prop :=
  ∀ e ∈ c.container, e.2 = P e.1

/-- The keys `L` (in list order) are ordered by strictly increasing recency with
respect to the calls `pre`, and each of them was called. -/
def RecentKeys {K : Type} [DecidableEq K] (pre : List K) (L : List K) : Prop :=
  (∀ x ∈ L, 0 < lastUse x pre) ∧ L.Pairwise (fun a b => lastUse a pre < lastUse b pre)

/-! ## The vector overload of `operator()` -/

/-- The loop `for (i = 0; i < k.size(); i++) u[i] = body;` of the vector
overload, for `n` remaining iterations: `call` is the evaluation of the
right-hand side on the current object state, `assign` the conversion performed
by the assignment to the element `u[i]`. -/
def get_many_loop {K V : Type} (assign : List V → V)
    (call : SingleCache K V → Option (List V × SingleCache K V)) :
    Nat → SingleCache K V → Option (List V × SingleCache K V)
  | 0, c => some ([], c)
  | n + 1, c =>
    match call c with
    | none => none
    | some (r, c1) =>
      match get_many_loop assign call n c1 with
      | none => none
      | some (u, c2) => some (assign r :: u, c2)

/-- The overload `operator()(const std::vector<K>& k)` (the locking and the
non-locking one have the same body).  The right-hand side of the assignment in
the loop is `(*this)(k)` with `k` the whole vector, which is a call of this same
overload with the same argument.  The recursion is bounded by `fuel`: `none`
stands for a call that does not return within `fuel` nested calls. -/
def SingleCache.get_many {K V : Type} (assign : List V → V) :
    Nat → SingleCache K V → List K → Option (List V × SingleCache K V)
  | 0, _, _ => none
  | fuel + 1, c, ks =>
    get_many_loop assign (fun c1 => SingleCache.get_many assign fuel c1 ks) ks.length c

/-! ## Composite caches

`N` is the value of `omp_get_max_threads()`.  Keys of the ring caches are
`uint64_t` values, embedded as natural numbers. -/

/-- Data members of `MultiCache<K, V>`. -/
structure MultiCache (K V : Type) where
  /-- Member `_caches`. -/
  caches : List (SingleCache K V)
  /-- Member `_capacity`. -/
  capacity : Nat
deriving DecidableEq, Repr

/-- Constructor `MultiCache(f, c)`: the loop pushes `N` shards, each built with
capacity `c / N` (the division is inside the loop body). -/
def MultiCache.construct {K V : Type} (N c : Nat) : Constructed (MultiCache K V) :=
  some { caches := List.replicate N (SingleCache.fresh (c / N)), capacity := c }

/-- Data members of `MultiRingCache<K, V>`. -/
structure MultiRingCache (V : Type) where
  /-- Member `_caches`. -/
  caches : List (SingleCache Nat V)
  /-- Member `_capacity`. -/
  capacity : Nat
  /-- Member `_single_capacity`. -/
  single_capacity : Nat
deriving DecidableEq, Repr

/-- Constructor `MultiRingCache(f, c)`: `_single_capacity` is initialised with
`c / N` (no object when `N = 0`: division by zero), then `N` shards of that
capacity are pushed. -/
def MultiRingCache.construct {V : Type} (N c : Nat) : Constructed (MultiRingCache V) :=
  if N = 0 then none
  else some { caches := List.replicate N (SingleCache.fresh (c / N)),
              capacity := c, single_capacity := c / N }

/-- The shard index `(size_t)(k / _single_capacity) % omp_get_max_threads()`;
`none` when a divisor is zero.  The conversion to `size_t` does not change a
`uint64_t` quotient. -/
def ringIndex (single_capacity N k : Nat) : Option Nat :=
  if single_capacity = 0 ∨ N = 0 then none else some ((k / single_capacity) % N)

/-- Record of one call of `MultiRingCache::operator()`. -/
structure RingStep (E V : Type) where
  /-- Index of the shard the call was dispatched to. -/
  shard : Nat
  /-- Record of the call made on that shard. -/
  step : Step Nat E V
  /-- The object state when control leaves the call. -/
  cache : MultiRingCache V

/-- The call `MultiRingCache::operator()(k)`: the non-locking `operator()` of
the shard `_caches[index]` is applied to `k`; `none` when the index computation
or the vector access has no defined behaviour, or the shard call has none. -/
def MultiRingCache.get {E V : Type} (N : Nat) (fn : Nat → Except E V)
    (r : MultiRingCache V) (k : Nat) : Option (RingStep E V) :=
  match ringIndex r.single_capacity N k with
  | none => none
  | some idx =>
    match r.caches[idx]? with
    | none => none
    | some shard =>
      match SingleCache.get false fn shard k with
      | none => none
      | some s => some { shard := idx, step := s,
                         cache := { r with caches := r.caches.set idx s.cache } }

/-- Data members of `MultiRingPriorityCache<K, V>`; a lock is `true` while it is
set. -/
structure MultiRingPriorityCache (V : Type) where
  /-- Member `_caches`. -/
  caches : List (SingleCache Nat V)
  /-- Member `_locks`. -/
  locks : List Bool
  /-- Member `_capacity`. -/
  capacity : Nat
  /-- Member `_single_capacity`. -/
  single_capacity : Nat
deriving DecidableEq, Repr

/-- Constructor `MultiRingPriorityCache(f, c)`: as for `MultiRingCache`, with
`N` initialised (unset) locks. -/
def MultiRingPriorityCache.construct {V : Type} (N c : Nat) :
    Constructed (MultiRingPriorityCache V) :=
  if N = 0 then none
  else some { caches := List.replicate N (SingleCache.fresh (c / N)),
              locks := List.replicate N false,
              capacity := c, single_capacity := c / N }

/-- The states of a `MultiRingCache` built for `N` threads with requested
capacity `C`: `N` shards, each of capacity `C / N`. -/
def RingWF {V : Type} (N C : Nat) (r : MultiRingCache V) : Prop :=
  r.single_capacity = C / N ∧ r.caches.length = N ∧ ∀ sh ∈ r.caches, sh.capacity = C / N

/-! ## Reference algorithm of the specification -/

/-- Reference `get` of section 4.2 of the specification, written from its
words.  Look up `k`; if found, splice its node to the tail, increment hits and
return the stored value; if missing, increment misses, call `v = P(k)`, insert
`(k, v)` at the tail and evict the head if the number of entries exceeds the
capacity.  The counters of the reference are unbounded natural numbers. -/
def spec_get {K V : Type} [DecidableEq K] (P : K → V) (c : SingleCache K V) (k : K) :
    V × SingleCache K V :=
  match c.container.lookup k with
  | some v =>
    (v, { c with container := c.container.filter (fun e => e.1 ≠ k) ++ [(k, v)],
                 cache_hits := c.cache_hits + 1 })
  | none =>
    let v := P k
    let entries := c.container ++ [(k, v)]
    (v, { c with cache_misses := c.cache_misses + 1,
                 container := if entries.length > c.capacity then entries.tail else entries })

/-! ## Capacity accessors -/

/-- Accessor `SingleCache::capacity()`: returns `_capacity`. -/
def SingleCache.get_capacity {K V : Type} (c : SingleCache K V) : Nat := c.capacity

/-- Accessor `MultiCache::capacity()`: returns `_capacity`, the constructor
argument. -/
def MultiCache.get_capacity {K V : Type} (r : MultiCache K V) : Nat := r.capacity

/-- Accessor `MultiRingCache::capacity()`: returns `_capacity`, the constructor
argument. -/
def MultiRingCache.get_capacity {V : Type} (r : MultiRingCache V) : Nat := r.capacity

/-- Accessor `MultiRingPriorityCache::capacity()`: returns `_capacity`, the
constructor argument. -/
def MultiRingPriorityCache.get_capacity {V : Type} (r : MultiRingPriorityCache V) : Nat :=
  r.capacity

/-! ## Statistics rollup of the composite caches

The accessors `hits()`, `misses()` and `num_lookups()` of the composite caches
accumulate the `uint64_t` counters of the shards in a local variable of type
`int` and return it as `uint64_t`.  An `int` has 32 bits; conversions between
integer types reduce modulo the range of the target type. -/

/-- Conversion of an integer value to `int`: the value modulo `2 ^ 32`, taken
in `[-2 ^ 31, 2 ^ 31)`. -/
def to_int (z : Int) : Int := (z + 2 ^ 31) % 2 ^ 32 - 2 ^ 31

/-- Conversion of an `int` to `uint64_t`: the value modulo `2 ^ 64`. -/
def int_to_uint64 (z : Int) : Nat := (z % 2 ^ 64).toNat

/-- The statement `total += x` for `int total` and a `uint64_t` value `x`: both
operands are brought to `uint64_t`, added there, and the sum is converted back
to `int`. -/
def int_add_assign (total : Int) (x : Nat) : Int :=
  to_int (((int_to_uint64 total + x) % UINT64_RANGE : Nat) : Int)

/-- The body shared by the rollup accessors: `int total = 0;`, then
`total += counter` over the shards in order, then `return total;` from a function
returning `uint64_t`. -/
def rollup (counters : List Nat) : Nat :=
  int_to_uint64 (counters.foldl int_add_assign 0)

/-- Accessor `MultiCache::hits()`. -/
def MultiCache.hits {K V : Type} (r : MultiCache K V) : Nat :=
  rollup (r.caches.map SingleCache.hits)

/-- Accessor `MultiCache::misses()`. -/
def MultiCache.misses {K V : Type} (r : MultiCache K V) : Nat :=
  rollup (r.caches.map SingleCache.misses)

/-- Accessor `MultiRingCache::hits()`. -/
def MultiRingCache.hits {V : Type} (r : MultiRingCache V) : Nat :=
  rollup (r.caches.map SingleCache.hits)

/-- Accessor `MultiRingCache::misses()`. -/
def MultiRingCache.misses {V : Type} (r : MultiRingCache V) : Nat :=
  rollup (r.caches.map SingleCache.misses)

/-- Accessor `MultiRingCache::num_lookups()`. -/
def MultiRingCache.num_lookups {V : Type} (r : MultiRingCache V) : Nat :=
  rollup (r.caches.map SingleCache.num_lookups)

/-- Accessor `MultiRingPriorityCache::hits()`. -/
def MultiRingPriorityCache.hits {V : Type} (r : MultiRingPriorityCache V) : Nat :=
  rollup (r.caches.map SingleCache.hits)

/-- Accessor `MultiRingPriorityCache::misses()`. -/
def MultiRingPriorityCache.misses {V : Type} (r : MultiRingPriorityCache V) : Nat :=
  rollup (r.caches.map SingleCache.misses)

/-- Accessor `MultiRingPriorityCache::num_lookups()`. -/
def MultiRingPriorityCache.num_lookups {V : Type} (r : MultiRingPriorityCache V) : Nat :=
  rollup (r.caches.map SingleCache.num_lookups)

/-- A ring cache for one thread whose single shard (capacity 4) holds the given
entries and counter values. -/
def ringOneShard (entries : List (Nat × Nat)) (hits misses : Nat) : MultiRingCache Nat :=
  { caches := [{ capacity := 4, container := entries, cache_hits := hits,
                 cache_misses := misses }],
    capacity := 4, single_capacity := 4 }

/-! ## Calls on the per-thread cache -/

/-- Record of one call of `MultiCache::operator()`. -/
structure WorkerStep (K E V : Type) where
  /-- Index of the shard the call was made on. -/
  shard : Nat
  /-- Record of the call made on that shard. -/
  step : Step K E V
  /-- The object state when control leaves the call. -/
  cache : MultiCache K V

/-- The call `MultiCache::operator()(k)` made by the thread for which
`omp_get_thread_num()` is `worker`: the non-locking `operator()` of
`_caches[worker]` is applied to `k`; `none` when the vector access or the shard
call has no defined behaviour. -/
def MultiCache.get {K E V : Type} [DecidableEq K] (worker : Nat) (fn : K → Except E V)
    (r : MultiCache K V) (k : K) : Option (WorkerStep K E V) :=
  match r.caches[worker]? with
  | none => none
  | some shard =>
    match SingleCache.get false fn shard k with
    | none => none
    | some s => some { shard := worker, step := s,
                       cache := { r with caches := r.caches.set worker s.cache } }

/-! ## Stack distance -/

/-- The number of distinct keys requested since the most recent call for `k` in
the sequence of calls `pre`: the keys whose most recent call is later than the
most recent call for `k` (so `k` itself is not counted). -/
def distinctSince {K : Type} [DecidableEq K] (k : K) (pre : List K) : Nat :=
  (pre.toFinset.filter (fun y => lastUse k pre < lastUse y pre)).card

/-- The keys `L` of a store of capacity `C` after the calls `pre`: at most `C`
keys in recency order, all requested keys while there is room, and with each
stored key every key requested more recently. -/
def LruKeys {K : Type} [DecidableEq K] (C : Nat) (pre L : List K) : Prop :=
  L.length ≤ C ∧ RecentKeys pre L ∧
  (L.length < C → ∀ y ∈ pre, y ∈ L) ∧
  (∀ x ∈ L, ∀ y ∈ pre, lastUse x pre < lastUse y pre → y ∈ L)

/-- The call recorded by `s`, made in state `c`, was a hit: `cache_hits` was
incremented, `cache_misses` was not, and `_fn` was not invoked. -/
def IsHit {K E V : Type} (c : SingleCache K V) (s : Step K E V) : Prop :=
  s.calls = [] ∧ s.cache.cache_hits = (c.cache_hits + 1) % UINT64_RANGE ∧
    s.cache.cache_misses = c.cache_misses

/-- The call for `k` recorded by `s`, made in state `c`, was a miss:
`cache_misses` was incremented, `cache_hits` was not, and `_fn` was invoked on
`k`. -/
def IsMiss {K E V : Type} (c : SingleCache K V) (k : K) (s : Step K E V) : Prop :=
  s.calls = [k] ∧ s.cache.cache_misses = (c.cache_misses + 1) % UINT64_RANGE ∧
    s.cache.cache_hits = c.cache_hits

/-! ## Sequences of calls on a composite cache -/

/-- A caller issuing one call per input of a list, one after the other: `call`
is the call on the current state, `after` the state left by a call; the records
of the calls are collected in order. -/
def runCalls {σ ι ρ : Type} (call : σ → ι → Option ρ) (after : ρ → σ) :
    σ → List ι → Option (List ρ)
  | _, [] => some []
  | st, x :: xs =>
    match call st x with
    | none => none
    | some r =>
      match runCalls call after (after r) xs with
      | none => none
      | some rs => some (r :: rs)

/-- The state after a list of calls: the state left by the last call, or the
initial state when no call was made. -/
def finalState {σ ρ : Type} (after : ρ → σ) (st : σ) (rs : List ρ) : σ :=
  match rs.getLast? with
  | none => st
  | some r => after r

/-- Calls `ring(k)` on a `MultiRingCache` for each key of a list in turn. -/
def MultiRingCache.gets {E V : Type} (N : Nat) (fn : Nat → Except E V) :
    MultiRingCache V → List Nat → Option (List (RingStep E V)) :=
  runCalls (MultiRingCache.get N fn) RingStep.cache

/-- Calls on a `MultiCache`, each given as the pair of the calling worker and
the key, one after the other. -/
def MultiCache.gets {K E V : Type} [DecidableEq K] (fn : K → Except E V) :
    MultiCache K V → List (Nat × K) → Option (List (WorkerStep K E V)) :=
  runCalls (fun r wk => MultiCache.get wk.1 fn r wk.2) WorkerStep.cache

/-- The number of entries stored over all shards. -/
def totalEntries {K V : Type} (caches : List (SingleCache K V)) : Nat :=
  (caches.map (fun sh => sh.container.length)).sum

/-- Shards of a composite cache built for `N` threads with per-shard capacity
`S`, each holding at most `S` entries. -/
def ShardsBounded {K V : Type} (N S : Nat) (caches : List (SingleCache K V)) : Prop :=
  caches.length = N ∧ ∀ sh ∈ caches, sh.capacity = S ∧ sh.container.length ≤ S

/-! ## Calls on the opportunistic ring cache

The member `_locks` is the list of lock states, `true` for a lock that is set.
A call is followed on the thread of the caller; the locks set by other threads
are part of the state in which the call starts. -/

/-- The call `omp_test_lock(&_locks[i])`: a lock that is set is left alone and
the result is `false`; an unset lock is set for the caller and the result is
`true`. -/
def omp_test_lock (locks : List Bool) (i : Nat) : Option (Bool × List Bool) :=
  match locks[i]? with
  | none => none
  | some true => some (false, locks)
  | some false => some (true, locks.set i true)

/-- The call `omp_unset_lock(&_locks[i])`. -/
def omp_unset_lock (locks : List Bool) (i : Nat) : Option (List Bool) :=
  match locks[i]? with
  | none => none
  | some _ => some (locks.set i false)

/-- Record of one returning call of `MultiRingPriorityCache::operator()`. -/
structure PriorityStep (E V : Type) where
  /-- Index of the shard the call was dispatched to. -/
  shard : Nat
  /-- Record of the call made on that shard. -/
  step : Step Nat E V
  /-- The object state when control leaves the call. -/
  cache : MultiRingPriorityCache V

/-- How far a call of `MultiRingPriorityCache::operator()` gets on its own:
it returns, or it is suspended in `omp_set_lock` on the lock of shard `owner`,
which another thread holds. -/
inductive PriorityResult (E V : Type) where
  | returned (st : PriorityStep E V)
  | blocked (owner : Nat)

/-- The index `((size_t)(k / _single_capacity) + i) % omp_get_max_threads()`
tried at iteration `i`; the sum is a `size_t` sum.  `none` when a divisor is
zero. -/
def priorityIndex (single_capacity N k i : Nat) : Option Nat :=
  if single_capacity = 0 ∨ N = 0 then none
  else some (((k / single_capacity + i) % UINT64_RANGE) % N)

/-- The statements executed with the lock of shard `idx` held by the caller,
`locks` being the lock states at that point: the non-locking `operator()` of
`_caches[idx]` is applied to `k`, then the lock is unset and the value returned.
When the shard call throws, the exception leaves `operator()` before
`omp_unset_lock` is reached. -/
def priority_dispatch {E V : Type} (fn : Nat → Except E V) (r : MultiRingPriorityCache V)
    (locks : List Bool) (idx k : Nat) : Option (PriorityStep E V) :=
  match r.caches[idx]? with
  | none => none
  | some shard =>
    match SingleCache.get false fn shard k with
    | none => none
    | some s =>
      match s.outcome with
      | Except.error _ =>
        some { shard := idx, step := s,
               cache := { r with caches := r.caches.set idx s.cache, locks := locks } }
      | Except.ok _ =>
        match omp_unset_lock locks idx with
        | none => none
        | some locks2 =>
          some { shard := idx, step := s,
                 cache := { r with caches := r.caches.set idx s.cache, locks := locks2 } }

/-- The loop `for (size_t i = 0; i < omp_get_max_threads(); i++)` of
`MultiRingPriorityCache::operator()`, with `n` iterations left and loop
variable `i`: `some none` when the loop ends without a return. -/
def priority_loop {E V : Type} (N : Nat) (fn : Nat → Except E V)
    (r : MultiRingPriorityCache V) (k : Nat) :
    Nat → Nat → Option (Option (PriorityStep E V))
  | 0, _ => some none
  | n + 1, i =>
    match priorityIndex r.single_capacity N k i with
    | none => none
    | some idx =>
      match omp_test_lock r.locks idx with
      | none => none
      | some (false, _) => priority_loop N fn r k n (i + 1)
      | some (true, locks1) =>
        match priority_dispatch fn r locks1 idx k with
        | none => none
        | some st => some (some st)

/-- The call `omp_set_lock(&_locks[i])` at the moment the lock is granted to
the caller: this requires the lock to be unset, and sets it. -/
def omp_set_lock_granted (locks : List Bool) (i : Nat) : Option (List Bool) :=
  match locks[i]? with
  | some false => some (locks.set i true)
  | _ => none

/-- The statements after the loop, from the point where `omp_set_lock` on the
lock of the owner shard `(size_t)(k / _single_capacity) % omp_get_max_threads()`
is granted to the caller: the lock is set, the shard call is made, and the lock
is unset again. -/
def MultiRingPriorityCache.get_granted {E V : Type} (N : Nat) (fn : Nat → Except E V)
    (r : MultiRingPriorityCache V) (k : Nat) : Option (PriorityStep E V) :=
  match ringIndex r.single_capacity N k with
  | none => none
  | some idx =>
    match omp_set_lock_granted r.locks idx with
    | none => none
    | some locks1 => priority_dispatch fn r locks1 idx k

/-- The call `MultiRingPriorityCache::operator()(k)`.  After a loop without
return the caller executes `omp_set_lock` on the lock of the owner shard: if
that lock is set, the call is suspended there (`blocked`); it goes on as
`get_granted` once the lock has been unset by its holder. -/
def MultiRingPriorityCache.get {E V : Type} (N : Nat) (fn : Nat → Except E V)
    (r : MultiRingPriorityCache V) (k : Nat) : Option (PriorityResult E V) :=
  match priority_loop N fn r k N 0 with
  | none => none
  | some (some st) => some (PriorityResult.returned st)
  | some none =>
    match ringIndex r.single_capacity N k with
    | none => none
    | some idx =>
      match r.locks[idx]? with
      | none => none
      | some true => some (PriorityResult.blocked idx)
      | some false =>
        match MultiRingPriorityCache.get_granted N fn r k with
        | none => none
        | some st => some (PriorityResult.returned st)

/-- One call on the opportunistic ring cache seen with its environment: before
the call the other threads hold the locks `held`; a call suspended on the lock
of shard `owner` goes on when the holder has unset that lock. -/
def MultiRingPriorityCache.call_in_env {E V : Type} (N : Nat) (fn : Nat → Except E V)
    (r : MultiRingPriorityCache V) (input : List Bool × Nat) : Option (PriorityStep E V) :=
  match MultiRingPriorityCache.get N fn { r with locks := input.1 } input.2 with
  | none => none
  | some (PriorityResult.returned st) => some st
  | some (PriorityResult.blocked owner) =>
    MultiRingPriorityCache.get_granted N fn { r with locks := input.1.set owner false } input.2

/-- Calls on a `MultiRingPriorityCache`, each given as the pair of the locks
held by other threads when it starts and the key, one after the other. -/
def MultiRingPriorityCache.gets {E V : Type} (N : Nat) (fn : Nat → Except E V) :
    MultiRingPriorityCache V → List (List Bool × Nat) → Option (List (PriorityStep E V)) :=
  runCalls (MultiRingPriorityCache.call_in_env N fn) PriorityStep.cache

/-- The shards and capacities of an opportunistic ring cache seen as a
`MultiRingCache`. -/
def MultiRingPriorityCache.toRing {V : Type} (r : MultiRingPriorityCache V) :
    MultiRingCache V :=
  { caches := r.caches, capacity := r.capacity, single_capacity := r.single_capacity }

/-- The states of a `MultiRingPriorityCache` built for `N` threads with
requested capacity `C`: `N` shards of capacity `C / N` and `N` locks. -/
def PriorityWF {V : Type} (N C : Nat) (r : MultiRingPriorityCache V) : Prop :=
  r.single_capacity = C / N ∧ r.caches.length = N ∧ r.locks.length = N ∧
    ∀ sh ∈ r.caches, sh.capacity = C / N

/-- The shape kept by the calls on an opportunistic ring cache built for `N`
threads with per-shard capacity `S` (the locks are left out: they also change
under the other threads). -/
def PriorityShape {V : Type} (N S : Nat) (r : MultiRingPriorityCache V) : Prop :=
  r.single_capacity = S ∧ ShardsBounded N S r.caches

/-- The shards of a ring cache built for `N` threads with per-shard capacity
`S`, after the calls `pre`: shard `i` has capacity `S` and stores the keys
described by `LruKeys` for the calls routed to it. -/
def RingLru {V : Type} (N S : Nat) (pre : List Nat) (r : MultiRingCache V) : Prop :=
  r.single_capacity = S ∧ r.caches.length = N ∧
  ∀ i sh, r.caches[i]? = some sh →
    sh.capacity = S ∧
    LruKeys S (pre.filter (fun y => (y / S) % N = i)) (sh.container.map Prod.fst)

/-- The requests of `mid` for keys other than `k` that are routed to the shard
of `k`. -/
def sameShardOthers (S N k : Nat) (mid : List Nat) : List Nat :=
  mid.filter (fun y => (y / S) % N = (k / S) % N ∧ y ≠ k)

/-! # Verification -/

/-! ## Basic facts about the container operations -/

theorem bimapFind_eq_none_iff {K V : Type} [DecidableEq K] (k : K) (l : List (K × V)) :
    bimapFind k l = none ↔ k ∉ l.map Prod.fst := by
  induction l with
  | nil => simp [bimapFind]
  | cons e rest ih =>
    obtain ⟨k', v⟩ := e
    by_cases h : k' = k
    · simp [bimapFind, h]
    · simp [bimapFind, h, ih, Ne.symm h]

theorem bimapFind_some_mem {K V : Type} [DecidableEq K] {k : K} {v : V} {l : List (K × V)}
    (h : bimapFind k l = some v) : (k, v) ∈ l := by
  induction l with
  | nil => simp [bimapFind] at h
  | cons e rest ih =>
    obtain ⟨k', v'⟩ := e
    by_cases hk : k' = k
    · simp [bimapFind, hk] at h
      simp [hk, h]
    · simp [bimapFind, hk] at h
      exact List.mem_cons_of_mem _ (ih h)

theorem bimapFind_of_mem_keys {K V : Type} [DecidableEq K] {k : K} {l : List (K × V)}
    (h : k ∈ l.map Prod.fst) : ∃ v, bimapFind k l = some v := by
  cases hf : bimapFind k l with
  | none => exact absurd h ((bimapFind_eq_none_iff k l).1 hf)
  | some v => exact ⟨v, rfl⟩

theorem keys_bimapRemove {K V : Type} [DecidableEq K] (k : K) (l : List (K × V)) :
    (bimapRemove k l).map Prod.fst = (l.map Prod.fst).erase k := by
  induction l with
  | nil => simp [bimapRemove]
  | cons e rest ih =>
    obtain ⟨k', v⟩ := e
    by_cases h : k' = k
    · simp [bimapRemove, h]
    · simp [bimapRemove, h, ih, List.erase_cons_tail]

theorem mem_of_mem_bimapRemove {K V : Type} [DecidableEq K] {k : K} {e : K × V}
    {l : List (K × V)} (h : e ∈ bimapRemove k l) : e ∈ l := by
  induction l with
  | nil => simp [bimapRemove] at h
  | cons e' rest ih =>
    obtain ⟨k', v⟩ := e'
    by_cases hk : k' = k
    · simp [bimapRemove, hk] at h
      exact List.mem_cons_of_mem _ h
    · simp [bimapRemove, hk] at h
      rcases h with h | h
      · simp [h]
      · exact List.mem_cons_of_mem _ (ih h)

theorem length_bimapRemove {K V : Type} [DecidableEq K] {k : K} {v : V} {l : List (K × V)}
    (h : bimapFind k l = some v) : (bimapRemove k l).length + 1 = l.length := by
  induction l with
  | nil => simp [bimapFind] at h
  | cons e rest ih =>
    obtain ⟨k', v'⟩ := e
    by_cases hk : k' = k
    · simp [bimapRemove, hk]
    · simp [bimapFind, hk] at h
      simp [bimapRemove, hk, ih h]

/-! ## The three ways a call of `operator()` can go -/

theorem get_lock_eq_get_nolock {K E V : Type} [DecidableEq K] (fn : K → Except E V)
    (c : SingleCache K V) (k : K) :
    SingleCache.get_lock fn c k = SingleCache.get_nolock fn c k := rfl

theorem get_eq_get_nolock {K E V : Type} [DecidableEq K] (B : Bool) (fn : K → Except E V)
    (c : SingleCache K V) (k : K) :
    SingleCache.get B fn c k = SingleCache.get_nolock fn c k := by
  cases B <;> simp [SingleCache.get, get_lock_eq_get_nolock]

/-- A hit: the stored value is returned, the relation moves to the end of the
list, `cache_hits` is incremented and `_fn` is not invoked. -/
theorem get_hit {K E V : Type} [DecidableEq K] (B : Bool) (fn : K → Except E V)
    (c : SingleCache K V) (k : K) (v : V) (h : bimapFind k c.container = some v) :
    SingleCache.get B fn c k = some
      { outcome := Except.ok v,
        cache := { c with cache_hits := (c.cache_hits + 1) % UINT64_RANGE,
                          container := bimapRemove k c.container ++ [(k, v)] },
        calls := [], evicted := [] } := by
  rw [get_eq_get_nolock]
  simp [SingleCache.get_nolock, h, bimapRelocateEnd]

/-- A miss on which `_fn` throws: the exception leaves the call before any
member is written. -/
theorem get_miss_throw {K E V : Type} [DecidableEq K] (B : Bool) (fn : K → Except E V)
    (c : SingleCache K V) (k : K) (e : E) (h : bimapFind k c.container = none)
    (hf : fn k = Except.error e) :
    SingleCache.get B fn c k = some
      { outcome := Except.error e, cache := c, calls := [k], evicted := [] } := by
  rw [get_eq_get_nolock]
  simp [SingleCache.get_nolock, h, hf]

/-- A miss while the container holds a number of entries different from the
capacity: the new relation is appended and nothing is erased. -/
theorem get_miss_room {K E V : Type} [DecidableEq K] (B : Bool) (fn : K → Except E V)
    (c : SingleCache K V) (k : K) (v : V) (h : bimapFind k c.container = none)
    (hf : fn k = Except.ok v) (hlen : c.container.length ≠ c.capacity) :
    SingleCache.get B fn c k = some
      { outcome := Except.ok v,
        cache := { c with cache_misses := (c.cache_misses + 1) % UINT64_RANGE,
                          container := c.container ++ [(k, v)] },
        calls := [k], evicted := [] } := by
  rw [get_eq_get_nolock]
  simp [SingleCache.get_nolock, h, hf, SingleCache.insert, hlen, bimapInsert]

/-- A miss while the container holds exactly `capacity` entries and is not
empty: the head of the list is erased and the new relation is appended. -/
theorem get_miss_full {K E V : Type} [DecidableEq K] (B : Bool) (fn : K → Except E V)
    (c : SingleCache K V) (k : K) (v : V) (e : K × V) (rest : List (K × V))
    (h : bimapFind k c.container = none) (hf : fn k = Except.ok v)
    (hc : c.container = e :: rest) (hlen : c.container.length = c.capacity) :
    SingleCache.get B fn c k = some
      { outcome := Except.ok v,
        cache := { c with cache_misses := (c.cache_misses + 1) % UINT64_RANGE,
                          container := rest ++ [(k, v)] },
        calls := [k], evicted := [e] } := by
  have hrest : bimapFind k rest = none := by
    rw [bimapFind_eq_none_iff] at h ⊢
    intro hm
    apply h
    rw [hc]
    simp only [List.map_cons, List.mem_cons]
    exact Or.inr hm
  rw [get_eq_get_nolock]
  simp only [SingleCache.get_nolock, h, hf, SingleCache.insert, hlen]
  simp [hc, bimapInsert, hrest]


/-- With a producer that never throws and a capacity of at least one, every
call returns, in one of three ways: a hit, a miss with room left, or a miss
that erases the head of the list. -/
theorem get_pure_cases {K V : Type} [DecidableEq K] (B : Bool) (E : Type) (P : K → V)
    (c : SingleCache K V) (k : K) (hcap : 1 ≤ c.capacity) :
    (∃ v, bimapFind k c.container = some v ∧
      SingleCache.get B (pureFn E P) c k = some
        { outcome := Except.ok v,
          cache := { c with cache_hits := (c.cache_hits + 1) % UINT64_RANGE,
                            container := bimapRemove k c.container ++ [(k, v)] },
          calls := [], evicted := [] }) ∨
    (bimapFind k c.container = none ∧ c.container.length ≠ c.capacity ∧
      SingleCache.get B (pureFn E P) c k = some
        { outcome := Except.ok (P k),
          cache := { c with cache_misses := (c.cache_misses + 1) % UINT64_RANGE,
                            container := c.container ++ [(k, P k)] },
          calls := [k], evicted := [] }) ∨
    (bimapFind k c.container = none ∧ c.container.length = c.capacity ∧
      ∃ e rest, c.container = e :: rest ∧
      SingleCache.get B (pureFn E P) c k = some
        { outcome := Except.ok (P k),
          cache := { c with cache_misses := (c.cache_misses + 1) % UINT64_RANGE,
                            container := rest ++ [(k, P k)] },
          calls := [k], evicted := [e] }) := by
  cases hf : bimapFind k c.container with
  | some v => exact Or.inl ⟨v, rfl, get_hit B _ c k v hf⟩
  | none =>
    right
    by_cases hlen : c.container.length = c.capacity
    · right
      refine ⟨rfl, hlen, ?_⟩
      cases hc : c.container with
      | nil => rw [hc] at hlen; simp at hlen; omega
      | cons e rest => exact ⟨e, rest, rfl, get_miss_full B _ c k (P k) e rest hf rfl hc hlen⟩
    · left
      exact ⟨rfl, hlen, get_miss_room B _ c k (P k) hf rfl hlen⟩

/-! ## Sequences of calls -/

theorem finalCache_nil {K E V : Type} (c : SingleCache K V) :
    finalCache c ([] : List (Step K E V)) = c := rfl

theorem finalCache_cons {K E V : Type} (c : SingleCache K V) (s : Step K E V)
    (ss : List (Step K E V)) : finalCache c (s :: ss) = finalCache s.cache ss := by
  cases ss with
  | nil => rfl
  | cons t r =>
    have h : (t :: r).getLast? = some ((t :: r).getLast (List.cons_ne_nil t r)) :=
      List.getLast?_eq_getLast _ _
    simp [finalCache, List.getLast?_cons_cons, h]

theorem finalCache_snoc {K E V : Type} (c : SingleCache K V) (s : Step K E V)
    (ss : List (Step K E V)) : finalCache c (ss ++ [s]) = s.cache := by
  simp [finalCache]

theorem gets_nil {K E V : Type} [DecidableEq K] (B : Bool) (fn : K → Except E V)
    (c : SingleCache K V) : SingleCache.gets B fn c [] = some [] := rfl

theorem gets_cons {K E V : Type} [DecidableEq K] (B : Bool) (fn : K → Except E V)
    (c : SingleCache K V) (k : K) (ks : List K) (s : Step K E V) (ss : List (Step K E V))
    (h1 : SingleCache.get B fn c k = some s) (h2 : SingleCache.gets B fn s.cache ks = some ss) :
    SingleCache.gets B fn c (k :: ks) = some (s :: ss) := by
  simp [SingleCache.gets, h1, h2]

theorem gets_cons_inv {K E V : Type} [DecidableEq K] (B : Bool) (fn : K → Except E V)
    (c : SingleCache K V) (k : K) (ks : List K) (ss : List (Step K E V))
    (h : SingleCache.gets B fn c (k :: ks) = some ss) :
    ∃ s rest, ss = s :: rest ∧ SingleCache.get B fn c k = some s ∧
      SingleCache.gets B fn s.cache ks = some rest := by
  simp only [SingleCache.gets] at h
  cases h1 : SingleCache.get B fn c k with
  | none => simp [h1] at h
  | some s =>
    cases h2 : SingleCache.gets B fn s.cache ks with
    | none => simp [h1, h2] at h
    | some rest =>
      simp [h1, h2] at h
      exact ⟨s, rest, h.symm, rfl, h2⟩

theorem gets_length {K E V : Type} [DecidableEq K] (B : Bool) (fn : K → Except E V) :
    ∀ (ks : List K) (c : SingleCache K V) (ss : List (Step K E V)),
      SingleCache.gets B fn c ks = some ss → ss.length = ks.length := by
  intro ks
  induction ks with
  | nil => intro c ss h; simp [SingleCache.gets] at h; simp [← h]
  | cons k ks ih =>
    intro c ss h
    obtain ⟨s, rest, rfl, _, h2⟩ := gets_cons_inv B fn c k ks ss h
    simp [ih _ _ h2]

/-- A sequence of calls split in two: the second part starts in the state left
by the first. -/
theorem gets_append {K E V : Type} [DecidableEq K] (B : Bool) (fn : K → Except E V) :
    ∀ (ks1 ks2 : List K) (c : SingleCache K V) (ss1 ss2 : List (Step K E V)),
      SingleCache.gets B fn c ks1 = some ss1 →
      SingleCache.gets B fn (finalCache c ss1) ks2 = some ss2 →
      SingleCache.gets B fn c (ks1 ++ ks2) = some (ss1 ++ ss2) := by
  intro ks1
  induction ks1 with
  | nil =>
    intro ks2 c ss1 ss2 h1 h2
    simp [SingleCache.gets] at h1
    subst h1
    simpa [finalCache_nil] using h2
  | cons k ks ih =>
    intro ks2 c ss1 ss2 h1 h2
    obtain ⟨s, rest, rfl, hs, hrest⟩ := gets_cons_inv B fn c k ks ss1 h1
    rw [finalCache_cons] at h2
    have := ih ks2 s.cache rest ss2 hrest h2
    simpa using gets_cons B fn c k (ks ++ ks2) s (rest ++ ss2) hs this

/-- Induction along a sequence of calls with an invariant that may mention the
calls made so far: if every call from a state satisfying the invariant returns
and re-establishes it, the whole sequence returns and the invariant holds after
every call. -/
theorem gets_hist_inv {K E V : Type} [DecidableEq K] (B : Bool) (fn : K → Except E V)
    (HInv : List K → SingleCache K V → Prop)
    (hstep : ∀ pre c k, HInv pre c →
      ∃ s, SingleCache.get B fn c k = some s ∧ HInv (pre ++ [k]) s.cache) :
    ∀ (ks pre : List K) (c : SingleCache K V), HInv pre c →
      ∃ ss, SingleCache.gets B fn c ks = some ss ∧
        ∀ i, i ≤ ks.length → HInv (pre ++ ks.take i) (finalCache c (ss.take i)) := by
  intro ks
  induction ks with
  | nil =>
    intro pre c h
    exact ⟨[], rfl, fun i _ => by simpa [finalCache_nil] using h⟩
  | cons k ks ih =>
    intro pre c h
    obtain ⟨s, hs, hinv⟩ := hstep pre c k h
    obtain ⟨ss, hss, hall⟩ := ih (pre ++ [k]) s.cache hinv
    refine ⟨s :: ss, gets_cons B fn c k ks s ss hs hss, ?_⟩
    intro i hi
    cases i with
    | zero => simpa [finalCache_nil] using h
    | succ j =>
      have := hall j (by simpa using hi)
      simpa [finalCache_cons] using this

/-- Every call of a sequence is the call of `operator()` on the state left by
the calls before it. -/
theorem gets_step {K E V : Type} [DecidableEq K] (B : Bool) (fn : K → Except E V) :
    ∀ (ks : List K) (c : SingleCache K V) (ss : List (Step K E V)),
      SingleCache.gets B fn c ks = some ss →
      ∀ (i : Nat) (k : K), ks[i]? = some k →
        ∃ s, ss[i]? = some s ∧ SingleCache.get B fn (finalCache c (ss.take i)) k = some s := by
  intro ks
  induction ks with
  | nil => intro c ss _ i k hk; simp at hk
  | cons k0 ks ih =>
    intro c ss h i k hk
    obtain ⟨s, rest, rfl, hs, hrest⟩ := gets_cons_inv B fn c k0 ks ss h
    cases i with
    | zero =>
      simp at hk
      subst hk
      exact ⟨s, by simp, by simpa [finalCache_nil] using hs⟩
    | succ j =>
      simp at hk
      obtain ⟨t, ht, hget⟩ := ih s.cache rest hrest j k hk
      exact ⟨t, by simpa using ht, by simpa [finalCache_cons] using hget⟩


theorem finalCache_take_succ {K E V : Type} (c : SingleCache K V) (ss : List (Step K E V))
    (i : Nat) (s : Step K E V) (h : ss[i]? = some s) :
    finalCache c (ss.take (i + 1)) = s.cache := by
  rw [List.take_succ, h]
  simp [finalCache_snoc]

/-- With a capacity of at least one every call returns, in one of four ways:
a hit, a miss on which `_fn` throws, a miss with room left, or a miss that
erases the head of the list. -/
theorem get_cases {K E V : Type} [DecidableEq K] (B : Bool) (fn : K → Except E V)
    (c : SingleCache K V) (k : K) (hcap : 1 ≤ c.capacity) :
    (∃ v, bimapFind k c.container = some v ∧
      SingleCache.get B fn c k = some
        { outcome := Except.ok v,
          cache := { c with cache_hits := (c.cache_hits + 1) % UINT64_RANGE,
                            container := bimapRemove k c.container ++ [(k, v)] },
          calls := [], evicted := [] }) ∨
    (bimapFind k c.container = none ∧ ∃ e, fn k = Except.error e ∧
      SingleCache.get B fn c k = some
        { outcome := Except.error e, cache := c, calls := [k], evicted := [] }) ∨
    (bimapFind k c.container = none ∧ c.container.length ≠ c.capacity ∧
      ∃ v, fn k = Except.ok v ∧
      SingleCache.get B fn c k = some
        { outcome := Except.ok v,
          cache := { c with cache_misses := (c.cache_misses + 1) % UINT64_RANGE,
                            container := c.container ++ [(k, v)] },
          calls := [k], evicted := [] }) ∨
    (bimapFind k c.container = none ∧ c.container.length = c.capacity ∧
      ∃ v, fn k = Except.ok v ∧ ∃ e rest, c.container = e :: rest ∧
      SingleCache.get B fn c k = some
        { outcome := Except.ok v,
          cache := { c with cache_misses := (c.cache_misses + 1) % UINT64_RANGE,
                            container := rest ++ [(k, v)] },
          calls := [k], evicted := [e] }) := by
  cases hf : bimapFind k c.container with
  | some v => exact Or.inl ⟨v, rfl, get_hit B _ c k v hf⟩
  | none =>
    right
    cases hv : fn k with
    | error e => exact Or.inl ⟨rfl, e, rfl, get_miss_throw B fn c k e hf hv⟩
    | ok v =>
      right
      by_cases hlen : c.container.length = c.capacity
      · right
        refine ⟨rfl, hlen, v, rfl, ?_⟩
        cases hc : c.container with
        | nil => rw [hc] at hlen; simp at hlen; omega
        | cons e rest => exact ⟨e, rest, rfl, get_miss_full B fn c k v e rest hf hv hc hlen⟩
      · left
        exact ⟨rfl, hlen, v, rfl, get_miss_room B fn c k v hf hv hlen⟩

/-! ## Returned values (pure producer) -/

theorem get_pure_sound {K V : Type} [DecidableEq K] (B : Bool) (E : Type) (P : K → V)
    (c : SingleCache K V) (k : K) (hcap : 1 ≤ c.capacity) (hs : Sound P c) :
    ∃ s, SingleCache.get B (pureFn E P) c k = some s ∧ s.outcome = Except.ok (P k) ∧
      s.cache.capacity = c.capacity ∧ Sound P s.cache := by
  rcases get_pure_cases B E P c k hcap with ⟨v, hf, hg⟩ | ⟨hf, _, hg⟩ | ⟨hf, _, e, rest, hc, hg⟩
  · have hv : v = P k := hs (k, v) (bimapFind_some_mem hf)
    refine ⟨_, hg, by simp [hv], rfl, ?_⟩
    intro e he
    simp only [List.mem_append, List.mem_singleton] at he
    rcases he with he | he
    · exact hs e (mem_of_mem_bimapRemove he)
    · simp [he, hv]
  · refine ⟨_, hg, rfl, rfl, ?_⟩
    intro e he
    simp only [List.mem_append, List.mem_singleton] at he
    rcases he with he | he
    · exact hs e he
    · simp [he]
  · refine ⟨_, hg, rfl, rfl, ?_⟩
    intro e' he
    simp only [List.mem_append, List.mem_singleton] at he
    rcases he with he | he
    · exact hs e' (by rw [hc]; exact List.mem_cons_of_mem _ he)
    · simp [he]

theorem gets_pure_outcomes {K V : Type} [DecidableEq K] (B : Bool) (E : Type) (P : K → V) :
    ∀ (ks : List K) (c : SingleCache K V), 1 ≤ c.capacity → Sound P c →
      ∃ ss, SingleCache.gets B (pureFn E P) c ks = some ss ∧
        ss.map Step.outcome = ks.map (fun k => Except.ok (P k)) := by
  intro ks
  induction ks with
  | nil => intro c _ _; exact ⟨[], rfl, rfl⟩
  | cons k ks ih =>
    intro c hcap hs
    obtain ⟨s, hg, hout, hc, hs2⟩ := get_pure_sound B E P c k hcap hs
    obtain ⟨ss, hss, hmap⟩ := ih s.cache (by omega) hs2
    exact ⟨s :: ss, gets_cons B _ c k ks s ss hg hss, by simp [hout, hmap]⟩

/-- C1. On a freshly constructed Single cache of capacity `C ≥ 1` (locking or
non-locking overload, calls issued one after the other) with a pure producer
`P`, every sequence of calls returns, and the call for key `k` returns exactly
`P k`, be it a hit or a miss. -/
theorem single_get_returns_producer_value {K V : Type} [DecidableEq K] (B : Bool) (E : Type)
    (P : K → V) (C : Nat) (hC : 1 ≤ C) (ks : List K) :
    ∃ ss, SingleCache.gets B (pureFn E P) (SingleCache.fresh C) ks = some ss ∧
      ss.map Step.outcome = ks.map (fun k => Except.ok (P k)) :=
  gets_pure_outcomes B E P ks (SingleCache.fresh C) hC (by intro e he; simp [SingleCache.fresh] at he)

theorem single_get_returns_producer_value_witness :
    1 ≤ 3 ∧ ∃ ss, SingleCache.gets true (pureFn Unit (fun k : Nat => k * k))
        (SingleCache.fresh 3) [1, 2, 3, 1, 4, 2] = some ss ∧
      ss.map Step.outcome = [1, 2, 3, 1, 4, 2].map (fun k => Except.ok (k * k)) :=
  ⟨by decide, single_get_returns_producer_value true Unit (fun k : Nat => k * k) 3 (by decide)
    [1, 2, 3, 1, 4, 2]⟩

/-! ## Capacity bound -/

theorem get_length_le {K E V : Type} [DecidableEq K] (B : Bool) (fn : K → Except E V)
    (c : SingleCache K V) (k : K) (hcap : 1 ≤ c.capacity)
    (hlen : c.container.length ≤ c.capacity) :
    ∃ s, SingleCache.get B fn c k = some s ∧ s.cache.capacity = c.capacity ∧
      s.cache.container.length ≤ c.capacity := by
  rcases get_cases B fn c k hcap with
    ⟨v, hf, hg⟩ | ⟨hf, e, _, hg⟩ | ⟨hf, hne, v, _, hg⟩ | ⟨hf, heq, v, _, e, rest, hc, hg⟩
  · refine ⟨_, hg, rfl, ?_⟩
    have := length_bimapRemove hf
    simp only [List.length_append, List.length_singleton]
    omega
  · exact ⟨_, hg, rfl, hlen⟩
  · refine ⟨_, hg, rfl, ?_⟩
    simp only [List.length_append, List.length_singleton]
    omega
  · refine ⟨_, hg, rfl, ?_⟩
    have hl : c.container.length = rest.length + 1 := by rw [hc]; rfl
    simp only [List.length_append, List.length_singleton]
    omega

/-- C2. For every capacity `C > 0`, every cached function (throwing or not) and
every sequence of calls on a freshly constructed Single cache, all calls return
and the container holds at most `C` entries after each of them. -/
theorem single_capacity_bound {K E V : Type} [DecidableEq K] (B : Bool)
    (fn : K → Except E V) (C : Nat) (hC : 0 < C) (ks : List K) :
    ∃ ss, SingleCache.gets B fn (SingleCache.fresh C) ks = some ss ∧
      ss.length = ks.length ∧ ∀ s ∈ ss, s.cache.container.length ≤ C := by
  obtain ⟨ss, hss, hall⟩ := gets_hist_inv B fn
    (fun _ c => c.capacity = C ∧ c.container.length ≤ C)
    (by
      intro pre c k hinv
      obtain ⟨hc, hl⟩ := hinv
      obtain ⟨s, hg, hcap, hlen⟩ := get_length_le B fn c k (by omega) (by omega)
      exact ⟨s, hg, by omega, by omega⟩)
    ks [] (SingleCache.fresh C) ⟨rfl, by simp [SingleCache.fresh]⟩
  have hlen := gets_length B fn ks _ ss hss
  refine ⟨ss, hss, hlen, ?_⟩
  intro s hs
  obtain ⟨i, hi, hget⟩ := List.getElem_of_mem hs
  have h1 := hall (i + 1) (by omega)
  rw [finalCache_take_succ _ ss i s (by simp [List.getElem?_eq_getElem hi, hget])] at h1
  exact h1.2

theorem single_capacity_bound_witness :
    0 < 2 ∧ ∃ ss, SingleCache.gets false (pureFn Unit (fun k : Nat => k))
        (SingleCache.fresh 2) [1, 2, 3, 1] = some ss ∧
      ss.length = [1, 2, 3, 1].length ∧ ∀ s ∈ ss, s.cache.container.length ≤ 2 :=
  ⟨by decide, single_capacity_bound false (pureFn Unit (fun k : Nat => k)) 2 (by decide)
    [1, 2, 3, 1]⟩


/-! ## LRU order -/

theorem lastUse_snoc {K : Type} [DecidableEq K] (x k : K) (ks : List K) :
    lastUse x (ks ++ [k]) = if k = x then ks.length + 1 else lastUse x ks := by
  simp [lastUse, lastUseRev, List.reverse_append]

theorem lastUseRev_le {K : Type} [DecidableEq K] (x : K) (l : List K) :
    lastUseRev x l ≤ l.length := by
  induction l with
  | nil => simp [lastUseRev]
  | cons k r ih =>
    by_cases h : k = x
    · simp [lastUseRev, h]
    · simp [lastUseRev, h]; omega

theorem lastUse_le {K : Type} [DecidableEq K] (x : K) (ks : List K) :
    lastUse x ks ≤ ks.length := by
  simpa [lastUse] using lastUseRev_le x ks.reverse

theorem RecentKeys.nodup {K : Type} [DecidableEq K] {pre L : List K}
    (h : RecentKeys pre L) : L.Nodup :=
  h.2.imp (fun hab => by intro heq; subst heq; exact absurd hab (lt_irrefl _))

/-- After a call for `k`, any part `M` of the old order that does not contain
`k`, followed by `k`, is the new order. -/
theorem RecentKeys.snoc {K : Type} [DecidableEq K] {pre L M : List K} (k : K)
    (h : RecentKeys pre L) (hsub : M.Sublist L) (hk : k ∉ M) :
    RecentKeys (pre ++ [k]) (M ++ [k]) := by
  have hne : ∀ a ∈ M, ¬ k = a := fun a ha heq => hk (heq ▸ ha)
  constructor
  · intro x hx
    simp only [List.mem_append, List.mem_singleton] at hx
    rcases hx with hx | hx
    · rw [lastUse_snoc, if_neg (hne x hx)]
      exact h.1 x (hsub.subset hx)
    · subst hx
      simp [lastUse_snoc]
  · rw [List.pairwise_append]
    refine ⟨?_, List.pairwise_singleton _ _, ?_⟩
    · refine (h.2.sublist hsub).imp_of_mem ?_
      intro a b ha hb hab
      rw [lastUse_snoc, lastUse_snoc, if_neg (hne a ha), if_neg (hne b hb)]
      exact hab
    · intro a ha b hb
      simp only [List.mem_singleton] at hb
      subst hb
      rw [lastUse_snoc, lastUse_snoc, if_neg (hne a ha), if_pos rfl]
      have := lastUse_le a pre
      omega

/-- One call re-establishes the recency order of the stored keys. -/
theorem get_pure_recent {K V : Type} [DecidableEq K] (B : Bool) (E : Type) (P : K → V)
    (c : SingleCache K V) (k : K) (pre : List K) (hcap : 1 ≤ c.capacity)
    (h : RecentKeys pre (c.container.map Prod.fst)) :
    ∃ s, SingleCache.get B (pureFn E P) c k = some s ∧ s.cache.capacity = c.capacity ∧
      RecentKeys (pre ++ [k]) (s.cache.container.map Prod.fst) := by
  rcases get_pure_cases B E P c k hcap with ⟨v, hf, hg⟩ | ⟨hf, _, hg⟩ | ⟨hf, _, e, rest, hc, hg⟩
  · refine ⟨_, hg, rfl, ?_⟩
    simp only [List.map_append, List.map_cons, List.map_nil, keys_bimapRemove]
    exact h.snoc k (List.erase_sublist _ _) (fun hm => (h.nodup.mem_erase_iff.1 hm).1 rfl)
  · refine ⟨_, hg, rfl, ?_⟩
    simp only [List.map_append, List.map_cons, List.map_nil]
    exact h.snoc k (List.Sublist.refl _) ((bimapFind_eq_none_iff k _).1 hf)
  · refine ⟨_, hg, rfl, ?_⟩
    simp only [List.map_append, List.map_cons, List.map_nil]
    have hsub : (rest.map Prod.fst).Sublist (c.container.map Prod.fst) := by
      rw [hc]; exact List.sublist_cons_self _ _
    exact h.snoc k hsub (fun hm => (bimapFind_eq_none_iff k _).1 hf (hsub.subset hm))

/-- The state reached from a fresh cache by the calls `pre` keeps its keys in
recency order. -/
theorem gets_fresh_recent {K V : Type} [DecidableEq K] (B : Bool) (E : Type) (P : K → V)
    (C : Nat) (hC : 1 ≤ C) (pre : List K) :
    ∃ ss, SingleCache.gets B (pureFn E P) (SingleCache.fresh C) pre = some ss ∧
      ss.length = pre.length ∧
      (finalCache (SingleCache.fresh C) ss).capacity = C ∧
      RecentKeys pre ((finalCache (SingleCache.fresh C) ss).container.map Prod.fst) := by
  obtain ⟨ss, hss, hall⟩ := gets_hist_inv B (pureFn E P)
    (fun pre c => c.capacity = C ∧ RecentKeys pre (c.container.map Prod.fst))
    (by
      intro pre c k hinv
      obtain ⟨s, hg, hcap, hr⟩ := get_pure_recent B E P c k pre (by omega) hinv.2
      exact ⟨s, hg, by omega, hr⟩)
    pre [] (SingleCache.fresh C) ⟨rfl, by simp [SingleCache.fresh, RecentKeys]⟩
  have hlen := gets_length B _ pre _ ss hss
  have h := hall pre.length (le_refl _)
  rw [← hlen, List.take_length, hlen, List.take_length] at h
  exact ⟨ss, hss, hlen, by simpa using h.1, by simpa using h.2⟩

/-- C3. LRU eviction order of the Single cache (capacity `C ≥ 1`, pure producer
`P`).  Let the calls `pre` have been made on a fresh cache and let a call for `k`
follow.  If that call erases an entry `e`, then `e` is the only entry erased, it
was the head of the list, the remaining entries are kept in order with
`(k, P k)` appended, and among all stored entries `e` is the one whose most
recent call (`lastUse`, a hit or the insertion) is the oldest.  If the call is a
hit, nothing is erased and the hit entry is moved to the end of the list, the
most-recently-used position.  In the scenario `C = 3`, `P k = k * k`, calls
`[1,2,3,1,4,2]` the returned values are `[1,4,9,1,16,4]`, with 5 misses and 1
hit. -/
theorem single_lru_eviction_order :
    (∀ (K V : Type) [DecidableEq K] (B : Bool) (E : Type) (P : K → V) (C : Nat),
      1 ≤ C → ∀ (pre : List K) (k : K),
      ∃ ss s, SingleCache.gets B (pureFn E P) (SingleCache.fresh C) pre = some ss ∧
        SingleCache.get B (pureFn E P) (finalCache (SingleCache.fresh C) ss) k = some s ∧
        (∀ e ∈ s.evicted,
          s.evicted = [e] ∧
          (∃ rest, (finalCache (SingleCache.fresh C) ss).container = e :: rest ∧
            s.cache.container = rest ++ [(k, P k)]) ∧
          0 < lastUse e.1 pre ∧
          ∀ x ∈ (finalCache (SingleCache.fresh C) ss).container, x ≠ e →
            lastUse e.1 pre < lastUse x.1 pre) ∧
        (∀ v, bimapFind k (finalCache (SingleCache.fresh C) ss).container = some v →
          s.evicted = [] ∧
          s.cache.container =
            bimapRemove k (finalCache (SingleCache.fresh C) ss).container ++ [(k, v)] ∧
          s.cache.container.getLast? = some (k, v))) ∧
    (∃ ss, SingleCache.gets true (pureFn Unit (fun k : Nat => k * k))
        (SingleCache.fresh 3) [1, 2, 3, 1, 4, 2] = some ss ∧
      ss.map Step.outcome = [Except.ok 1, Except.ok 4, Except.ok 9, Except.ok 1,
        Except.ok 16, Except.ok 4] ∧
      (finalCache (SingleCache.fresh 3) ss).misses = 5 ∧
      (finalCache (SingleCache.fresh 3) ss).hits = 1) := by
  refine ⟨?_, ⟨_, rfl, rfl, rfl, rfl⟩⟩
  intro K V _ B E P C hC pre k
  obtain ⟨ss, hss, _, hcap, hr⟩ := gets_fresh_recent B E P C hC pre
  refine ⟨ss, ?_⟩
  generalize finalCache (SingleCache.fresh C) ss = c at hcap hr ⊢
  rcases get_pure_cases B E P c k (by omega) with
    ⟨v, hf, hg⟩ | ⟨hf, _, hg⟩ | ⟨hf, _, e, rest, hc, hg⟩
  · refine ⟨_, hss, hg, ?_, ?_⟩
    · intro e he; simp at he
    · intro w hw
      rw [hf] at hw
      cases hw
      exact ⟨rfl, rfl, by simp⟩
  · refine ⟨_, hss, hg, ?_, ?_⟩
    · intro e he; simp at he
    · intro w hw; rw [hf] at hw; cases hw
  · refine ⟨_, hss, hg, ?_, ?_⟩
    · intro e' he
      simp only [List.mem_singleton] at he
      subst he
      refine ⟨rfl, ⟨rest, hc, rfl⟩, hr.1 _ (by rw [hc]; simp), ?_⟩
      intro x hx hne
      rw [hc] at hx hr
      simp only [List.mem_cons] at hx
      rcases hx with hx | hx
      · exact absurd hx hne
      · have hp := hr.2
        simp only [List.map_cons, List.pairwise_cons] at hp
        exact hp.1 x.1 (List.mem_map_of_mem _ hx)
    · intro w hw; rw [hf] at hw; cases hw

theorem single_lru_eviction_order_witness :
    1 ≤ 3 ∧
    ∃ ss s, SingleCache.gets false (pureFn Unit (fun k : Nat => k * k))
        (SingleCache.fresh 3) [1, 2, 3, 1] = some ss ∧
      SingleCache.get false (pureFn Unit (fun k : Nat => k * k))
        (finalCache (SingleCache.fresh 3) ss) 4 = some s ∧
      (∀ e ∈ s.evicted,
        s.evicted = [e] ∧
        (∃ rest, (finalCache (SingleCache.fresh 3) ss).container = e :: rest ∧
          s.cache.container = rest ++ [(4, 4 * 4)]) ∧
        0 < lastUse e.1 [1, 2, 3, 1] ∧
        ∀ x ∈ (finalCache (SingleCache.fresh 3) ss).container, x ≠ e →
          lastUse e.1 [1, 2, 3, 1] < lastUse x.1 [1, 2, 3, 1]) ∧
      (∀ v, bimapFind 4 (finalCache (SingleCache.fresh 3) ss).container = some v →
        s.evicted = [] ∧
        s.cache.container =
          bimapRemove 4 (finalCache (SingleCache.fresh 3) ss).container ++ [(4, v)] ∧
        s.cache.container.getLast? = some (4, v)) :=
  ⟨by decide, single_lru_eviction_order.1 Nat Nat false Unit (fun k : Nat => k * k) 3
    (by decide) [1, 2, 3, 1] 4⟩


/-! ## Producer parsimony -/

theorem uint64_range_eq : UINT64_RANGE = 18446744073709551616 := by
  norm_num [UINT64_RANGE]

theorem keys_hit_perm {K : Type} [DecidableEq K] {k : K} {L : List K} (h : k ∈ L) :
    (L.erase k ++ [k]).Perm L :=
  (List.perm_append_singleton k (L.erase k)).trans (List.perm_cons_erase h).symm

theorem card_keys_lt_of_miss {K : Type} [DecidableEq K] {k : K} {L : List K} (ks : List K)
    (hnd : L.Nodup) (hk : k ∉ L) : L.length + 1 ≤ (L ++ k :: ks).toFinset.card := by
  have hsub : insert k L.toFinset ⊆ (L ++ k :: ks).toFinset := by
    intro x hx
    simp only [Finset.mem_insert, List.mem_toFinset] at hx
    simp only [List.mem_toFinset, List.mem_append, List.mem_cons]
    tauto
  have hcard := Finset.card_le_card hsub
  rw [Finset.card_insert_of_not_mem (by simpa using hk), List.toFinset_card_of_nodup hnd] at hcard
  exact hcard

/-- The general step of the parsimony argument: started in a state whose keys
together with the requested keys number at most `capacity`, a sequence of calls
invokes `_fn` exactly once for each requested key that is not stored yet, and
erases nothing. -/
theorem gets_parsimony_aux {K V : Type} [DecidableEq K] (B : Bool) (E : Type) (P : K → V) :
    ∀ (ks : List K) (c : SingleCache K V), 1 ≤ c.capacity →
      (c.container.map Prod.fst).Nodup →
      (c.container.map Prod.fst ++ ks).toFinset.card ≤ c.capacity →
      c.cache_misses < UINT64_RANGE →
      ∃ ss, SingleCache.gets B (pureFn E P) c ks = some ss ∧
        (∀ x, (callLog ss).count x =
          if x ∈ ks ∧ x ∉ c.container.map Prod.fst then 1 else 0) ∧
        (∀ s ∈ ss, s.evicted = []) ∧
        (finalCache c ss).cache_misses =
          (c.cache_misses +
            ((c.container.map Prod.fst ++ ks).toFinset.card - c.container.length))
            % UINT64_RANGE := by
  intro ks
  induction ks with
  | nil =>
    intro c hcap hnd hcard hm
    refine ⟨[], rfl, ?_, ?_, ?_⟩
    · intro x; simp [callLog]
    · intro s hs; simp at hs
    · have h1 : (c.container.map Prod.fst).toFinset.card = c.container.length := by
        rw [List.toFinset_card_of_nodup hnd]; simp
      simp only [finalCache_nil, List.append_nil, h1, Nat.sub_self, Nat.add_zero]
      exact (Nat.mod_eq_of_lt hm).symm
  | cons k ks ih =>
    intro c hcap hnd hcard hm
    have hlenL : (c.container.map Prod.fst).length = c.container.length := by simp
    rcases get_pure_cases B E P c k hcap with
      ⟨v, hf, hg⟩ | ⟨hf, hne, hg⟩ | ⟨hf, heq, e, rest, hc, hg⟩
    · -- hit
      have hk : k ∈ c.container.map Prod.fst :=
        List.mem_map_of_mem Prod.fst (bimapFind_some_mem hf)
      have hperm : ((bimapRemove k c.container ++ [(k, v)]).map Prod.fst).Perm
          (c.container.map Prod.fst) := by
        simp only [List.map_append, List.map_cons, List.map_nil, keys_bimapRemove]
        exact keys_hit_perm hk
      have hfin : ((bimapRemove k c.container ++ [(k, v)]).map Prod.fst ++ ks).toFinset
          = (c.container.map Prod.fst ++ k :: ks).toFinset := by
        ext x
        simp only [List.mem_toFinset, List.mem_append, hperm.mem_iff, List.mem_cons]
        constructor
        · rintro (h | h)
          · exact Or.inl h
          · exact Or.inr (Or.inr h)
        · rintro (h | h | h)
          · exact Or.inl h
          · exact Or.inl (h ▸ hk)
          · exact Or.inr h
      have hlen : (bimapRemove k c.container ++ [(k, v)]).length = c.container.length := by
        have := length_bimapRemove hf
        simp only [List.length_append, List.length_singleton]
        omega
      obtain ⟨ss, hss, hcount, hev, hmiss⟩ := ih
        { c with cache_hits := (c.cache_hits + 1) % UINT64_RANGE,
                 container := bimapRemove k c.container ++ [(k, v)] }
        hcap (hperm.nodup_iff.2 hnd) (by rw [hfin]; exact hcard) hm
      refine ⟨_ :: ss, gets_cons B _ c k ks _ ss hg hss, ?_, ?_, ?_⟩
      · intro x
        simp only [callLog, List.nil_append]
        rw [hcount x]
        simp only [hperm.mem_iff, List.mem_cons]
        by_cases hx : x ∈ c.container.map Prod.fst
        · simp [hx]
        · have hxk : x ≠ k := fun h => hx (h ▸ hk)
          simp [hx, hxk]
      · intro s hs
        simp only [List.mem_cons] at hs
        rcases hs with hs | hs
        · rw [hs]
        · exact hev s hs
      · rw [finalCache_cons, hmiss, hfin, hlen]
    · -- miss with room
      have hk : k ∉ c.container.map Prod.fst := (bimapFind_eq_none_iff k _).1 hf
      have hkeys : (c.container ++ [(k, P k)]).map Prod.fst = c.container.map Prod.fst ++ [k] := by
        simp
      have hfin : ((c.container ++ [(k, P k)]).map Prod.fst ++ ks).toFinset
          = (c.container.map Prod.fst ++ k :: ks).toFinset := by
        rw [hkeys, List.append_assoc]; rfl
      have hnd2 : ((c.container ++ [(k, P k)]).map Prod.fst).Nodup := by
        rw [hkeys]
        exact (List.perm_append_singleton k _).nodup_iff.2 (List.nodup_cons.2 ⟨hk, hnd⟩)
      have hlt := card_keys_lt_of_miss ks hnd hk
      obtain ⟨ss, hss, hcount, hev, hmiss⟩ := ih
        { c with cache_misses := (c.cache_misses + 1) % UINT64_RANGE,
                 container := c.container ++ [(k, P k)] }
        hcap hnd2 (by rw [hfin]; exact hcard) (Nat.mod_lt _ (by norm_num [UINT64_RANGE]))
      refine ⟨_ :: ss, gets_cons B _ c k ks _ ss hg hss, ?_, ?_, ?_⟩
      · intro x
        simp only [callLog, List.count_append]
        rw [hcount x]
        simp only [hkeys, List.mem_append, List.mem_singleton, List.mem_cons]
        by_cases hxk : x = k
        · subst hxk
          simp [hk]
        · have hkx : ¬ k = x := fun h => hxk h.symm
          by_cases h1 : x ∈ ks <;> by_cases h2 : x ∈ c.container.map Prod.fst <;>
            simp [hxk, hkx, List.count_cons, h1, h2]
      · intro s hs
        simp only [List.mem_cons] at hs
        rcases hs with hs | hs
        · rw [hs]
        · exact hev s hs
      · rw [finalCache_cons, hmiss, hfin]
        simp only [List.length_append, List.length_singleton]
        rw [hlenL] at hlt
        rw [uint64_range_eq]
        omega
    · -- a miss on a full container is impossible here
      exfalso
      have hk : k ∉ c.container.map Prod.fst := (bimapFind_eq_none_iff k _).1 hf
      have hlt := card_keys_lt_of_miss ks hnd hk
      rw [hlenL] at hlt
      omega

/-- C4. Producer parsimony of the Single cache.  With capacity `C ≥ 1` (a
`size_t`, so below `2 ^ 64`) and a pure producer, a sequence of calls on a fresh
cache that mentions at most `C` distinct keys returns, invokes the producer
exactly once for every key of the sequence (and for no other key), counts as
many misses as there are distinct keys, and never erases an entry. -/
theorem single_producer_parsimony {K V : Type} [DecidableEq K] (B : Bool) (E : Type)
    (P : K → V) (C : Nat) (hC : 1 ≤ C) (hC64 : C < UINT64_RANGE) (ks : List K)
    (hdistinct : ks.toFinset.card ≤ C) :
    ∃ ss, SingleCache.gets B (pureFn E P) (SingleCache.fresh C) ks = some ss ∧
      (∀ x, (callLog ss).count x = if x ∈ ks then 1 else 0) ∧
      (finalCache (SingleCache.fresh C) ss).misses = ks.toFinset.card ∧
      (∀ s ∈ ss, s.evicted = []) := by
  obtain ⟨ss, hss, hcount, hev, hmiss⟩ := gets_parsimony_aux B E P ks
    (SingleCache.fresh C) hC (by simp [SingleCache.fresh])
    (by simpa [SingleCache.fresh] using hdistinct) (by norm_num [SingleCache.fresh, UINT64_RANGE])
  refine ⟨ss, hss, ?_, ?_, hev⟩
  · intro x
    rw [hcount x]
    simp [SingleCache.fresh]
  · rw [SingleCache.misses, hmiss]
    simp only [SingleCache.fresh, List.map_nil, List.nil_append, List.length_nil, Nat.sub_zero,
      Nat.zero_add]
    exact Nat.mod_eq_of_lt (by omega)

theorem single_producer_parsimony_witness :
    1 ≤ 2 ∧ 2 < UINT64_RANGE ∧ [7, 9, 7, 7, 9].toFinset.card ≤ 2 ∧
    ∃ ss, SingleCache.gets false (pureFn Unit (fun k : Nat => k + 1))
        (SingleCache.fresh 2) [7, 9, 7, 7, 9] = some ss ∧
      (∀ x, (callLog ss).count x = if x ∈ [7, 9, 7, 7, 9] then 1 else 0) ∧
      (finalCache (SingleCache.fresh 2) ss).misses = [7, 9, 7, 7, 9].toFinset.card ∧
      (∀ s ∈ ss, s.evicted = []) :=
  ⟨by decide, by norm_num [UINT64_RANGE], by decide,
    single_producer_parsimony false Unit (fun k : Nat => k + 1) 2 (by decide)
      (by norm_num [UINT64_RANGE]) [7, 9, 7, 7, 9] (by decide)⟩


/-! ## Requests for pairwise distinct keys -/

/-- Calls for pairwise distinct keys, none of which is stored: every call is a
miss, and the container ends up holding the last `capacity` keys of the old keys
followed by the requested ones. -/
theorem gets_distinct_aux {K V : Type} [DecidableEq K] (B : Bool) (E : Type) (P : K → V) :
    ∀ (ks : List K) (c : SingleCache K V), 1 ≤ c.capacity →
      c.container.length ≤ c.capacity → ks.Nodup →
      (∀ x ∈ ks, x ∉ c.container.map Prod.fst) →
      ∃ ss, SingleCache.gets B (pureFn E P) c ks = some ss ∧
        callLog ss = ks ∧
        (finalCache c ss).capacity = c.capacity ∧
        (finalCache c ss).container.map Prod.fst =
          (c.container.map Prod.fst ++ ks).drop (c.container.length + ks.length - c.capacity) := by
  intro ks
  induction ks with
  | nil =>
    intro c hcap hlen _ _
    refine ⟨[], rfl, rfl, rfl, ?_⟩
    have h0 : c.container.length + ([] : List K).length - c.capacity = 0 := by
      simp only [List.length_nil]; omega
    rw [h0]
    simp [finalCache_nil]
  | cons k ks ih =>
    intro c hcap hlen hnd hdis
    have hk : k ∉ c.container.map Prod.fst := hdis k (List.mem_cons_self _ _)
    obtain ⟨hkks, hnd2⟩ := List.nodup_cons.1 hnd
    rcases get_pure_cases B E P c k hcap with
      ⟨v, hf, _⟩ | ⟨hf, hne, hg⟩ | ⟨hf, heq, e, rest, hc, hg⟩
    · exact absurd (List.mem_map_of_mem Prod.fst (bimapFind_some_mem hf)) hk
    · obtain ⟨ss, hss, hlog, hcap2, hkeys⟩ := ih
        { c with cache_misses := (c.cache_misses + 1) % UINT64_RANGE,
                 container := c.container ++ [(k, P k)] }
        hcap
        (by simp only [List.length_append, List.length_singleton]; omega)
        hnd2
        (by
          intro x hx
          simp only [List.map_append, List.map_cons, List.map_nil, List.mem_append,
            List.mem_singleton, not_or]
          exact ⟨hdis x (List.mem_cons_of_mem _ hx), fun h => hkks (h ▸ hx)⟩)
      refine ⟨_ :: ss, gets_cons B _ c k ks _ ss hg hss, ?_, ?_, ?_⟩
      · simp [callLog, hlog]
      · rw [finalCache_cons, hcap2]
      · rw [finalCache_cons, hkeys]
        dsimp only
        simp only [List.map_append, List.map_cons, List.map_nil, List.length_append,
          List.length_singleton, List.length_cons, List.length_nil, List.append_assoc,
          List.singleton_append, List.nil_append, List.cons_append, Nat.zero_add]
        congr 1
        omega
    · have hl : c.container.length = rest.length + 1 := by rw [hc]; rfl
      obtain ⟨ss, hss, hlog, hcap2, hkeys⟩ := ih
        { c with cache_misses := (c.cache_misses + 1) % UINT64_RANGE,
                 container := rest ++ [(k, P k)] }
        hcap
        (by simp only [List.length_append, List.length_singleton]; omega)
        hnd2
        (by
          intro x hx
          simp only [List.map_append, List.map_cons, List.map_nil, List.mem_append,
            List.mem_singleton, not_or]
          refine ⟨fun h => hdis x (List.mem_cons_of_mem _ hx) ?_, fun h => hkks (h ▸ hx)⟩
          rw [hc]
          exact List.mem_cons_of_mem _ h)
      refine ⟨_ :: ss, gets_cons B _ c k ks _ ss hg hss, ?_, ?_, ?_⟩
      · simp [callLog, hlog]
      · rw [finalCache_cons, hcap2]
      · rw [finalCache_cons, hkeys]
        dsimp only
        rw [hc]
        simp only [List.map_append, List.map_cons, List.map_nil, List.length_append,
          List.length_singleton, List.length_cons, List.length_nil, List.append_assoc,
          List.singleton_append, List.nil_append, List.cons_append, Nat.zero_add]
        have h1 : rest.length + 1 + (ks.length + 1) - c.capacity
            = (rest.length + 1 + ks.length - c.capacity) + 1 := by omega
        rw [h1, List.drop_succ_cons]

/-- C5. With capacity `C ≥ 1`, after calls for `C + 1` pairwise distinct keys
`k0 .. kC` (in that order) on a fresh Single cache, each of which invoked the
producer, a next call for `k0` is a miss that invokes the producer again, while
a next call for any `ki` with `1 ≤ i ≤ C` is a hit that does not invoke it.
Scenario: `C = 2`, `P` the identity, calls `[1,2,3,1]` end with 0 hits and 4
misses. -/
theorem single_oldest_of_distinct_keys_is_evicted :
    (∀ (K V : Type) [DecidableEq K] (B : Bool) (E : Type) (P : K → V) (C : Nat),
      1 ≤ C → ∀ (ks : List K), ks.Nodup → ks.length = C + 1 →
      ∃ ss, SingleCache.gets B (pureFn E P) (SingleCache.fresh C) ks = some ss ∧
        callLog ss = ks ∧
        (∀ k0, ks[0]? = some k0 →
          ∃ s, SingleCache.get B (pureFn E P) (finalCache (SingleCache.fresh C) ss) k0 = some s ∧
            s.calls = [k0] ∧
            s.cache.cache_misses =
              ((finalCache (SingleCache.fresh C) ss).cache_misses + 1) % UINT64_RANGE ∧
            s.cache.cache_hits = (finalCache (SingleCache.fresh C) ss).cache_hits) ∧
        (∀ i ki, 1 ≤ i → i ≤ C → ks[i]? = some ki →
          ∃ s, SingleCache.get B (pureFn E P) (finalCache (SingleCache.fresh C) ss) ki = some s ∧
            s.calls = [] ∧
            s.cache.cache_hits =
              ((finalCache (SingleCache.fresh C) ss).cache_hits + 1) % UINT64_RANGE ∧
            s.cache.cache_misses = (finalCache (SingleCache.fresh C) ss).cache_misses)) ∧
    (∃ ss, SingleCache.gets true (pureFn Unit (fun k : Nat => k))
        (SingleCache.fresh 2) [1, 2, 3, 1] = some ss ∧
      ss.map Step.outcome = [Except.ok 1, Except.ok 2, Except.ok 3, Except.ok 1] ∧
      (finalCache (SingleCache.fresh 2) ss).hits = 0 ∧
      (finalCache (SingleCache.fresh 2) ss).misses = 4) := by
  refine ⟨?_, ⟨_, rfl, rfl, rfl, rfl⟩⟩
  intro K V _ B E P C hC ks hnd hlen
  obtain ⟨ss, hss, hlog, hcap, hkeys⟩ := gets_distinct_aux B E P ks (SingleCache.fresh C) hC
    (by simp [SingleCache.fresh]) hnd (by simp [SingleCache.fresh])
  refine ⟨ss, hss, hlog, ?_, ?_⟩
  all_goals
    generalize finalCache (SingleCache.fresh C) ss = c at hcap hkeys ⊢
    simp only [SingleCache.fresh, List.map_nil, List.nil_append, List.length_nil,
      Nat.zero_add, hlen, Nat.add_sub_cancel_left] at hcap hkeys
  · intro k0 h0
    have hk0 : k0 ∉ c.container.map Prod.fst := by
      rw [hkeys]
      cases ks with
      | nil => simp at h0
      | cons a tl =>
        simp only [List.getElem?_cons_zero, Option.some.injEq] at h0
        subst h0
        simpa using (List.nodup_cons.1 hnd).1
    rcases get_pure_cases B E P c k0 (by omega) with
      ⟨v, hf, _⟩ | ⟨hf, _, hg⟩ | ⟨hf, _, e, rest, _, hg⟩
    · exact absurd (List.mem_map_of_mem Prod.fst (bimapFind_some_mem hf)) hk0
    · exact ⟨_, hg, rfl, rfl, rfl⟩
    · exact ⟨_, hg, rfl, rfl, rfl⟩
  · intro i ki hi1 hiC hki
    have hmem : ki ∈ c.container.map Prod.fst := by
      rw [hkeys]
      cases ks with
      | nil => simp at hki
      | cons a tl =>
        cases i with
        | zero => omega
        | succ j =>
          simp only [List.getElem?_cons_succ] at hki
          simpa using List.getElem?_mem hki
    obtain ⟨v, hv⟩ := bimapFind_of_mem_keys hmem
    exact ⟨_, get_hit B _ c ki v hv, rfl, rfl, rfl⟩

theorem single_oldest_of_distinct_keys_is_evicted_witness :
    1 ≤ 2 ∧ [10, 20, 30].Nodup ∧ [10, 20, 30].length = 2 + 1 ∧
    ∃ ss, SingleCache.gets false (pureFn Unit (fun k : Nat => k))
        (SingleCache.fresh 2) [10, 20, 30] = some ss ∧
      callLog ss = [10, 20, 30] ∧
      (∀ k0, [10, 20, 30][0]? = some k0 →
        ∃ s, SingleCache.get false (pureFn Unit (fun k : Nat => k))
            (finalCache (SingleCache.fresh 2) ss) k0 = some s ∧
          s.calls = [k0] ∧
          s.cache.cache_misses =
            ((finalCache (SingleCache.fresh 2) ss).cache_misses + 1) % UINT64_RANGE ∧
          s.cache.cache_hits = (finalCache (SingleCache.fresh 2) ss).cache_hits) ∧
      (∀ i ki, 1 ≤ i → i ≤ 2 → [10, 20, 30][i]? = some ki →
        ∃ s, SingleCache.get false (pureFn Unit (fun k : Nat => k))
            (finalCache (SingleCache.fresh 2) ss) ki = some s ∧
          s.calls = [] ∧
          s.cache.cache_hits =
            ((finalCache (SingleCache.fresh 2) ss).cache_hits + 1) % UINT64_RANGE ∧
          s.cache.cache_misses = (finalCache (SingleCache.fresh 2) ss).cache_misses) :=
  ⟨by decide, by decide, by decide,
    single_oldest_of_distinct_keys_is_evicted.1 Nat Nat false Unit (fun k : Nat => k) 2
      (by decide) [10, 20, 30] (by decide) (by decide)⟩


/-! ## Counters -/

/-- One returning call with a pure producer, seen from the counters: either
`cache_hits` or `cache_misses` is incremented in `uint64_t`, the other is
untouched. -/
theorem get_pure_counters {K V : Type} [DecidableEq K] (B : Bool) (E : Type) (P : K → V)
    (c : SingleCache K V) (k : K) (hcap : 1 ≤ c.capacity) :
    ∃ s, SingleCache.get B (pureFn E P) c k = some s ∧ s.cache.capacity = c.capacity ∧
      ((s.cache.cache_hits = (c.cache_hits + 1) % UINT64_RANGE ∧
          s.cache.cache_misses = c.cache_misses) ∨
        (s.cache.cache_misses = (c.cache_misses + 1) % UINT64_RANGE ∧
          s.cache.cache_hits = c.cache_hits)) := by
  rcases get_pure_cases B E P c k hcap with ⟨v, _, hg⟩ | ⟨_, _, hg⟩ | ⟨_, _, e, rest, _, hg⟩
  · exact ⟨_, hg, rfl, Or.inl ⟨rfl, rfl⟩⟩
  · exact ⟨_, hg, rfl, Or.inr ⟨rfl, rfl⟩⟩
  · exact ⟨_, hg, rfl, Or.inr ⟨rfl, rfl⟩⟩

/-- C6. Counter law of the Single cache (capacity `C ≥ 1`, pure producer, fewer
than `2 ^ 64` calls, the range of the `uint64_t` counters).  Every call of a
sequence on a fresh cache increases exactly one of `hits()` and `misses()` by
exactly one, leaves the other unchanged and increases `num_lookups()` by one;
after the `n` calls `num_lookups() = hits() + misses() = n`. -/
theorem single_counter_law {K V : Type} [DecidableEq K] (B : Bool) (E : Type)
    (P : K → V) (C : Nat) (hC : 1 ≤ C) (ks : List K) (hn : ks.length < UINT64_RANGE) :
    ∃ ss, SingleCache.gets B (pureFn E P) (SingleCache.fresh C) ks = some ss ∧
      ss.length = ks.length ∧
      (∀ i s, ss[i]? = some s →
        ((s.cache.hits = (finalCache (SingleCache.fresh C) (ss.take i)).hits + 1 ∧
            s.cache.misses = (finalCache (SingleCache.fresh C) (ss.take i)).misses) ∨
          (s.cache.misses = (finalCache (SingleCache.fresh C) (ss.take i)).misses + 1 ∧
            s.cache.hits = (finalCache (SingleCache.fresh C) (ss.take i)).hits)) ∧
        s.cache.num_lookups =
          (finalCache (SingleCache.fresh C) (ss.take i)).num_lookups + 1) ∧
      (finalCache (SingleCache.fresh C) ss).num_lookups =
        (finalCache (SingleCache.fresh C) ss).hits +
          (finalCache (SingleCache.fresh C) ss).misses ∧
      (finalCache (SingleCache.fresh C) ss).num_lookups = ks.length := by
  obtain ⟨ss, hss, hall⟩ := gets_hist_inv B (pureFn E P)
    (fun pre c => c.capacity = C ∧
      (pre.length < UINT64_RANGE → c.cache_hits + c.cache_misses = pre.length))
    (by
      intro pre c k hinv
      obtain ⟨hc, hsum⟩ := hinv
      obtain ⟨s, hg, hcap, hcnt⟩ := get_pure_counters B E P c k (by omega)
      refine ⟨s, hg, by omega, ?_⟩
      intro hlt
      simp only [List.length_append, List.length_singleton] at hlt ⊢
      have h := hsum (by omega)
      rw [uint64_range_eq] at hcnt hlt
      rcases hcnt with ⟨h1, h2⟩ | ⟨h1, h2⟩ <;> omega)
    ks [] (SingleCache.fresh C) ⟨rfl, fun _ => rfl⟩
  have hlen := gets_length B _ ks _ ss hss
  have hfinal := hall ks.length (le_refl _)
  rw [List.take_length] at hfinal
  have hss_take : ss.take ks.length = ss := by rw [← hlen, List.take_length]
  rw [hss_take] at hfinal
  have hsum := hfinal.2 (by simpa using hn)
  simp only [List.nil_append] at hsum
  refine ⟨ss, hss, hlen, ?_, ?_, ?_⟩
  · intro i s hs
    have hi : i < ss.length := by
      rcases Nat.lt_or_ge i ss.length with h | h
      · exact h
      · rw [List.getElem?_eq_none h] at hs; cases hs
    have hik : i < ks.length := by omega
    obtain ⟨k, hk⟩ : ∃ k, ks[i]? = some k := ⟨ks[i], List.getElem?_eq_getElem hik⟩
    obtain ⟨t, ht, hget⟩ := gets_step B _ ks _ ss hss i k hk
    rw [hs] at ht
    cases ht
    have hbefore := hall i (by omega)
    generalize finalCache (SingleCache.fresh C) (ss.take i) = b at hget hbefore
    obtain ⟨hbc, hbsum⟩ := hbefore
    have hbs := hbsum (by simp only [List.nil_append, List.length_take]; omega)
    simp only [List.nil_append, List.length_take] at hbs
    obtain ⟨s2, hg2, _, hcnt⟩ := get_pure_counters B E P b k (by omega)
    rw [hget] at hg2
    cases hg2
    simp only [SingleCache.hits, SingleCache.misses, SingleCache.num_lookups]
    rw [uint64_range_eq] at hcnt hn ⊢
    have hmin : min i ks.length = i := by omega
    rw [hmin] at hbs
    rcases hcnt with ⟨h1, h2⟩ | ⟨h1, h2⟩
    · refine ⟨Or.inl ⟨by omega, h2⟩, by omega⟩
    · refine ⟨Or.inr ⟨by omega, h2⟩, by omega⟩
  · simp only [SingleCache.hits, SingleCache.misses, SingleCache.num_lookups]
    rw [uint64_range_eq] at hn ⊢
    omega
  · simp only [SingleCache.num_lookups]
    rw [uint64_range_eq] at hn ⊢
    omega

theorem single_counter_law_witness :
    1 ≤ 3 ∧ [1, 2, 3, 1, 4, 2].length < UINT64_RANGE ∧
    ∃ ss, SingleCache.gets true (pureFn Unit (fun k : Nat => k * k))
        (SingleCache.fresh 3) [1, 2, 3, 1, 4, 2] = some ss ∧
      ss.length = [1, 2, 3, 1, 4, 2].length ∧
      (∀ i s, ss[i]? = some s →
        ((s.cache.hits = (finalCache (SingleCache.fresh 3) (ss.take i)).hits + 1 ∧
            s.cache.misses = (finalCache (SingleCache.fresh 3) (ss.take i)).misses) ∨
          (s.cache.misses = (finalCache (SingleCache.fresh 3) (ss.take i)).misses + 1 ∧
            s.cache.hits = (finalCache (SingleCache.fresh 3) (ss.take i)).hits)) ∧
        s.cache.num_lookups =
          (finalCache (SingleCache.fresh 3) (ss.take i)).num_lookups + 1) ∧
      (finalCache (SingleCache.fresh 3) ss).num_lookups =
        (finalCache (SingleCache.fresh 3) ss).hits +
          (finalCache (SingleCache.fresh 3) ss).misses ∧
      (finalCache (SingleCache.fresh 3) ss).num_lookups = [1, 2, 3, 1, 4, 2].length :=
  ⟨by decide, by norm_num [UINT64_RANGE],
    single_counter_law true Unit (fun k : Nat => k * k) 3 (by decide) [1, 2, 3, 1, 4, 2]
      (by norm_num [UINT64_RANGE])⟩


/-! ## The vector overload -/

theorem get_many_nil {K V : Type} (assign : List V → V) (fuel : Nat) (c : SingleCache K V) :
    SingleCache.get_many assign (fuel + 1) c [] = some ([], c) := rfl

/-- C7 (defect of the code). The vector overload evaluates `(*this)(k)` on the
whole vector in its loop body, so for a non-empty vector it calls itself with
the same argument again and again: whatever the bound on the nesting depth, no
result is returned.  (For an empty vector the loop body is not entered and the
empty result is returned.) -/
theorem single_get_many_never_returns {K V : Type} (assign : List V → V) (fuel : Nat)
    (c : SingleCache K V) (k : K) (ks : List K) :
    SingleCache.get_many assign fuel c (k :: ks) = none := by
  induction fuel generalizing c with
  | zero => rfl
  | succ n ih =>
    simp [SingleCache.get_many, get_many_loop, ih]


/-! ## Construction -/

/-- A miss with a returning producer on an empty store of capacity zero reaches
`erase(begin())` on an empty list: the call has no defined result. -/
theorem get_zero_capacity_undefined {K E V : Type} [DecidableEq K] (B : Bool)
    (fn : K → Except E V) (k : K) (v : V) (hf : fn k = Except.ok v) :
    SingleCache.get B fn (SingleCache.fresh 0) k = none := by
  rw [get_eq_get_nolock]
  simp [SingleCache.get_nolock, SingleCache.fresh, bimapFind, hf, SingleCache.insert]

/-- C8 as stated fails: constructing with capacity 0 produces a cache object,
for the Single cache and for each composite cache (here with two threads). -/
theorem construct_zero_capacity_not_rejected :
    (SingleCache.construct 0 : Constructed (SingleCache Nat Nat)) ≠ none ∧
    (MultiCache.construct 2 0 : Constructed (MultiCache Nat Nat)) ≠ none ∧
    (MultiRingCache.construct 2 0 : Constructed (MultiRingCache Nat)) ≠ none ∧
    (MultiRingPriorityCache.construct 2 0 : Constructed (MultiRingPriorityCache Nat)) ≠ none := by
  refine ⟨?_, ?_, ?_, ?_⟩ <;> simp [SingleCache.construct, MultiCache.construct,
    MultiRingCache.construct, MultiRingPriorityCache.construct]

/-- C8 (amended). No constructor rejects capacity 0.  `SingleCache(f, 0)`
produces an empty store of capacity 0 with zero counters, and with `N ≥ 1`
threads each composite constructor produces an object of `N` such stores.  A
call on the zero-capacity store can be made; when it misses and the producer
returns, it erases from an empty list, which has no defined result. -/
theorem construct_zero_capacity_accepted (K V : Type) [DecidableEq K] (N : Nat) (hN : 1 ≤ N) :
    (SingleCache.construct 0 : Constructed (SingleCache K V)) =
      some { capacity := 0, container := [], cache_hits := 0, cache_misses := 0 } ∧
    (MultiCache.construct N 0 : Constructed (MultiCache K V)) =
      some { caches := List.replicate N (SingleCache.fresh 0), capacity := 0 } ∧
    (MultiRingCache.construct N 0 : Constructed (MultiRingCache V)) =
      some { caches := List.replicate N (SingleCache.fresh 0), capacity := 0,
             single_capacity := 0 } ∧
    (MultiRingPriorityCache.construct N 0 : Constructed (MultiRingPriorityCache V)) =
      some { caches := List.replicate N (SingleCache.fresh 0),
             locks := List.replicate N false, capacity := 0, single_capacity := 0 } ∧
    (∀ (E : Type) (B : Bool) (fn : K → Except E V) (k : K) (v : V), fn k = Except.ok v →
      SingleCache.get B fn (SingleCache.fresh 0) k = none) := by
  have hN0 : N ≠ 0 := by omega
  refine ⟨rfl, ?_, ?_, ?_, ?_⟩
  · simp [MultiCache.construct]
  · simp [MultiRingCache.construct, hN0]
  · simp [MultiRingPriorityCache.construct, hN0]
  · intro E B fn k v hf
    exact get_zero_capacity_undefined B fn k v hf

theorem construct_zero_capacity_accepted_witness :
    1 ≤ 2 ∧
    ((SingleCache.construct 0 : Constructed (SingleCache Nat Nat)) =
      some { capacity := 0, container := [], cache_hits := 0, cache_misses := 0 } ∧
    (MultiCache.construct 2 0 : Constructed (MultiCache Nat Nat)) =
      some { caches := List.replicate 2 (SingleCache.fresh 0), capacity := 0 } ∧
    (MultiRingCache.construct 2 0 : Constructed (MultiRingCache Nat)) =
      some { caches := List.replicate 2 (SingleCache.fresh 0), capacity := 0,
             single_capacity := 0 } ∧
    (MultiRingPriorityCache.construct 2 0 : Constructed (MultiRingPriorityCache Nat)) =
      some { caches := List.replicate 2 (SingleCache.fresh 0),
             locks := List.replicate 2 false, capacity := 0, single_capacity := 0 } ∧
    (∀ (E : Type) (B : Bool) (fn : Nat → Except E Nat) (k : Nat) (v : Nat),
      fn k = Except.ok v → SingleCache.get B fn (SingleCache.fresh 0) k = none)) :=
  ⟨by decide, construct_zero_capacity_accepted Nat Nat 2 (by decide)⟩

/-! ## Producer faults -/

/-- C9. If the cached function throws `e` on `k` during a call for `k` (so `k`
is not stored and `_fn` is invoked), the call ends with the exception `e`, and
the object state it leaves is exactly the state before the call: counters,
entries and their order are untouched.  The fault is not memoized: any later
call for `k` in that state invokes `_fn` on `k` again, and with the same
function it ends with the same exception.  Both overloads are covered, the
critical section of the locking one being transparent to its single caller. -/
theorem single_producer_fault_atomic {K E V : Type} [DecidableEq K] (B : Bool)
    (fn : K → Except E V) (c : SingleCache K V) (k : K) (e : E)
    (hmiss : bimapFind k c.container = none) (hf : fn k = Except.error e) :
    ∃ s, SingleCache.get B fn c k = some s ∧
      s.outcome = Except.error e ∧ s.cache = c ∧ s.calls = [k] ∧ s.evicted = [] ∧
      (∀ (fn2 : K → Except E V) (s2 : Step K E V),
        SingleCache.get B fn2 s.cache k = some s2 → s2.calls = [k]) ∧
      SingleCache.get B fn s.cache k = some s := by
  refine ⟨_, get_miss_throw B fn c k e hmiss hf, rfl, rfl, rfl, rfl, ?_,
    get_miss_throw B fn c k e hmiss hf⟩
  intro fn2 s2 h2
  rw [get_eq_get_nolock] at h2
  simp only [SingleCache.get_nolock, hmiss] at h2
  cases hv : fn2 k with
  | error e2 =>
    simp only [hv, Option.some.injEq] at h2
    rw [← h2]
  | ok v =>
    simp only [hv] at h2
    cases hi : SingleCache.insert
        { c with cache_misses := (c.cache_misses + 1) % UINT64_RANGE } k v with
    | none => simp [hi] at h2
    | some p =>
      obtain ⟨c2, ev⟩ := p
      simp only [hi, Option.some.injEq] at h2
      rw [← h2]

theorem single_producer_fault_atomic_witness :
    bimapFind 5 (SingleCache.fresh 2 : SingleCache Nat Nat).container = none ∧
    (fun _ : Nat => (Except.error 404 : Except Nat Nat)) 5 = Except.error 404 ∧
    ∃ s, SingleCache.get false (fun _ : Nat => (Except.error 404 : Except Nat Nat))
        (SingleCache.fresh 2) 5 = some s ∧
      s.outcome = Except.error 404 ∧ s.cache = SingleCache.fresh 2 ∧ s.calls = [5] ∧
      s.evicted = [] ∧
      (∀ (fn2 : Nat → Except Nat Nat) (s2 : Step Nat Nat Nat),
        SingleCache.get false fn2 s.cache 5 = some s2 → s2.calls = [5]) ∧
      SingleCache.get false (fun _ : Nat => (Except.error 404 : Except Nat Nat))
        s.cache 5 = some s :=
  ⟨rfl, rfl, single_producer_fault_atomic false
    (fun _ : Nat => (Except.error 404 : Except Nat Nat)) (SingleCache.fresh 2) 5 404 rfl rfl⟩


/-! ## Ring routing -/

/-- With a capacity of at least one, every call on a store returns and keeps
the capacity. -/
theorem get_total {K E V : Type} [DecidableEq K] (B : Bool) (fn : K → Except E V)
    (c : SingleCache K V) (k : K) (hcap : 1 ≤ c.capacity) :
    ∃ s, SingleCache.get B fn c k = some s ∧ s.cache.capacity = c.capacity := by
  rcases get_cases B fn c k hcap with
    ⟨v, _, hg⟩ | ⟨_, e, _, hg⟩ | ⟨_, _, v, _, hg⟩ | ⟨_, _, v, _, e, rest, _, hg⟩
  all_goals exact ⟨_, hg, rfl⟩

theorem ringIndex_eq (S N k : Nat) (hS : 1 ≤ S) (hN : 1 ≤ N) :
    ringIndex S N k = some ((k / S) % N) := by
  have h : ¬ (S = 0 ∨ N = 0) := by omega
  simp [ringIndex, h]

theorem ringIndex_block (S N j k : Nat) (hS : 1 ≤ S) (hN : 1 ≤ N)
    (hlo : j * S ≤ k) (hhi : k < (j + 1) * S) : ringIndex S N k = some (j % N) := by
  rw [ringIndex_eq S N k hS hN, Nat.div_eq_of_lt_le hlo hhi]

theorem construct_ringWF {V : Type} (N C : Nat) (hN : 1 ≤ N) :
    ∃ r0 : MultiRingCache V, MultiRingCache.construct N C = some r0 ∧ RingWF N C r0 := by
  have hN0 : N ≠ 0 := by omega
  refine ⟨{ caches := List.replicate N (SingleCache.fresh (C / N)), capacity := C,
            single_capacity := C / N }, ?_, rfl, ?_, ?_⟩
  · simp only [MultiRingCache.construct, hN0, if_false]
  · simp
  · intro sh hsh
    rw [List.eq_of_mem_replicate hsh]
    rfl

/-- C10. Ring routing.  Let `S = C / N ≥ 1` for requested capacity `C` and `N`
threads.  The constructor produces an object of `N` shards of capacity `S`; in
every state of that shape a call for key `k` is dispatched to the shard of index
`(k / S) % N`, which is below `N`: the result is that of the non-locking Single
call on this shard, the shard is replaced by its new state, the other shards are
left as they are, and the shape is kept.  Consequently every key of the block
`[j * S, (j + 1) * S)` goes to shard `j % N`. -/
theorem ring_routing (E V : Type) (C N : Nat) (hS : 1 ≤ C / N) :
    (∃ r0 : MultiRingCache V, MultiRingCache.construct N C = some r0 ∧ RingWF N C r0) ∧
    (∀ k, ringIndex (C / N) N k = some ((k / (C / N)) % N) ∧ (k / (C / N)) % N < N) ∧
    (∀ (fn : Nat → Except E V) (r : MultiRingCache V) (k : Nat), RingWF N C r →
      ∃ sh s, r.caches[(k / (C / N)) % N]? = some sh ∧
        SingleCache.get false fn sh k = some s ∧
        MultiRingCache.get N fn r k = some
          { shard := (k / (C / N)) % N, step := s,
            cache := { r with caches := r.caches.set ((k / (C / N)) % N) s.cache } } ∧
        RingWF N C { r with caches := r.caches.set ((k / (C / N)) % N) s.cache }) ∧
    (∀ j k, j * (C / N) ≤ k → k < (j + 1) * (C / N) →
      ringIndex (C / N) N k = some (j % N)) := by
  have hN : 1 ≤ N := by
    rcases Nat.eq_zero_or_pos N with h | h
    · subst h; simp at hS
    · exact h
  refine ⟨construct_ringWF N C hN, ?_, ?_, ?_⟩
  · intro k
    exact ⟨ringIndex_eq _ N k hS hN, Nat.mod_lt _ (by omega)⟩
  · intro fn r k hwf
    obtain ⟨hsc, hlen, hcaps⟩ := hwf
    have hidx : (k / (C / N)) % N < r.caches.length := by
      rw [hlen]; exact Nat.mod_lt _ (by omega)
    have hsh : r.caches[(k / (C / N)) % N]? = some r.caches[(k / (C / N)) % N] :=
      List.getElem?_eq_getElem hidx
    have hcap : r.caches[(k / (C / N)) % N].capacity = C / N :=
      hcaps _ (List.getElem_mem _)
    obtain ⟨s, hg, hscap⟩ := get_total false fn r.caches[(k / (C / N)) % N] k (by omega)
    refine ⟨_, s, hsh, hg, ?_, hsc, by simpa using hlen, ?_⟩
    · simp only [MultiRingCache.get, hsc, ringIndex_eq _ N k hS hN, hsh, hg]
    · intro x hx
      rcases List.mem_or_eq_of_mem_set hx with h | h
      · exact hcaps x h
      · rw [h, hscap, hcap]
  · intro j k hlo hhi
    exact ringIndex_block _ N j k hS hN hlo hhi

theorem ring_routing_witness :
    1 ≤ 4 / 2 ∧
    ((∃ r0 : MultiRingCache Nat, MultiRingCache.construct 2 4 = some r0 ∧ RingWF 2 4 r0) ∧
    (∀ k, ringIndex (4 / 2) 2 k = some ((k / (4 / 2)) % 2) ∧ (k / (4 / 2)) % 2 < 2) ∧
    (∀ (fn : Nat → Except Unit Nat) (r : MultiRingCache Nat) (k : Nat), RingWF 2 4 r →
      ∃ sh s, r.caches[(k / (4 / 2)) % 2]? = some sh ∧
        SingleCache.get false fn sh k = some s ∧
        MultiRingCache.get 2 fn r k = some
          { shard := (k / (4 / 2)) % 2, step := s,
            cache := { r with caches := r.caches.set ((k / (4 / 2)) % 2) s.cache } } ∧
        RingWF 2 4 { r with caches := r.caches.set ((k / (4 / 2)) % 2) s.cache }) ∧
    (∀ j k, j * (4 / 2) ≤ k → k < (j + 1) * (4 / 2) →
      ringIndex (4 / 2) 2 k = some (j % 2))) :=
  ⟨by decide, ring_routing Unit Nat 4 2 (by decide)⟩

/-! ## The entry of the key just requested -/

theorem bimapFind_append_self {K V : Type} [DecidableEq K] (k : K) (v : V)
    (l : List (K × V)) (h : k ∉ l.map Prod.fst) : bimapFind k (l ++ [(k, v)]) = some v := by
  induction l with
  | nil => simp [bimapFind]
  | cons e rest ih =>
    obtain ⟨k', v'⟩ := e
    simp only [List.map_cons, List.mem_cons, not_or] at h
    have hne : ¬ k' = k := fun hk => h.1 hk.symm
    simp only [List.cons_append, bimapFind, hne, if_false]
    exact ih h.2

theorem keys_nodup_snoc {K : Type} [DecidableEq K] {k : K} {L : List K}
    (hnd : L.Nodup) (hk : k ∉ L) : (L ++ [k]).Nodup :=
  (List.perm_append_singleton k L).nodup_iff.2 (List.nodup_cons.2 ⟨hk, hnd⟩)

/-- C14. For a Single cache of capacity at least one (with the unique keys the
set view of the container guarantees) every call returns or throws; when the
call for `k` returns `v`, the container then holds the entry `(k, v)`, the lookup
of `k` finds `v`, and `(k, v)` is the last entry of the list, the
most-recently-used one, which is erased after all others. -/
theorem single_get_stores_result_as_most_recent {K E V : Type} [DecidableEq K] (B : Bool)
    (fn : K → Except E V) (c : SingleCache K V) (k : K) (hcap : 1 ≤ c.capacity)
    (hnd : (c.container.map Prod.fst).Nodup) :
    ∃ s, SingleCache.get B fn c k = some s ∧
      (s.cache.container.map Prod.fst).Nodup ∧
      ∀ v, s.outcome = Except.ok v →
        (k, v) ∈ s.cache.container ∧
        bimapFind k s.cache.container = some v ∧
        s.cache.container.getLast? = some (k, v) := by
  rcases get_cases B fn c k hcap with
    ⟨v, hf, hg⟩ | ⟨hf, e, _, hg⟩ | ⟨hf, _, v, _, hg⟩ | ⟨hf, _, v, _, e, rest, hc, hg⟩
  · have hk : k ∉ (bimapRemove k c.container).map Prod.fst := by
      rw [keys_bimapRemove]
      exact fun hm => (hnd.mem_erase_iff.1 hm).1 rfl
    refine ⟨_, hg, ?_, ?_⟩
    · simp only [List.map_append, List.map_cons, List.map_nil]
      exact keys_nodup_snoc (by rw [keys_bimapRemove]; exact hnd.erase k) hk
    · intro w hw
      cases hw
      exact ⟨by simp, bimapFind_append_self k v _ hk, by simp⟩
  · refine ⟨_, hg, hnd, ?_⟩
    intro w hw
    cases hw
  · have hk : k ∉ c.container.map Prod.fst := (bimapFind_eq_none_iff k _).1 hf
    refine ⟨_, hg, ?_, ?_⟩
    · simp only [List.map_append, List.map_cons, List.map_nil]
      exact keys_nodup_snoc hnd hk
    · intro w hw
      cases hw
      exact ⟨by simp, bimapFind_append_self k v _ hk, by simp⟩
  · have hk0 : k ∉ c.container.map Prod.fst := (bimapFind_eq_none_iff k _).1 hf
    rw [hc] at hk0 hnd
    simp only [List.map_cons, List.mem_cons, not_or] at hk0
    simp only [List.map_cons, List.nodup_cons] at hnd
    refine ⟨_, hg, ?_, ?_⟩
    · simp only [List.map_append, List.map_cons, List.map_nil]
      exact keys_nodup_snoc hnd.2 hk0.2
    · intro w hw
      cases hw
      exact ⟨by simp, bimapFind_append_self k v _ hk0.2, by simp⟩

theorem single_get_stores_result_as_most_recent_witness :
    1 ≤ (SingleCache.mk 2 [(1, 10), (2, 20)] 0 2 : SingleCache Nat Nat).capacity ∧
    ((SingleCache.mk 2 [(1, 10), (2, 20)] 0 2 : SingleCache Nat Nat).container.map
      Prod.fst).Nodup ∧
    ∃ s, SingleCache.get false (pureFn Unit (fun k : Nat => 10 * k))
        (SingleCache.mk 2 [(1, 10), (2, 20)] 0 2) 3 = some s ∧
      (s.cache.container.map Prod.fst).Nodup ∧
      ∀ v, s.outcome = Except.ok v →
        (3, v) ∈ s.cache.container ∧
        bimapFind 3 s.cache.container = some v ∧
        s.cache.container.getLast? = some (3, v) :=
  ⟨by decide, by decide,
    single_get_stores_result_as_most_recent false (pureFn Unit (fun k : Nat => 10 * k))
      (SingleCache.mk 2 [(1, 10), (2, 20)] 0 2) 3 (by decide) (by decide)⟩

/-! ## Agreement with the reference algorithm -/

theorem bimapFind_eq_lookup {K V : Type} [DecidableEq K] (k : K) (l : List (K × V)) :
    bimapFind k l = l.lookup k := by
  induction l with
  | nil => rfl
  | cons e rest ih =>
    obtain ⟨k', v⟩ := e
    by_cases h : k' = k
    · subst h
      simp [bimapFind, List.lookup]
    · have h2 : (k == k') = false := by
        simpa using fun hk : k = k' => h hk.symm
      simp [bimapFind, List.lookup, h, h2, ih]

theorem bimapRemove_eq_filter {K V : Type} [DecidableEq K] (k : K) (l : List (K × V))
    (hnd : (l.map Prod.fst).Nodup) :
    bimapRemove k l = l.filter (fun e => e.1 ≠ k) := by
  induction l with
  | nil => rfl
  | cons e rest ih =>
    obtain ⟨k', v⟩ := e
    simp only [List.map_cons, List.nodup_cons] at hnd
    by_cases h : k' = k
    · subst h
      have hall : ∀ x ∈ rest, (decide (x.1 ≠ k')) = true := by
        intro x hx
        have : x.1 ≠ k' := fun hxk => hnd.1 (hxk ▸ List.mem_map_of_mem Prod.fst hx)
        simpa using this
      simp only [bimapRemove, if_true, ne_eq, not_true_eq_false, decide_False,
        Bool.false_eq_true, not_false_eq_true, List.filter_cons_of_neg]
      exact (List.filter_eq_self.2 hall).symm
    · simp [bimapRemove, h, ih hnd.2]

/-- C18. The code agrees with the reference algorithm of section 4.2.  For a
store of capacity at least one holding at most `capacity` entries (with unique
keys and counters in the `uint64_t` range) and a total producer `P`, the call
returns the value the reference returns and leaves the same capacity and the
same entries in the same order; its counters are the reference counters as
`uint64_t` values, hence equal to them unless a counter wraps. -/
theorem single_get_refines_spec {K V : Type} [DecidableEq K] (B : Bool) (E : Type)
    (P : K → V) (c : SingleCache K V) (k : K) (hcap : 1 ≤ c.capacity)
    (hlen : c.container.length ≤ c.capacity) (hnd : (c.container.map Prod.fst).Nodup)
    (hh : c.cache_hits < UINT64_RANGE) (hm : c.cache_misses < UINT64_RANGE) :
    ∃ s, SingleCache.get B (pureFn E P) c k = some s ∧
      s.outcome = Except.ok (spec_get P c k).1 ∧
      s.cache.capacity = (spec_get P c k).2.capacity ∧
      s.cache.container = (spec_get P c k).2.container ∧
      s.cache.cache_hits = (spec_get P c k).2.cache_hits % UINT64_RANGE ∧
      s.cache.cache_misses = (spec_get P c k).2.cache_misses % UINT64_RANGE ∧
      ((spec_get P c k).2.cache_hits < UINT64_RANGE →
        (spec_get P c k).2.cache_misses < UINT64_RANGE → s.cache = (spec_get P c k).2) := by
  rcases get_pure_cases B E P c k hcap with
    ⟨v, hf, hg⟩ | ⟨hf, hne, hg⟩ | ⟨hf, heq, e, rest, hc, hg⟩
  · have hl : c.container.lookup k = some v := by rw [← bimapFind_eq_lookup]; exact hf
    have hspec : spec_get P c k =
        (v, { c with container := c.container.filter (fun e => e.1 ≠ k) ++ [(k, v)],
                     cache_hits := c.cache_hits + 1 }) := by
      simp only [spec_get, hl]
    refine ⟨_, hg, ?_, ?_, ?_, ?_, ?_, ?_⟩
    · rw [hspec]
    · rw [hspec]
    · rw [hspec, bimapRemove_eq_filter k _ hnd]
    · rw [hspec]
    · rw [hspec]; exact (Nat.mod_eq_of_lt hm).symm
    · rw [hspec]
      intro h1 _
      simp only [bimapRemove_eq_filter k _ hnd, Nat.mod_eq_of_lt h1]
  · have hl : c.container.lookup k = none := by rw [← bimapFind_eq_lookup]; exact hf
    have hlt : ¬ (c.container ++ [(k, P k)]).length > c.capacity := by
      simp only [List.length_append, List.length_singleton]; omega
    have hspec : spec_get P c k =
        (P k, { c with cache_misses := c.cache_misses + 1,
                       container := c.container ++ [(k, P k)] }) := by
      simp only [spec_get, hl, hlt, if_false]
    refine ⟨_, hg, ?_, ?_, ?_, ?_, ?_, ?_⟩
    · rw [hspec]
    · rw [hspec]
    · rw [hspec]
    · rw [hspec]; exact (Nat.mod_eq_of_lt hh).symm
    · rw [hspec]
    · rw [hspec]
      intro _ h2
      simp only [Nat.mod_eq_of_lt h2]
  · have hl : c.container.lookup k = none := by rw [← bimapFind_eq_lookup]; exact hf
    have hgt : (c.container ++ [(k, P k)]).length > c.capacity := by
      simp only [List.length_append, List.length_singleton]; omega
    have htail : (c.container ++ [(k, P k)]).tail = rest ++ [(k, P k)] := by
      rw [hc]; rfl
    have hspec : spec_get P c k =
        (P k, { c with cache_misses := c.cache_misses + 1,
                       container := rest ++ [(k, P k)] }) := by
      simp only [spec_get, hl, hgt, if_true, htail]
    refine ⟨_, hg, ?_, ?_, ?_, ?_, ?_, ?_⟩
    · rw [hspec]
    · rw [hspec]
    · rw [hspec]
    · rw [hspec]; exact (Nat.mod_eq_of_lt hh).symm
    · rw [hspec]
    · rw [hspec]
      intro _ h2
      simp only [Nat.mod_eq_of_lt h2]

theorem single_get_refines_spec_witness :
    1 ≤ (SingleCache.mk 2 [(1, 1), (2, 4)] 0 2 : SingleCache Nat Nat).capacity ∧
    ∃ s, SingleCache.get false (pureFn Unit (fun k : Nat => k * k))
        (SingleCache.mk 2 [(1, 1), (2, 4)] 0 2) 3 = some s ∧
      s.outcome = Except.ok (spec_get (fun k : Nat => k * k)
        (SingleCache.mk 2 [(1, 1), (2, 4)] 0 2) 3).1 ∧
      s.cache.capacity = (spec_get (fun k : Nat => k * k)
        (SingleCache.mk 2 [(1, 1), (2, 4)] 0 2) 3).2.capacity ∧
      s.cache.container = (spec_get (fun k : Nat => k * k)
        (SingleCache.mk 2 [(1, 1), (2, 4)] 0 2) 3).2.container ∧
      s.cache.cache_hits = (spec_get (fun k : Nat => k * k)
        (SingleCache.mk 2 [(1, 1), (2, 4)] 0 2) 3).2.cache_hits % UINT64_RANGE ∧
      s.cache.cache_misses = (spec_get (fun k : Nat => k * k)
        (SingleCache.mk 2 [(1, 1), (2, 4)] 0 2) 3).2.cache_misses % UINT64_RANGE ∧
      ((spec_get (fun k : Nat => k * k)
          (SingleCache.mk 2 [(1, 1), (2, 4)] 0 2) 3).2.cache_hits < UINT64_RANGE →
        (spec_get (fun k : Nat => k * k)
          (SingleCache.mk 2 [(1, 1), (2, 4)] 0 2) 3).2.cache_misses < UINT64_RANGE →
        s.cache = (spec_get (fun k : Nat => k * k)
          (SingleCache.mk 2 [(1, 1), (2, 4)] 0 2) 3).2) :=
  ⟨by decide,
    single_get_refines_spec false Unit (fun k : Nat => k * k)
      (SingleCache.mk 2 [(1, 1), (2, 4)] 0 2) 3 (by decide) (by decide) (by decide)
      (by norm_num [UINT64_RANGE]) (by norm_num [UINT64_RANGE])⟩

/-! ## Capacity accounting of the composite caches -/

theorem sum_capacity_replicate {K V : Type} (N S : Nat) :
    ((List.replicate N (SingleCache.fresh S : SingleCache K V)).map
      SingleCache.get_capacity).sum = N * S := by
  induction N with
  | zero => simp
  | succ n ih =>
    simp only [List.replicate_succ, List.map_cons, List.sum_cons, ih]
    simp only [SingleCache.get_capacity, SingleCache.fresh]
    ring

/-- C11 as stated fails: built with requested capacity 5 for 2 workers, each
composite cache reports `capacity() = 5`, while `2 * (5 / 2) = 4` and the
capacities of its shards sum to 4. -/
theorem composite_capacity_is_not_aggregate :
    (∃ r : MultiCache Nat Nat, MultiCache.construct 2 5 = some r ∧
      r.get_capacity ≠ 2 * (5 / 2) ∧
      r.get_capacity ≠ (r.caches.map SingleCache.get_capacity).sum) ∧
    (∃ r : MultiRingCache Nat, MultiRingCache.construct 2 5 = some r ∧
      r.get_capacity ≠ 2 * (5 / 2) ∧
      r.get_capacity ≠ (r.caches.map SingleCache.get_capacity).sum) ∧
    (∃ r : MultiRingPriorityCache Nat, MultiRingPriorityCache.construct 2 5 = some r ∧
      r.get_capacity ≠ 2 * (5 / 2) ∧
      r.get_capacity ≠ (r.caches.map SingleCache.get_capacity).sum) := by
  refine ⟨⟨_, rfl, ?_, ?_⟩, ⟨_, rfl, ?_, ?_⟩, ⟨_, rfl, ?_, ?_⟩⟩ <;> decide

/-- C11 (amended). For `N ≥ 1` workers and requested capacity `C`, each
composite constructor produces an object whose `capacity()` is the requested
`C`; the capacities of its `N` shards sum to `N * (C / N)`, which is at most
`C`, and `capacity()` equals that aggregate exactly when `N` divides `C`. -/
theorem composite_capacity_accounting (K V : Type) (N C : Nat) (hN : 1 ≤ N) :
    (∃ r : MultiCache K V, MultiCache.construct N C = some r ∧
      r.get_capacity = C ∧
      (r.caches.map SingleCache.get_capacity).sum = N * (C / N)) ∧
    (∃ r : MultiRingCache V, MultiRingCache.construct N C = some r ∧
      r.get_capacity = C ∧
      (r.caches.map SingleCache.get_capacity).sum = N * (C / N)) ∧
    (∃ r : MultiRingPriorityCache V, MultiRingPriorityCache.construct N C = some r ∧
      r.get_capacity = C ∧
      (r.caches.map SingleCache.get_capacity).sum = N * (C / N)) ∧
    N * (C / N) ≤ C ∧ (C = N * (C / N) ↔ N ∣ C) := by
  have hN0 : N ≠ 0 := by omega
  refine ⟨⟨_, rfl, rfl, sum_capacity_replicate N (C / N)⟩,
    ⟨{ caches := List.replicate N (SingleCache.fresh (C / N)), capacity := C,
       single_capacity := C / N }, ?_, rfl, sum_capacity_replicate N (C / N)⟩,
    ⟨{ caches := List.replicate N (SingleCache.fresh (C / N)),
       locks := List.replicate N false, capacity := C, single_capacity := C / N },
      ?_, rfl, sum_capacity_replicate N (C / N)⟩,
    Nat.mul_div_le C N, ?_⟩
  · simp only [MultiRingCache.construct, hN0, if_false]
  · simp only [MultiRingPriorityCache.construct, hN0, if_false]
  · constructor
    · intro h
      exact Dvd.intro _ h.symm
    · intro h
      exact (Nat.mul_div_cancel' h).symm

theorem composite_capacity_accounting_witness :
    1 ≤ 2 ∧
    ((∃ r : MultiCache Nat Nat, MultiCache.construct 2 5 = some r ∧
      r.get_capacity = 5 ∧
      (r.caches.map SingleCache.get_capacity).sum = 2 * (5 / 2)) ∧
    (∃ r : MultiRingCache Nat, MultiRingCache.construct 2 5 = some r ∧
      r.get_capacity = 5 ∧
      (r.caches.map SingleCache.get_capacity).sum = 2 * (5 / 2)) ∧
    (∃ r : MultiRingPriorityCache Nat, MultiRingPriorityCache.construct 2 5 = some r ∧
      r.get_capacity = 5 ∧
      (r.caches.map SingleCache.get_capacity).sum = 2 * (5 / 2)) ∧
    2 * (5 / 2) ≤ 5 ∧ (5 = 2 * (5 / 2) ↔ 2 ∣ 5)) :=
  ⟨by decide, composite_capacity_accounting Nat Nat 2 5 (by decide)⟩

/-! ## Statistics rollup -/

theorem int_add_assign_small (total : Int) (x : Nat) (h0 : 0 ≤ total)
    (h : total + x < 2 ^ 31) : int_add_assign total x = total + x := by
  simp only [int_add_assign, to_int, int_to_uint64, uint64_range_eq]
  omega

theorem foldl_int_add_assign_small (counters : List Nat) :
    ∀ (total : Int), 0 ≤ total → total + (counters.sum : Nat) < 2 ^ 31 →
      counters.foldl int_add_assign total = total + (counters.sum : Nat) := by
  induction counters with
  | nil => intro total _ _; simp
  | cons x rest ih =>
    intro total h0 h
    simp only [List.sum_cons, Nat.cast_add] at h
    have hx : int_add_assign total x = total + x := int_add_assign_small total x h0 (by omega)
    simp only [List.foldl_cons, hx, List.sum_cons, Nat.cast_add]
    rw [ih (total + x) (by omega) (by omega)]
    ring

/-- While the sum of the shard counters is below `2 ^ 31`, a rollup accessor
returns exactly that sum. -/
theorem rollup_eq_sum (counters : List Nat) (h : counters.sum < 2 ^ 31) :
    rollup counters = counters.sum := by
  have h2 := foldl_int_add_assign_small counters 0 (le_refl _) (by omega)
  simp only [rollup, h2, int_to_uint64]
  omega

/-- C13 (defect of the code). The rollup accessors accumulate in an `int`, so
they stop being the sum of the shard counters once it reaches `2 ^ 31`.  For a
ring cache with one shard: with 2^31 hits, `hits()` returns `2 ^ 64 - 2 ^ 31`
while the shard counters sum to `2 ^ 31`; with `2 ^ 31 - 1` hits and one miss,
`num_lookups()` is `2 ^ 64 - 2 ^ 31` while `hits() + misses()` is `2 ^ 31`; and
with `2 ^ 32 - 1` hits, `hits()` is `2 ^ 64 - 1` and one more call, a hit, brings
it down to `0`. -/
theorem ring_rollup_truncates_to_int :
    MultiRingCache.hits (ringOneShard [] 2147483648 0) = 18446744071562067968 ∧
    ((ringOneShard [] 2147483648 0).caches.map SingleCache.hits).sum = 2147483648 ∧
    MultiRingCache.num_lookups (ringOneShard [] 2147483647 1) = 18446744071562067968 ∧
    MultiRingCache.hits (ringOneShard [] 2147483647 1) +
      MultiRingCache.misses (ringOneShard [] 2147483647 1) = 2147483648 ∧
    MultiRingCache.hits (ringOneShard [(0, 0)] 4294967295 1) = 18446744073709551615 ∧
    (∃ st, MultiRingCache.get 1 (pureFn Unit (fun k : Nat => k))
        (ringOneShard [(0, 0)] 4294967295 1) 0 = some st ∧
      st.step.calls = [] ∧
      MultiRingCache.hits st.cache = 0) := by
  refine ⟨by decide, by decide, by decide, by decide, by decide, ⟨_, rfl, rfl, by decide⟩⟩

/-! ## Per-thread cache -/

/-- A miss with a returning producer on a store of capacity at least one. -/
theorem get_pure_miss {K V : Type} [DecidableEq K] (B : Bool) (E : Type) (P : K → V)
    (c : SingleCache K V) (k : K) (hcap : 1 ≤ c.capacity)
    (hmiss : bimapFind k c.container = none) :
    ∃ s, SingleCache.get B (pureFn E P) c k = some s ∧ s.calls = [k] ∧
      s.outcome = Except.ok (P k) ∧
      s.cache.capacity = c.capacity ∧
      s.cache.cache_misses = (c.cache_misses + 1) % UINT64_RANGE ∧
      s.cache.cache_hits = c.cache_hits ∧
      (k, P k) ∈ s.cache.container := by
  rcases get_pure_cases B E P c k hcap with
    ⟨v, hf, _⟩ | ⟨_, _, hg⟩ | ⟨_, _, e, rest, _, hg⟩
  · rw [hmiss] at hf; cases hf
  · exact ⟨_, hg, rfl, rfl, rfl, rfl, rfl, by simp⟩
  · exact ⟨_, hg, rfl, rfl, rfl, rfl, rfl, by simp⟩

theorem multiCache_get_eq {K E V : Type} [DecidableEq K] (i : Nat) (fn : K → Except E V)
    (r : MultiCache K V) (k : K) (sh : SingleCache K V) (s : Step K E V)
    (hsh : r.caches[i]? = some sh) (hs : SingleCache.get false fn sh k = some s) :
    MultiCache.get i fn r k = some
      { shard := i, step := s, cache := { r with caches := r.caches.set i s.cache } } := by
  simp only [MultiCache.get, hsh, hs]

theorem getElem?_set_same {α : Type} (l : List α) (i : Nat) (a b : α)
    (h : l[i]? = some a) : (l.set i b)[i]? = some b := by
  have hi : i < l.length := by
    rcases Nat.lt_or_ge i l.length with h1 | h1
    · exact h1
    · rw [List.getElem?_eq_none h1] at h; cases h
  exact List.getElem?_set_self hi

/-- C16. Per-worker isolation.  With the worker id `i` as an input, a call by
worker `i` (whose shard exists and has capacity at least one) is the
non-locking Single call on shard `i`; shard `i` is replaced by its new state
and every other shard is left exactly as it was.  Hence, when two different
workers `i` and `j` request the same key, stored in neither of their shards,
the producer is invoked once by each call, each call counts a miss in its own
shard, and afterwards both shards hold the entry.  Scenario `N = 2`, `C = 4`,
workers 0 and 1 each requesting 5: `misses() = 2`, `hits() = 0`, and 5 is stored
in both shards. -/
theorem perworker_isolation :
    (∀ (K E V : Type) [DecidableEq K] (fn : K → Except E V) (r : MultiCache K V)
      (i : Nat) (k : K) (sh : SingleCache K V),
      r.caches[i]? = some sh → 1 ≤ sh.capacity →
      ∃ s, SingleCache.get false fn sh k = some s ∧
        MultiCache.get i fn r k = some
          { shard := i, step := s, cache := { r with caches := r.caches.set i s.cache } } ∧
        (r.caches.set i s.cache)[i]? = some s.cache ∧
        (r.caches.set i s.cache).length = r.caches.length ∧
        ∀ j, j ≠ i → (r.caches.set i s.cache)[j]? = r.caches[j]?) ∧
    (∀ (K V : Type) [DecidableEq K] (E : Type) (P : K → V) (r : MultiCache K V)
      (i j : Nat) (k : K) (shi shj : SingleCache K V),
      i ≠ j → r.caches[i]? = some shi → r.caches[j]? = some shj →
      1 ≤ shi.capacity → 1 ≤ shj.capacity →
      bimapFind k shi.container = none → bimapFind k shj.container = none →
      ∃ st1 st2, MultiCache.get i (pureFn E P) r k = some st1 ∧
        MultiCache.get j (pureFn E P) st1.cache k = some st2 ∧
        st1.step.calls = [k] ∧ st2.step.calls = [k] ∧
        st1.step.cache.cache_misses = (shi.cache_misses + 1) % UINT64_RANGE ∧
        st1.step.cache.cache_hits = shi.cache_hits ∧
        st2.step.cache.cache_misses = (shj.cache_misses + 1) % UINT64_RANGE ∧
        st2.step.cache.cache_hits = shj.cache_hits ∧
        st2.cache.caches[i]? = some st1.step.cache ∧
        st2.cache.caches[j]? = some st2.step.cache ∧
        (k, P k) ∈ st1.step.cache.container ∧ (k, P k) ∈ st2.step.cache.container) ∧
    (∃ r0 st1 st2, (MultiCache.construct 2 4 : Constructed (MultiCache Nat Nat)) = some r0 ∧
      MultiCache.get 0 (pureFn Unit (fun k : Nat => k)) r0 5 = some st1 ∧
      MultiCache.get 1 (pureFn Unit (fun k : Nat => k)) st1.cache 5 = some st2 ∧
      callLog [st1.step, st2.step] = [5, 5] ∧
      MultiCache.misses st2.cache = 2 ∧ MultiCache.hits st2.cache = 0 ∧
      st2.cache.caches.map (fun sh => sh.container) = [[(5, 5)], [(5, 5)]]) := by
  refine ⟨?_, ?_, ⟨_, _, _, rfl, rfl, rfl, rfl, by decide, by decide, rfl⟩⟩
  · intro K E V _ fn r i k sh hsh hcap
    obtain ⟨s, hs, _⟩ := get_total false fn sh k hcap
    refine ⟨s, hs, multiCache_get_eq i fn r k sh s hsh hs,
      getElem?_set_same _ i sh _ hsh, by simp, ?_⟩
    intro j hj
    exact List.getElem?_set_ne (Ne.symm hj)
  · intro K V _ E P r i j k shi shj hij hi hj hci hcj hmi hmj
    obtain ⟨s1, hs1, hc1, _, _, hm1, hh1, hmem1⟩ := get_pure_miss false E P shi k hci hmi
    obtain ⟨s2, hs2, hc2, _, _, hm2, hh2, hmem2⟩ := get_pure_miss false E P shj k hcj hmj
    have hj1 : (r.caches.set i s1.cache)[j]? = some shj := by
      rw [List.getElem?_set_ne hij]; exact hj
    refine ⟨_, _, multiCache_get_eq i _ r k shi s1 hi hs1,
      multiCache_get_eq j _ _ k shj s2 hj1 hs2, hc1, hc2, hm1, hh1, hm2, hh2, ?_, ?_,
      hmem1, hmem2⟩
    · show ((r.caches.set i s1.cache).set j s2.cache)[i]? = some s1.cache
      rw [List.getElem?_set_ne (Ne.symm hij)]
      exact getElem?_set_same _ i shi _ hi
    · show ((r.caches.set i s1.cache).set j s2.cache)[j]? = some s2.cache
      exact getElem?_set_same _ j shj _ hj1

theorem perworker_isolation_witness :
    ((MultiCache.mk [SingleCache.fresh 2, SingleCache.fresh 2] 4 :
        MultiCache Nat Nat).caches[1]? = some (SingleCache.fresh 2)) ∧
    1 ≤ (SingleCache.fresh 2 : SingleCache Nat Nat).capacity ∧
    ∃ s, SingleCache.get false (pureFn Unit (fun k : Nat => k)) (SingleCache.fresh 2) 5
        = some s ∧
      MultiCache.get 1 (pureFn Unit (fun k : Nat => k))
          (MultiCache.mk [SingleCache.fresh 2, SingleCache.fresh 2] 4) 5 = some
        { shard := 1, step := s,
          cache := { (MultiCache.mk [SingleCache.fresh 2, SingleCache.fresh 2] 4 :
                        MultiCache Nat Nat) with
                     caches := [SingleCache.fresh 2, SingleCache.fresh 2].set 1 s.cache } } ∧
      ([SingleCache.fresh 2, SingleCache.fresh 2].set 1 s.cache)[1]? = some s.cache ∧
      ([SingleCache.fresh 2, SingleCache.fresh 2].set 1 s.cache).length =
        [(SingleCache.fresh 2 : SingleCache Nat Nat), SingleCache.fresh 2].length ∧
      ∀ j, j ≠ 1 → ([SingleCache.fresh 2, SingleCache.fresh 2].set 1 s.cache)[j]? =
        [(SingleCache.fresh 2 : SingleCache Nat Nat), SingleCache.fresh 2][j]? :=
  ⟨rfl, by decide,
    perworker_isolation.1 Nat Unit Nat (pureFn Unit (fun k : Nat => k))
      (MultiCache.mk [SingleCache.fresh 2, SingleCache.fresh 2] 4) 1 5 (SingleCache.fresh 2)
      rfl (by decide)⟩

/-! ## Hit characterisation -/

theorem lastUseRev_pos_iff {K : Type} [DecidableEq K] (x : K) (l : List K) :
    0 < lastUseRev x l ↔ x ∈ l := by
  induction l with
  | nil => simp [lastUseRev]
  | cons k r ih =>
    by_cases h : k = x
    · simp [lastUseRev, h]
    · have h2 : ¬ x = k := fun hx => h hx.symm
      simp [lastUseRev, h, h2, ih]

theorem lastUse_pos_iff {K : Type} [DecidableEq K] (x : K) (pre : List K) :
    0 < lastUse x pre ↔ x ∈ pre := by
  simp [lastUse, lastUseRev_pos_iff]

theorem lastUseRev_inj {K : Type} [DecidableEq K] (x y : K) (l : List K) (hx : x ∈ l)
    (h : lastUseRev x l = lastUseRev y l) : x = y := by
  induction l with
  | nil => simp at hx
  | cons k r ih =>
    by_cases h1 : k = x
    · by_cases h2 : k = y
      · rw [← h1, ← h2]
      · subst h1
        simp only [lastUseRev, if_true, if_neg h2] at h
        have := lastUseRev_le y r
        omega
    · by_cases h2 : k = y
      · subst h2
        simp only [lastUseRev, if_true, if_neg h1] at h
        have := lastUseRev_le x r
        omega
      · simp only [lastUseRev, if_neg h1, if_neg h2] at h
        simp only [List.mem_cons] at hx
        rcases hx with hx | hx
        · exact absurd hx.symm h1
        · exact ih hx h

theorem lastUse_inj {K : Type} [DecidableEq K] (x y : K) (pre : List K) (hx : x ∈ pre)
    (h : lastUse x pre = lastUse y pre) : x = y :=
  lastUseRev_inj x y pre.reverse (by simpa using hx) h

theorem LruKeys.nil {K : Type} [DecidableEq K] (C : Nat) : LruKeys C ([] : List K) [] := by
  refine ⟨by simp, ⟨by simp, List.Pairwise.nil⟩, ?_, ?_⟩
  · intro _ y hy; simp at hy
  · intro x hx; simp at hx

/-- The keys after one more call: a part `M` of the old keys without `k`,
followed by `k`. -/
theorem LruKeys.after_call {K : Type} [DecidableEq K] {C : Nat} {pre L M : List K} (k : K)
    (h : LruKeys C pre L) (hsub : M.Sublist L) (hk : k ∉ M) (hlen : M.length + 1 ≤ C)
    (hA : M.length + 1 < C → ∀ y ∈ pre, y ≠ k → y ∈ M)
    (hB : ∀ y ∈ L, y ≠ k → y ∈ M ∨ ∀ x ∈ M, lastUse y pre < lastUse x pre) :
    LruKeys C (pre ++ [k]) (M ++ [k]) := by
  obtain ⟨_, hR, _, hcl⟩ := h
  refine ⟨by simpa using hlen, hR.snoc k hsub hk, ?_, ?_⟩
  · intro hlt y hy
    simp only [List.length_append, List.length_singleton] at hlt
    simp only [List.mem_append, List.mem_singleton] at hy ⊢
    rcases hy with hy | hy
    · by_cases hyk : y = k
      · exact Or.inr hyk
      · exact Or.inl (hA hlt y hy hyk)
    · exact Or.inr hy
  · intro x hx y hy hlt
    simp only [List.mem_append, List.mem_singleton] at hx hy ⊢
    by_cases hyk : y = k
    · exact Or.inr hyk
    · left
      have hyp : y ∈ pre := by
        rcases hy with hy | hy
        · exact hy
        · exact absurd hy hyk
      have hky : ¬ k = y := fun hh => hyk hh.symm
      rw [lastUse_snoc x k pre, lastUse_snoc y k pre, if_neg hky] at hlt
      have hyle := lastUse_le y pre
      have hxk : ¬ k = x := by
        intro hh
        rw [if_pos hh] at hlt
        omega
      rw [if_neg hxk] at hlt
      have hxM : x ∈ M := by
        rcases hx with hx | hx
        · exact hx
        · exact absurd hx.symm hxk
      have hyL : y ∈ L := hcl x (hsub.subset hxM) y hyp hlt
      rcases hB y hyL hyk with hm | hm
      · exact hm
      · have := hm x hxM
        omega

/-- One call re-establishes the description of the stored keys. -/
theorem get_pure_lru {K V : Type} [DecidableEq K] (B : Bool) (E : Type) (P : K → V)
    (c : SingleCache K V) (k : K) (pre : List K) (hcap : 1 ≤ c.capacity)
    (h : LruKeys c.capacity pre (c.container.map Prod.fst)) :
    ∃ s, SingleCache.get B (pureFn E P) c k = some s ∧ s.cache.capacity = c.capacity ∧
      LruKeys c.capacity (pre ++ [k]) (s.cache.container.map Prod.fst) := by
  have hnd : (c.container.map Prod.fst).Nodup := h.2.1.nodup
  have hlenL : (c.container.map Prod.fst).length = c.container.length := by simp
  rcases get_pure_cases B E P c k hcap with ⟨v, hf, hg⟩ | ⟨hf, hne, hg⟩ | ⟨hf, heq, e, rest, hc, hg⟩
  · have hkL : k ∈ c.container.map Prod.fst :=
      List.mem_map_of_mem Prod.fst (bimapFind_some_mem hf)
    have hle : ((c.container.map Prod.fst).erase k).length + 1
        = (c.container.map Prod.fst).length := by
      rw [List.length_erase_of_mem hkL]
      have : 0 < (c.container.map Prod.fst).length := List.length_pos_of_mem hkL
      omega
    refine ⟨_, hg, rfl, ?_⟩
    simp only [List.map_append, List.map_cons, List.map_nil, keys_bimapRemove]
    refine h.after_call k (List.erase_sublist _ _) (fun hm => (hnd.mem_erase_iff.1 hm).1 rfl)
      (by have := h.1; omega) ?_ ?_
    · intro hlt y hy hyk
      exact (List.mem_erase_of_ne hyk).2 (h.2.2.1 (by omega) y hy)
    · intro y hy hyk
      exact Or.inl ((List.mem_erase_of_ne hyk).2 hy)
  · refine ⟨_, hg, rfl, ?_⟩
    simp only [List.map_append, List.map_cons, List.map_nil]
    have hl := h.1
    refine h.after_call k (List.Sublist.refl _) ((bimapFind_eq_none_iff k _).1 hf)
      (by rw [hlenL] at hl ⊢; omega) ?_ ?_
    · intro hlt y hy _
      exact h.2.2.1 (by omega) y hy
    · intro y hy _
      exact Or.inl hy
  · refine ⟨_, hg, rfl, ?_⟩
    simp only [List.map_append, List.map_cons, List.map_nil]
    have hkeys : c.container.map Prod.fst = e.1 :: rest.map Prod.fst := by rw [hc]; rfl
    have hl : c.container.length = rest.length + 1 := by rw [hc]; rfl
    have hsub : (rest.map Prod.fst).Sublist (c.container.map Prod.fst) := by
      rw [hkeys]; exact List.sublist_cons_self _ _
    refine h.after_call k hsub (fun hm => (bimapFind_eq_none_iff k _).1 hf (hsub.subset hm))
      (by simp only [List.length_map]; omega) ?_ ?_
    · intro hlt
      simp only [List.length_map] at hlt
      omega
    · intro y hy _
      rw [hkeys] at hy
      simp only [List.mem_cons] at hy
      rcases hy with hy | hy
      · right
        intro x hx
        have hp := h.2.1.2
        rw [hkeys, List.pairwise_cons] at hp
        rw [hy]
        exact hp.1 x hx
      · exact Or.inl hy

/-- A key is stored exactly when it was requested and fewer than `C` distinct
keys were requested since. -/
theorem LruKeys.mem_iff {K : Type} [DecidableEq K] {C : Nat} {pre L : List K}
    (h : LruKeys C pre L) (k : K) :
    k ∈ L ↔ k ∈ pre ∧ distinctSince k pre < C := by
  obtain ⟨hlen, hR, hA, hcl⟩ := h
  have hnd := hR.nodup
  constructor
  · intro hk
    refine ⟨(lastUse_pos_iff k pre).1 (hR.1 k hk), ?_⟩
    have hsub : pre.toFinset.filter (fun y => lastUse k pre < lastUse y pre)
        ⊆ (L.erase k).toFinset := by
      intro y hy
      simp only [Finset.mem_filter, List.mem_toFinset] at hy
      have hyk : y ≠ k := by
        intro hh
        rw [hh] at hy
        omega
      exact List.mem_toFinset.2 ((List.mem_erase_of_ne hyk).2 (hcl k hk y hy.1 hy.2))
    have h1 := Finset.card_le_card hsub
    have h2 : (L.erase k).toFinset.card ≤ (L.erase k).length := List.toFinset_card_le _
    have h3 : (L.erase k).length + 1 = L.length := by
      rw [List.length_erase_of_mem hk]
      have : 0 < L.length := List.length_pos_of_mem hk
      omega
    simp only [distinctSince]
    omega
  · rintro ⟨hk, hd⟩
    by_contra hkL
    have hfull : ¬ L.length < C := fun hlt => hkL (hA hlt k hk)
    have hsub : L.toFinset ⊆ pre.toFinset.filter (fun y => lastUse k pre < lastUse y pre) := by
      intro z hz
      have hzL : z ∈ L := List.mem_toFinset.1 hz
      have hzp : z ∈ pre := (lastUse_pos_iff z pre).1 (hR.1 z hzL)
      simp only [Finset.mem_filter, List.mem_toFinset]
      refine ⟨hzp, ?_⟩
      rcases Nat.lt_trichotomy (lastUse z pre) (lastUse k pre) with hlt | heq | hgt
      · exact absurd (hcl z hzL k hk hlt) hkL
      · exact absurd (lastUse_inj z k pre hzp heq ▸ hzL) hkL
      · exact hgt
    have h1 := Finset.card_le_card hsub
    rw [List.toFinset_card_of_nodup hnd] at h1
    simp only [distinctSince] at hd
    omega

/-- The state reached from a fresh cache by the calls `pre` stores the keys
described by `LruKeys`. -/
theorem gets_fresh_lru {K V : Type} [DecidableEq K] (B : Bool) (E : Type) (P : K → V)
    (C : Nat) (hC : 1 ≤ C) (pre : List K) :
    ∃ ss, SingleCache.gets B (pureFn E P) (SingleCache.fresh C) pre = some ss ∧
      ss.length = pre.length ∧
      (finalCache (SingleCache.fresh C) ss).capacity = C ∧
      LruKeys C pre ((finalCache (SingleCache.fresh C) ss).container.map Prod.fst) := by
  obtain ⟨ss, hss, hall⟩ := gets_hist_inv B (pureFn E P)
    (fun pre c => c.capacity = C ∧ LruKeys C pre (c.container.map Prod.fst))
    (by
      intro pre c k hinv
      obtain ⟨hc, hl⟩ := hinv
      obtain ⟨s, hg, hcap, hr⟩ := get_pure_lru B E P c k pre (by omega) (by rw [hc]; exact hl)
      exact ⟨s, hg, by omega, by rw [← hc]; exact hr⟩)
    pre [] (SingleCache.fresh C) ⟨rfl, by simpa [SingleCache.fresh] using LruKeys.nil C⟩
  have hlen := gets_length B _ pre _ ss hss
  have h := hall pre.length (le_refl _)
  rw [← hlen, List.take_length, hlen, List.take_length] at h
  exact ⟨ss, hss, hlen, by simpa using h.1, by simpa using h.2⟩

/-- A call in a state whose keys are described by `LruKeys` is a hit exactly
when the key was requested and fewer than `capacity` distinct keys were
requested since; otherwise it is a miss. -/
theorem get_pure_hit_iff {K V : Type} [DecidableEq K] (B : Bool) (E : Type) (P : K → V)
    (c : SingleCache K V) (k : K) (pre : List K) (hcap : 1 ≤ c.capacity)
    (h : LruKeys c.capacity pre (c.container.map Prod.fst)) :
    ∃ s, SingleCache.get B (pureFn E P) c k = some s ∧
      (IsHit c s ↔ (k ∈ pre ∧ distinctSince k pre < c.capacity)) ∧
      (IsMiss c k s ↔ ¬ (k ∈ pre ∧ distinctSince k pre < c.capacity)) := by
  have hiff := h.mem_iff k
  rcases get_pure_cases B E P c k hcap with
    ⟨v, hf, hg⟩ | ⟨hf, _, hg⟩ | ⟨hf, _, e, rest, _, hg⟩
  · have hk : k ∈ c.container.map Prod.fst :=
      List.mem_map_of_mem Prod.fst (bimapFind_some_mem hf)
    refine ⟨_, hg, ⟨fun _ => hiff.1 hk, fun _ => ⟨rfl, rfl, rfl⟩⟩, ?_⟩
    constructor
    · intro hm
      have := hm.1
      simp at this
    · intro hn
      exact absurd (hiff.1 hk) hn
  · have hk : k ∉ c.container.map Prod.fst := (bimapFind_eq_none_iff k _).1 hf
    refine ⟨_, hg, ?_, ⟨fun _ hc => hk (hiff.2 hc), fun _ => ⟨rfl, rfl, rfl⟩⟩⟩
    constructor
    · intro hh
      have := hh.1
      simp at this
    · intro hc
      exact absurd (hiff.2 hc) hk
  · have hk : k ∉ c.container.map Prod.fst := (bimapFind_eq_none_iff k _).1 hf
    refine ⟨_, hg, ?_, ⟨fun _ hc => hk (hiff.2 hc), fun _ => ⟨rfl, rfl, rfl⟩⟩⟩
    constructor
    · intro hh
      have := hh.1
      simp at this
    · intro hc
      exact absurd (hiff.2 hc) hk

/-- C19. Hit characterisation of the Single cache (capacity `C ≥ 1`, pure
producer).  After any calls `pre` on a fresh cache, a call for `k` is a hit if
and only if `k` was requested in `pre` and the number of distinct keys other
than `k` requested since the most recent call for `k` is below `C`; in every
other case it is a miss. -/
theorem single_hit_iff_stack_distance {K V : Type} [DecidableEq K] (B : Bool) (E : Type)
    (P : K → V) (C : Nat) (hC : 1 ≤ C) (pre : List K) (k : K) :
    ∃ ss s, SingleCache.gets B (pureFn E P) (SingleCache.fresh C) pre = some ss ∧
      SingleCache.get B (pureFn E P) (finalCache (SingleCache.fresh C) ss) k = some s ∧
      (IsHit (finalCache (SingleCache.fresh C) ss) s ↔
        (k ∈ pre ∧ distinctSince k pre < C)) ∧
      (IsMiss (finalCache (SingleCache.fresh C) ss) k s ↔
        ¬ (k ∈ pre ∧ distinctSince k pre < C)) := by
  obtain ⟨ss, hss, _, hcap, hl⟩ := gets_fresh_lru B E P C hC pre
  refine ⟨ss, ?_⟩
  generalize finalCache (SingleCache.fresh C) ss = c at hcap hl ⊢
  obtain ⟨s, hg, h1, h2⟩ := get_pure_hit_iff B E P c k pre (by omega) (by rw [hcap]; exact hl)
  rw [hcap] at h1 h2
  exact ⟨s, hss, hg, h1, h2⟩

theorem single_hit_iff_stack_distance_witness :
    1 ≤ 2 ∧
    ∃ ss s, SingleCache.gets false (pureFn Unit (fun k : Nat => k))
        (SingleCache.fresh 2) [1, 2, 3, 2] = some ss ∧
      SingleCache.get false (pureFn Unit (fun k : Nat => k))
        (finalCache (SingleCache.fresh 2) ss) 3 = some s ∧
      (IsHit (finalCache (SingleCache.fresh 2) ss) s ↔
        (3 ∈ [1, 2, 3, 2] ∧ distinctSince 3 [1, 2, 3, 2] < 2)) ∧
      (IsMiss (finalCache (SingleCache.fresh 2) ss) 3 s ↔
        ¬ (3 ∈ [1, 2, 3, 2] ∧ distinctSince 3 [1, 2, 3, 2] < 2)) :=
  ⟨by decide,
    single_hit_iff_stack_distance false Unit (fun k : Nat => k) 2 (by decide) [1, 2, 3, 2] 3⟩

/-! ## Sequences of calls on composite caches -/

theorem finalState_nil {σ ρ : Type} (after : ρ → σ) (st : σ) :
    finalState after st ([] : List ρ) = st := rfl

theorem finalState_cons {σ ρ : Type} (after : ρ → σ) (st : σ) (r : ρ) (rs : List ρ) :
    finalState after st (r :: rs) = finalState after (after r) rs := by
  cases rs with
  | nil => rfl
  | cons t u =>
    have h : (t :: u).getLast? = some ((t :: u).getLast (List.cons_ne_nil t u)) :=
      List.getLast?_eq_getLast _ _
    simp [finalState, List.getLast?_cons_cons, h]

theorem finalState_snoc {σ ρ : Type} (after : ρ → σ) (st : σ) (r : ρ) (rs : List ρ) :
    finalState after st (rs ++ [r]) = after r := by
  simp [finalState]

theorem runCalls_cons {σ ι ρ : Type} (call : σ → ι → Option ρ) (after : ρ → σ) (st : σ)
    (x : ι) (xs : List ι) (r : ρ) (rs : List ρ) (h1 : call st x = some r)
    (h2 : runCalls call after (after r) xs = some rs) :
    runCalls call after st (x :: xs) = some (r :: rs) := by
  simp [runCalls, h1, h2]

/-- Induction along a sequence of calls on a composite cache, for inputs
satisfying `ok` and an invariant that may mention the inputs so far. -/
theorem runCalls_inv {σ ι ρ : Type} (call : σ → ι → Option ρ) (after : ρ → σ)
    (ok : ι → Prop) (Inv : List ι → σ → Prop)
    (hstep : ∀ pre st x, ok x → Inv pre st →
      ∃ r, call st x = some r ∧ Inv (pre ++ [x]) (after r)) :
    ∀ (xs pre : List ι) (st : σ), (∀ x ∈ xs, ok x) → Inv pre st →
      ∃ rs, runCalls call after st xs = some rs ∧ rs.length = xs.length ∧
        ∀ i, i ≤ xs.length → Inv (pre ++ xs.take i) (finalState after st (rs.take i)) := by
  intro xs
  induction xs with
  | nil =>
    intro pre st _ h
    exact ⟨[], rfl, rfl, fun i _ => by simpa [finalState_nil] using h⟩
  | cons x xs ih =>
    intro pre st hok h
    obtain ⟨r, hr, hinv⟩ := hstep pre st x (hok x (List.mem_cons_self _ _)) h
    obtain ⟨rs, hrs, hlen, hall⟩ := ih (pre ++ [x]) (after r)
      (fun y hy => hok y (List.mem_cons_of_mem _ hy)) hinv
    refine ⟨r :: rs, runCalls_cons call after st x xs r rs hr hrs, by simp [hlen], ?_⟩
    intro i hi
    cases i with
    | zero => simpa [finalState_nil] using h
    | succ j =>
      have := hall j (by simpa using hi)
      simpa [finalState_cons] using this

theorem finalState_take_succ {σ ρ : Type} (after : ρ → σ) (st : σ) (rs : List ρ)
    (i : Nat) (r : ρ) (h : rs[i]? = some r) :
    finalState after st (rs.take (i + 1)) = after r := by
  rw [List.take_succ, h]
  simp [finalState_snoc]

/-! ## Capacity bound of the composite caches -/

theorem totalEntries_le {K V : Type} (S : Nat) (caches : List (SingleCache K V))
    (h : ∀ sh ∈ caches, sh.container.length ≤ S) :
    totalEntries caches ≤ caches.length * S := by
  induction caches with
  | nil => simp [totalEntries]
  | cons sh rest ih =>
    have h1 := h sh (List.mem_cons_self _ _)
    have h2 := ih (fun x hx => h x (List.mem_cons_of_mem _ hx))
    simp only [totalEntries, List.map_cons, List.sum_cons, List.length_cons] at h2 ⊢
    rw [Nat.add_mul]
    omega

theorem ShardsBounded.total {K V : Type} {N S : Nat} {caches : List (SingleCache K V)}
    (h : ShardsBounded N S caches) : totalEntries caches ≤ N * S := by
  have := totalEntries_le S caches (fun sh hsh => (h.2 sh hsh).2)
  rw [h.1] at this
  exact this

/-- Replacing a shard by the state a call leaves on it keeps the shards
bounded; the call on the shard returns. -/
theorem ShardsBounded.call {K E V : Type} [DecidableEq K] {N S : Nat}
    {caches : List (SingleCache K V)} (h : ShardsBounded N S caches) (hS : 1 ≤ S)
    (fn : K → Except E V) (idx : Nat) (hidx : idx < N) (k : K) :
    ∃ sh s, caches[idx]? = some sh ∧ SingleCache.get false fn sh k = some s ∧
      ShardsBounded N S (caches.set idx s.cache) := by
  have hlt : idx < caches.length := by rw [h.1]; exact hidx
  have hsh : caches[idx]? = some caches[idx] := List.getElem?_eq_getElem hlt
  obtain ⟨hcap, hlen⟩ := h.2 _ (List.getElem_mem hlt)
  obtain ⟨s, hg, hc2, hl2⟩ := get_length_le false fn caches[idx] k (by omega) (by omega)
  refine ⟨_, s, hsh, hg, by simpa using h.1, ?_⟩
  intro x hx
  rcases List.mem_or_eq_of_mem_set hx with hm | hm
  · exact h.2 x hm
  · rw [hm]
    exact ⟨by omega, by omega⟩

theorem shardsBounded_replicate {K V : Type} (N S : Nat) :
    ShardsBounded N S (List.replicate N (SingleCache.fresh S : SingleCache K V)) := by
  refine ⟨by simp, ?_⟩
  intro sh hsh
  rw [List.eq_of_mem_replicate hsh]
  simp [SingleCache.fresh]

theorem priority_dispatch_shape {E V : Type} {N S : Nat} (fn : Nat → Except E V)
    (r : MultiRingPriorityCache V) (locks : List Bool) (idx k : Nat)
    (h : PriorityShape N S r) (hS : 1 ≤ S) (hidx : idx < N) (hl : idx < locks.length) :
    ∃ st, priority_dispatch fn r locks idx k = some st ∧ PriorityShape N S st.cache := by
  obtain ⟨sh, s, hsh, hg, hb⟩ := h.2.call hS fn idx hidx k
  have hu : omp_unset_lock locks idx = some (locks.set idx false) := by
    simp [omp_unset_lock, List.getElem?_eq_getElem hl]
  cases ho : s.outcome with
  | error e =>
    have heq : priority_dispatch fn r locks idx k = some
        { shard := idx, step := s,
          cache := { r with caches := r.caches.set idx s.cache, locks := locks } } := by
      simp only [priority_dispatch, hsh, hg, ho]
    exact ⟨_, heq, h.1, hb⟩
  | ok v =>
    have heq : priority_dispatch fn r locks idx k = some
        { shard := idx, step := s,
          cache := { r with caches := r.caches.set idx s.cache,
                            locks := locks.set idx false } } := by
      simp only [priority_dispatch, hsh, hg, ho, hu]
    exact ⟨_, heq, h.1, hb⟩

theorem priorityIndex_lt (S N k i : Nat) (hS : 1 ≤ S) (hN : 1 ≤ N) :
    ∃ idx, priorityIndex S N k i = some idx ∧ idx < N := by
  have h : ¬ (S = 0 ∨ N = 0) := by omega
  exact ⟨((k / S + i) % UINT64_RANGE) % N, by simp only [priorityIndex, h, if_false],
    Nat.mod_lt _ (by omega)⟩

theorem omp_test_lock_cases (locks : List Bool) (idx : Nat) (h : idx < locks.length) :
    (locks[idx]? = some true ∧ omp_test_lock locks idx = some (false, locks)) ∨
    (locks[idx]? = some false ∧ omp_test_lock locks idx = some (true, locks.set idx true)) := by
  have hget : locks[idx]? = some locks[idx] := List.getElem?_eq_getElem h
  cases hb : locks[idx] with
  | true => left; rw [hb] at hget; exact ⟨hget, by simp [omp_test_lock, hget]⟩
  | false => right; rw [hb] at hget; exact ⟨hget, by simp [omp_test_lock, hget]⟩

theorem priority_loop_shape {E V : Type} {N S : Nat} (fn : Nat → Except E V)
    (r : MultiRingPriorityCache V) (k : Nat) (h : PriorityShape N S r) (hS : 1 ≤ S)
    (hN : 1 ≤ N) (hlocks : r.locks.length = N) :
    ∀ n i, ∃ res, priority_loop N fn r k n i = some res ∧
      ∀ st, res = some st → PriorityShape N S st.cache := by
  intro n
  induction n with
  | zero =>
    intro i
    exact ⟨none, rfl, fun st hst => by cases hst⟩
  | succ n ih =>
    intro i
    obtain ⟨idx, hidx, hlt⟩ := priorityIndex_lt S N k i hS hN
    rw [← h.1] at hidx
    rcases omp_test_lock_cases r.locks idx (by omega) with ⟨_, ht⟩ | ⟨_, ht⟩
    · obtain ⟨res, hres, hgood⟩ := ih (i + 1)
      exact ⟨res, by simp only [priority_loop, hidx, ht, hres], hgood⟩
    · obtain ⟨st, hst, hshape⟩ := priority_dispatch_shape fn r (r.locks.set idx true) idx k h hS
        hlt (by simp; omega)
      refine ⟨some st, by simp only [priority_loop, hidx, ht, hst], ?_⟩
      intro st2 h2
      cases h2
      exact hshape

theorem get_granted_shape {E V : Type} {N S : Nat} (fn : Nat → Except E V)
    (r : MultiRingPriorityCache V) (k : Nat) (h : PriorityShape N S r) (hS : 1 ≤ S)
    (hN : 1 ≤ N) (hlocks : r.locks.length = N)
    (hfree : r.locks[(k / S) % N]? = some false) :
    ∃ st, MultiRingPriorityCache.get_granted N fn r k = some st ∧
      PriorityShape N S st.cache := by
  have hlt : (k / S) % N < N := Nat.mod_lt _ (by omega)
  obtain ⟨st, hst, hshape⟩ := priority_dispatch_shape fn r (r.locks.set ((k / S) % N) true)
    ((k / S) % N) k h hS hlt (by simp; omega)
  refine ⟨st, ?_, hshape⟩
  simp only [MultiRingPriorityCache.get_granted, h.1, ringIndex_eq S N k hS hN,
    omp_set_lock_granted, hfree, hst]

/-- A call on the opportunistic ring cache, in any state of the locks, returns
(directly, or after the owner lock was released) and keeps the shape. -/
theorem call_in_env_shape {E V : Type} {N S : Nat} (fn : Nat → Except E V)
    (r : MultiRingPriorityCache V) (held : List Bool) (k : Nat) (h : PriorityShape N S r)
    (hS : 1 ≤ S) (hN : 1 ≤ N) (hheld : held.length = N) :
    ∃ st, MultiRingPriorityCache.call_in_env N fn r (held, k) = some st ∧
      PriorityShape N S st.cache := by
  have hlt : (k / S) % N < N := Nat.mod_lt _ (by omega)
  have h1 : PriorityShape N S { r with locks := held } := h
  obtain ⟨res, hres, hgood⟩ := priority_loop_shape fn { r with locks := held } k h1 hS hN
    hheld N 0
  cases res with
  | some st =>
    exact ⟨st, by simp only [MultiRingPriorityCache.call_in_env,
      MultiRingPriorityCache.get, hres], hgood st rfl⟩
  | none =>
    have hidx : ringIndex r.single_capacity N k = some ((k / S) % N) := by
      rw [h.1]; exact ringIndex_eq S N k hS hN
    have hget : held[(k / S) % N]? = some held[(k / S) % N] :=
      List.getElem?_eq_getElem (by omega)
    cases hb : held[(k / S) % N] with
    | true =>
      rw [hb] at hget
      have h2 : PriorityShape N S { r with locks := held.set ((k / S) % N) false } := h
      obtain ⟨st, hst, hshape⟩ := get_granted_shape fn
        { r with locks := held.set ((k / S) % N) false } k h2 hS hN (by simpa using hheld)
        (by simp only; exact List.getElem?_set_self (by omega))
      refine ⟨st, ?_, hshape⟩
      simp only [MultiRingPriorityCache.call_in_env, MultiRingPriorityCache.get, hres, hidx,
        hget, hst]
    | false =>
      rw [hb] at hget
      obtain ⟨st, hst, hshape⟩ := get_granted_shape fn { r with locks := held } k h1 hS hN
        hheld hget
      refine ⟨st, ?_, hshape⟩
      simp only [MultiRingPriorityCache.call_in_env, MultiRingPriorityCache.get, hres, hidx,
        hget, hst]

/-- An invariant of the state kept by every call holds after each call of a
sequence, and the sequence returns. -/
theorem runCalls_inv_mem {σ ι ρ : Type} (call : σ → ι → Option ρ) (after : ρ → σ)
    (ok : ι → Prop) (Inv : σ → Prop)
    (hstep : ∀ st x, ok x → Inv st → ∃ r, call st x = some r ∧ Inv (after r))
    (xs : List ι) (st : σ) (hok : ∀ x ∈ xs, ok x) (h : Inv st) :
    ∃ rs, runCalls call after st xs = some rs ∧ rs.length = xs.length ∧
      ∀ r ∈ rs, Inv (after r) := by
  obtain ⟨rs, hrs, hlen, hall⟩ := runCalls_inv call after ok (fun _ s => Inv s)
    (fun _ s x hx hs => hstep s x hx hs) xs [] st hok h
  refine ⟨rs, hrs, hlen, ?_⟩
  intro r hr
  obtain ⟨i, hi, hget⟩ := List.getElem_of_mem hr
  have h1 := hall (i + 1) (by omega)
  rw [finalState_take_succ after st rs i r (by simp [List.getElem?_eq_getElem hi, hget])] at h1
  exact h1

/-- C12 as stated fails: with requested capacity 1 for 2 workers the shards have
capacity 0, and the first call has no defined result, on the per-thread cache
(erasing from an empty list) as on the ring caches (division by zero). -/
theorem composite_bound_undefined_below_worker_count :
    (∃ r0 : MultiCache Nat Nat, MultiCache.construct 2 1 = some r0 ∧
      MultiCache.gets (pureFn Unit (fun k : Nat => k)) r0 [(0, 7)] = none) ∧
    (∃ r0 : MultiRingCache Nat, MultiRingCache.construct 2 1 = some r0 ∧
      MultiRingCache.gets 2 (pureFn Unit (fun k : Nat => k)) r0 [7] = none) ∧
    (∃ r0 : MultiRingPriorityCache Nat, MultiRingPriorityCache.construct 2 1 = some r0 ∧
      MultiRingPriorityCache.gets 2 (pureFn Unit (fun k : Nat => k)) r0
        [([false, false], 7)] = none) :=
  ⟨⟨_, rfl, rfl⟩, ⟨_, rfl, rfl⟩, ⟨_, rfl, rfl⟩⟩

/-- C12 (amended). Composite capacity bound for `C / N ≥ 1`, i.e. requested
capacity at least the number of workers.  For the per-thread cache (calls given
with the worker id, below `N`), the ring cache, and the opportunistic ring cache
(calls given with the `N` lock states left by the other threads), every sequence
of calls on the constructed object returns, with any cached function, and after
each call the shards together hold at most `N * (C / N)` entries. -/
theorem composite_capacity_bound (K E V : Type) [DecidableEq K] (C N : Nat)
    (hS : 1 ≤ C / N) :
    (∀ (fn : K → Except E V) (calls : List (Nat × K)), (∀ wk ∈ calls, wk.1 < N) →
      ∃ r0 sts, MultiCache.construct N C = some r0 ∧
        MultiCache.gets fn r0 calls = some sts ∧ sts.length = calls.length ∧
        totalEntries r0.caches ≤ N * (C / N) ∧
        ∀ st ∈ sts, totalEntries st.cache.caches ≤ N * (C / N)) ∧
    (∀ (fn : Nat → Except E V) (ks : List Nat),
      ∃ r0 sts, MultiRingCache.construct N C = some r0 ∧
        MultiRingCache.gets N fn r0 ks = some sts ∧ sts.length = ks.length ∧
        totalEntries r0.caches ≤ N * (C / N) ∧
        ∀ st ∈ sts, totalEntries st.cache.caches ≤ N * (C / N)) ∧
    (∀ (fn : Nat → Except E V) (calls : List (List Bool × Nat)),
      (∀ c ∈ calls, c.1.length = N) →
      ∃ r0 sts, MultiRingPriorityCache.construct N C = some r0 ∧
        MultiRingPriorityCache.gets N fn r0 calls = some sts ∧ sts.length = calls.length ∧
        totalEntries r0.caches ≤ N * (C / N) ∧
        ∀ st ∈ sts, totalEntries st.cache.caches ≤ N * (C / N)) := by
  have hN : 1 ≤ N := by
    rcases Nat.eq_zero_or_pos N with h | h
    · subst h; simp at hS
    · exact h
  have hN0 : N ≠ 0 := by omega
  refine ⟨?_, ?_, ?_⟩
  · intro fn calls hok
    have h0 : ShardsBounded N (C / N)
        (List.replicate N (SingleCache.fresh (C / N) : SingleCache K V)) :=
      shardsBounded_replicate N (C / N)
    obtain ⟨sts, hsts, hlen, hall⟩ := runCalls_inv_mem
      (fun r wk => MultiCache.get wk.1 fn r wk.2) WorkerStep.cache
      (fun wk : Nat × K => wk.1 < N)
      (fun r : MultiCache K V => ShardsBounded N (C / N) r.caches)
      (by
        intro r wk hwk hb
        obtain ⟨sh, s, hsh, hg, hb2⟩ := hb.call hS fn wk.1 hwk wk.2
        exact ⟨_, multiCache_get_eq wk.1 fn r wk.2 sh s hsh hg, hb2⟩)
      calls { caches := List.replicate N (SingleCache.fresh (C / N)), capacity := C } hok h0
    exact ⟨_, sts, rfl, hsts, hlen, h0.total, fun st hst => (hall st hst).total⟩
  · intro fn ks
    have h0 : ShardsBounded N (C / N)
        (List.replicate N (SingleCache.fresh (C / N) : SingleCache Nat V)) :=
      shardsBounded_replicate N (C / N)
    obtain ⟨sts, hsts, hlen, hall⟩ := runCalls_inv_mem
      (MultiRingCache.get N fn) RingStep.cache (fun _ => True)
      (fun r : MultiRingCache V =>
        r.single_capacity = C / N ∧ ShardsBounded N (C / N) r.caches)
      (by
        intro r k _ hinv
        obtain ⟨hsc, hb⟩ := hinv
        obtain ⟨sh, s, hsh, hg, hb2⟩ := hb.call hS fn ((k / (C / N)) % N)
          (Nat.mod_lt _ (by omega)) k
        refine ⟨{ shard := (k / (C / N)) % N, step := s,
                  cache := { r with caches := r.caches.set ((k / (C / N)) % N) s.cache } },
          ?_, hsc, hb2⟩
        simp only [MultiRingCache.get, hsc, ringIndex_eq _ N k hS hN, hsh, hg])
      ks { caches := List.replicate N (SingleCache.fresh (C / N)), capacity := C,
           single_capacity := C / N }
      (fun _ _ => trivial) ⟨rfl, h0⟩
    refine ⟨_, sts, by simp only [MultiRingCache.construct, hN0, if_false], hsts, hlen,
      h0.total, fun st hst => (hall st hst).2.total⟩
  · intro fn calls hok
    have h0 : ShardsBounded N (C / N)
        (List.replicate N (SingleCache.fresh (C / N) : SingleCache Nat V)) :=
      shardsBounded_replicate N (C / N)
    obtain ⟨sts, hsts, hlen, hall⟩ := runCalls_inv_mem
      (MultiRingPriorityCache.call_in_env N fn) PriorityStep.cache
      (fun c : List Bool × Nat => c.1.length = N)
      (fun r : MultiRingPriorityCache V => PriorityShape N (C / N) r)
      (by
        intro r c hc hinv
        exact call_in_env_shape fn r c.1 c.2 hinv hS hN hc)
      calls { caches := List.replicate N (SingleCache.fresh (C / N)),
              locks := List.replicate N false, capacity := C, single_capacity := C / N }
      hok ⟨rfl, h0⟩
    refine ⟨_, sts, by simp only [MultiRingPriorityCache.construct, hN0, if_false], hsts,
      hlen, h0.total, fun st hst => (hall st hst).2.total⟩

theorem composite_capacity_bound_witness :
    1 ≤ 4 / 2 ∧
    ∃ r0 sts, (MultiRingCache.construct 2 4 : Constructed (MultiRingCache Nat)) = some r0 ∧
      MultiRingCache.gets 2 (pureFn Unit (fun k : Nat => k)) r0 [0, 1, 2, 3, 4, 6] = some sts ∧
      sts.length = [0, 1, 2, 3, 4, 6].length ∧
      totalEntries r0.caches ≤ 2 * (4 / 2) ∧
      ∀ st ∈ sts, totalEntries st.cache.caches ≤ 2 * (4 / 2) :=
  ⟨by decide,
    (composite_capacity_bound Nat Unit Nat 4 2 (by decide)).2.1
      (pureFn Unit (fun k : Nat => k)) [0, 1, 2, 3, 4, 6]⟩

/-! ## Ring cache: ownership and re-access -/

theorem filter_route_snoc_same (S N k : Nat) (pre : List Nat) :
    (pre ++ [k]).filter (fun y => (y / S) % N = (k / S) % N)
      = pre.filter (fun y => (y / S) % N = (k / S) % N) ++ [k] := by
  simp [List.filter_append]

theorem filter_route_snoc_other (S N k i : Nat) (pre : List Nat) (h : (k / S) % N ≠ i) :
    (pre ++ [k]).filter (fun y => (y / S) % N = i)
      = pre.filter (fun y => (y / S) % N = i) := by
  simp [List.filter_append, h]

/-- One call on the ring cache: it is the Single call on the owner shard, a hit
exactly when the key was requested and fewer than `S` distinct keys routed to
that shard were requested since, and the description of all shards is kept. -/
theorem ring_get_lru {E V : Type} {N S : Nat} (P : Nat → V) (pre : List Nat)
    (r : MultiRingCache V) (k : Nat) (h : RingLru N S pre r) (hS : 1 ≤ S) (hN : 1 ≤ N) :
    ∃ sh s, r.caches[(k / S) % N]? = some sh ∧
      SingleCache.get false (pureFn E P) sh k = some s ∧
      MultiRingCache.get N (pureFn E P) r k = some
        { shard := (k / S) % N, step := s,
          cache := { r with caches := r.caches.set ((k / S) % N) s.cache } } ∧
      RingLru N S (pre ++ [k]) { r with caches := r.caches.set ((k / S) % N) s.cache } ∧
      (IsHit sh s ↔
        (k ∈ pre.filter (fun y => (y / S) % N = (k / S) % N) ∧
          distinctSince k (pre.filter (fun y => (y / S) % N = (k / S) % N)) < S)) := by
  obtain ⟨hsc, hlen, hsh⟩ := h
  have hidx : (k / S) % N < r.caches.length := by rw [hlen]; exact Nat.mod_lt _ (by omega)
  have hget : r.caches[(k / S) % N]? = some r.caches[(k / S) % N] :=
    List.getElem?_eq_getElem hidx
  obtain ⟨hcap, hlru⟩ := hsh _ _ hget
  obtain ⟨s, hg, hcap2, hlru2⟩ := get_pure_lru false E P r.caches[(k / S) % N] k
    (pre.filter (fun y => (y / S) % N = (k / S) % N)) (by omega) (by rw [hcap]; exact hlru)
  obtain ⟨s2, hg2, hhit, _⟩ := get_pure_hit_iff false E P r.caches[(k / S) % N] k
    (pre.filter (fun y => (y / S) % N = (k / S) % N)) (by omega) (by rw [hcap]; exact hlru)
  rw [hg] at hg2
  cases hg2
  rw [hcap] at hhit hlru2
  refine ⟨_, s, hget, hg, ?_, ⟨hsc, by simpa using hlen, ?_⟩, hhit⟩
  · simp only [MultiRingCache.get, hsc, ringIndex_eq S N k hS hN, hget, hg]
  · intro i sh hi
    by_cases hik : (k / S) % N = i
    · subst hik
      rw [List.getElem?_set_self hidx] at hi
      cases hi
      rw [filter_route_snoc_same]
      exact ⟨by omega, hlru2⟩
    · rw [List.getElem?_set_ne hik] at hi
      rw [filter_route_snoc_other S N k i pre hik]
      exact hsh i sh hi

theorem ringLru_construct {V : Type} (N C : Nat) (hN : 1 ≤ N) :
    ∃ r0 : MultiRingCache V, MultiRingCache.construct N C = some r0 ∧
      RingLru N (C / N) [] r0 := by
  have hN0 : N ≠ 0 := by omega
  refine ⟨{ caches := List.replicate N (SingleCache.fresh (C / N)), capacity := C,
            single_capacity := C / N }, ?_, rfl, ?_, ?_⟩
  · simp only [MultiRingCache.construct, hN0, if_false]
  · simp
  · intro i sh hi
    have hmem : sh ∈ List.replicate N (SingleCache.fresh (C / N) : SingleCache Nat V) :=
      List.getElem?_mem hi
    rw [List.eq_of_mem_replicate hmem]
    exact ⟨rfl, by simpa [SingleCache.fresh] using LruKeys.nil (C / N)⟩

/-- Every sequence of calls on a fresh ring cache with `C / N ≥ 1` returns and
leaves shards described by `RingLru`. -/
theorem ring_gets_lru (E V : Type) (P : Nat → V) (C N : Nat) (hS : 1 ≤ C / N)
    (ks : List Nat) :
    ∃ r0 sts, MultiRingCache.construct N C = some r0 ∧
      MultiRingCache.gets N (pureFn E P) r0 ks = some sts ∧
      RingLru N (C / N) ks (finalState RingStep.cache r0 sts) := by
  have hN : 1 ≤ N := by
    rcases Nat.eq_zero_or_pos N with h | h
    · subst h; simp at hS
    · exact h
  obtain ⟨r0, hr0, h0⟩ := ringLru_construct (V := V) N C hN
  obtain ⟨sts, hsts, hlen, hall⟩ := runCalls_inv
    (MultiRingCache.get N (pureFn E P)) RingStep.cache (fun _ => True)
    (fun pre r => RingLru N (C / N) pre r)
    (by
      intro pre r k _ hinv
      obtain ⟨sh, s, _, _, hg, hl, _⟩ := ring_get_lru (E := E) P pre r k hinv hS hN
      exact ⟨_, hg, hl⟩)
    ks [] r0 (fun _ _ => trivial) h0
  have h := hall ks.length (le_refl _)
  rw [← hlen, List.take_length, hlen, List.take_length] at h
  exact ⟨r0, sts, hr0, hsts, by simpa using h⟩

/-- In a state described by `RingLru` every stored key is owned by the shard
that stores it. -/
theorem RingLru.owner {V : Type} {N S : Nat} {pre : List Nat} {r : MultiRingCache V}
    (h : RingLru N S pre r) (i : Nat) (sh : SingleCache Nat V) (x : Nat)
    (hi : r.caches[i]? = some sh) (hx : x ∈ sh.container.map Prod.fst) :
    (x / S) % N = i := by
  have hl := (h.2.2 i sh hi).2
  have hpos := hl.2.1.1 x hx
  have hmem := (lastUse_pos_iff x _).1 hpos
  simpa using (List.mem_filter.1 hmem).2

/-- C20. Ring-shared ownership invariant (`S = C / N ≥ 1`, pure producer).
After every sequence of calls on a fresh ring cache, every entry stored in shard
`i` has a key `k` with `(k / S) % N = i`; hence a key is stored in at most one
shard, and a call for a key that is stored (necessarily in its owner shard) is a
hit on that shard which does not invoke the producer. -/
theorem ring_ownership_invariant (E V : Type) (P : Nat → V) (C N : Nat)
    (hS : 1 ≤ C / N) (ks : List Nat) :
    ∃ r0 sts, MultiRingCache.construct N C = some r0 ∧
      MultiRingCache.gets N (pureFn E P) r0 ks = some sts ∧
      (∀ (i : Nat) (sh : SingleCache Nat V) (e : Nat × V),
        (finalState RingStep.cache r0 sts).caches[i]? = some sh →
        e ∈ sh.container → (e.1 / (C / N)) % N = i) ∧
      (∀ (i j : Nat) (shi shj : SingleCache Nat V) (x : Nat),
        (finalState RingStep.cache r0 sts).caches[i]? = some shi →
        (finalState RingStep.cache r0 sts).caches[j]? = some shj →
        x ∈ shi.container.map Prod.fst → x ∈ shj.container.map Prod.fst → i = j) ∧
      (∀ (i : Nat) (sh : SingleCache Nat V) (x : Nat),
        (finalState RingStep.cache r0 sts).caches[i]? = some sh →
        x ∈ sh.container.map Prod.fst →
        ∃ st, MultiRingCache.get N (pureFn E P) (finalState RingStep.cache r0 sts) x
            = some st ∧
          st.shard = i ∧ st.step.calls = [] ∧ IsHit sh st.step) := by
  have hN : 1 ≤ N := by
    rcases Nat.eq_zero_or_pos N with h | h
    · subst h; simp at hS
    · exact h
  obtain ⟨r0, sts, hr0, hsts, hl⟩ := ring_gets_lru E V P C N hS ks
  refine ⟨r0, sts, hr0, hsts, ?_, ?_, ?_⟩
  · intro i sh e hi he
    exact hl.owner i sh e.1 hi (List.mem_map_of_mem Prod.fst he)
  · intro i j shi shj x hi hj hxi hxj
    rw [← hl.owner i shi x hi hxi, ← hl.owner j shj x hj hxj]
  · intro i sh x hi hx
    have hown := hl.owner i sh x hi hx
    obtain ⟨v, hv⟩ := bimapFind_of_mem_keys hx
    have hg := get_hit false (pureFn E P) sh x v hv
    have heq : MultiRingCache.get N (pureFn E P) (finalState RingStep.cache r0 sts) x = some
        { shard := i,
          step := { outcome := Except.ok v,
                    cache := { sh with cache_hits := (sh.cache_hits + 1) % UINT64_RANGE,
                                       container := bimapRemove x sh.container ++ [(x, v)] },
                    calls := [], evicted := [] },
          cache := { finalState RingStep.cache r0 sts with
                     caches := (finalState RingStep.cache r0 sts).caches.set i
                       { sh with cache_hits := (sh.cache_hits + 1) % UINT64_RANGE,
                                 container := bimapRemove x sh.container ++ [(x, v)] } } } := by
      simp only [MultiRingCache.get, hl.1, ringIndex_eq _ N x hS hN, hown, hi, hg]
    exact ⟨_, heq, rfl, rfl, ⟨rfl, rfl, rfl⟩⟩

theorem ring_ownership_invariant_witness :
    1 ≤ 4 / 2 ∧
    ∃ r0 sts, (MultiRingCache.construct 2 4 : Constructed (MultiRingCache Nat)) = some r0 ∧
      MultiRingCache.gets 2 (pureFn Unit (fun k : Nat => k)) r0 [0, 5, 2, 7, 4] = some sts ∧
      (∀ (i : Nat) (sh : SingleCache Nat Nat) (e : Nat × Nat),
        (finalState RingStep.cache r0 sts).caches[i]? = some sh →
        e ∈ sh.container → (e.1 / (4 / 2)) % 2 = i) ∧
      (∀ (i j : Nat) (shi shj : SingleCache Nat Nat) (x : Nat),
        (finalState RingStep.cache r0 sts).caches[i]? = some shi →
        (finalState RingStep.cache r0 sts).caches[j]? = some shj →
        x ∈ shi.container.map Prod.fst → x ∈ shj.container.map Prod.fst → i = j) ∧
      (∀ (i : Nat) (sh : SingleCache Nat Nat) (x : Nat),
        (finalState RingStep.cache r0 sts).caches[i]? = some sh →
        x ∈ sh.container.map Prod.fst →
        ∃ st, MultiRingCache.get 2 (pureFn Unit (fun k : Nat => k))
            (finalState RingStep.cache r0 sts) x = some st ∧
          st.shard = i ∧ st.step.calls = [] ∧ IsHit sh st.step) :=
  ⟨by decide, ring_ownership_invariant Unit Nat (fun k : Nat => k) 4 2 (by decide)
    [0, 5, 2, 7, 4]⟩

theorem lastUseRev_append {K : Type} [DecidableEq K] (x : K) (l1 l2 : List K) :
    lastUseRev x (l1 ++ l2)
      = if x ∈ l1 then lastUseRev x l1 + l2.length else lastUseRev x l2 := by
  induction l1 with
  | nil => simp
  | cons k r ih =>
    by_cases h : k = x
    · subst h
      simp [lastUseRev]
      omega
    · have h2 : ¬ x = k := fun hx => h hx.symm
      simp only [List.cons_append, lastUseRev, if_neg h, List.mem_cons, h2, false_or]
      exact ih

theorem lastUse_append {K : Type} [DecidableEq K] (x : K) (h m : List K) :
    lastUse x (h ++ m) = if x ∈ m then lastUse x m + h.length else lastUse x h := by
  simp [lastUse, List.reverse_append, lastUseRev_append]

/-- After a call for `k`, the distinct keys requested since are among the other
keys requested afterwards. -/
theorem distinctSince_le {K : Type} [DecidableEq K] (k : K) (a m : List K) :
    distinctSince k (a ++ [k] ++ m) ≤ (m.filter (fun y => y ≠ k)).toFinset.card := by
  apply Finset.card_le_card
  intro y hy
  simp only [Finset.mem_filter, List.mem_toFinset] at hy
  obtain ⟨_, hlt⟩ := hy
  have hyk : y ≠ k := by
    intro hh
    rw [hh] at hlt
    omega
  have hk1 : lastUse k (a ++ [k]) = a.length + 1 := by simp [lastUse_snoc]
  have hkge : a.length + 1 ≤ lastUse k (a ++ [k] ++ m) := by
    rw [lastUse_append]
    split
    · simp only [List.length_append, List.length_singleton]; omega
    · omega
  have hym : y ∈ m := by
    by_contra hn
    rw [lastUse_append y (a ++ [k]) m, if_neg hn] at hlt
    have := lastUse_le y (a ++ [k])
    simp only [List.length_append, List.length_singleton] at this
    omega
  simp only [List.mem_toFinset, List.mem_filter]
  exact ⟨hym, by simpa using hyk⟩

/-- C17. Ring-shared re-access (`S = C / N ≥ 1`, pure producer).  If a call for
`k` is made on a ring cache (after any calls `pre` on the fresh cache) and the
calls `mid` that follow request fewer than `S` distinct keys other than `k`
routed to the shard of `k` (and any number of keys routed to other shards), then
a further call for `k` is dispatched to the owner shard, is a hit there and does
not invoke the producer.  Scenario `N = 2`, `C = 4`, keys `[0,1,2,3,0,2]`:
shards `[0,0,1,1,0,1]`, `hits() = 2`, `misses() = 4`. -/
theorem ring_reaccess_is_hit :
    (∀ (E V : Type) (P : Nat → V) (C N : Nat), 1 ≤ C / N →
      ∀ (pre mid : List Nat) (k : Nat),
      (sameShardOthers (C / N) N k mid).toFinset.card < C / N →
      ∃ r0 sts sh st, MultiRingCache.construct N C = some r0 ∧
        MultiRingCache.gets N (pureFn E P) r0 (pre ++ [k] ++ mid) = some sts ∧
        (finalState RingStep.cache r0 sts).caches[(k / (C / N)) % N]? = some sh ∧
        MultiRingCache.get N (pureFn E P) (finalState RingStep.cache r0 sts) k = some st ∧
        st.shard = (k / (C / N)) % N ∧ st.step.calls = [] ∧ IsHit sh st.step) ∧
    (∃ r0 sts, (MultiRingCache.construct 2 4 : Constructed (MultiRingCache Nat)) = some r0 ∧
      MultiRingCache.gets 2 (pureFn Unit (fun k : Nat => k)) r0 [0, 1, 2, 3, 0, 2] = some sts ∧
      sts.map RingStep.shard = [0, 0, 1, 1, 0, 1] ∧
      callLog (sts.map RingStep.step) = [0, 1, 2, 3] ∧
      MultiRingCache.hits (finalState RingStep.cache r0 sts) = 2 ∧
      MultiRingCache.misses (finalState RingStep.cache r0 sts) = 4) := by
  refine ⟨?_, ⟨_, _, rfl, rfl, rfl, rfl, by decide, by decide⟩⟩
  intro E V P C N hS pre mid k hcard
  have hN : 1 ≤ N := by
    rcases Nat.eq_zero_or_pos N with h | h
    · subst h; simp at hS
    · exact h
  obtain ⟨r0, sts, hr0, hsts, hl⟩ := ring_gets_lru E V P C N hS (pre ++ [k] ++ mid)
  obtain ⟨sh, s, hsh, _, hg, _, hhit⟩ := ring_get_lru (E := E) P (pre ++ [k] ++ mid)
    (finalState RingStep.cache r0 sts) k hl hS hN
  have hfilter : (pre ++ [k] ++ mid).filter (fun y => (y / (C / N)) % N = (k / (C / N)) % N)
      = pre.filter (fun y => (y / (C / N)) % N = (k / (C / N)) % N) ++ [k]
        ++ mid.filter (fun y => (y / (C / N)) % N = (k / (C / N)) % N) := by
    simp [List.filter_append]
  have hcond : k ∈ (pre ++ [k] ++ mid).filter
        (fun y => (y / (C / N)) % N = (k / (C / N)) % N) ∧
      distinctSince k ((pre ++ [k] ++ mid).filter
        (fun y => (y / (C / N)) % N = (k / (C / N)) % N)) < C / N := by
    rw [hfilter]
    refine ⟨by simp, ?_⟩
    have h1 := distinctSince_le k (pre.filter (fun y => (y / (C / N)) % N = (k / (C / N)) % N))
      (mid.filter (fun y => (y / (C / N)) % N = (k / (C / N)) % N))
    have h2 : ((mid.filter (fun y => (y / (C / N)) % N = (k / (C / N)) % N)).filter
        (fun y => y ≠ k)).toFinset ⊆ (sameShardOthers (C / N) N k mid).toFinset := by
      intro y hy
      simp only [List.mem_toFinset, List.mem_filter, sameShardOthers] at hy ⊢
      refine ⟨hy.1.1, ?_⟩
      have ha := hy.1.2
      have hb := hy.2
      simp only [decide_eq_true_eq] at ha hb ⊢
      exact ⟨ha, by simpa using hb⟩
    have h3 := Finset.card_le_card h2
    omega
  have hh := hhit.2 hcond
  exact ⟨r0, sts, sh, _, hr0, hsts, hsh, hg, rfl, hh.1, hh⟩

theorem ring_reaccess_is_hit_witness :
    1 ≤ 4 / 2 ∧ (sameShardOthers (4 / 2) 2 0 [1, 2, 3, 6, 7]).toFinset.card < 4 / 2 ∧
    ∃ r0 sts sh st, (MultiRingCache.construct 2 4 : Constructed (MultiRingCache Nat))
        = some r0 ∧
      MultiRingCache.gets 2 (pureFn Unit (fun k : Nat => k)) r0
        ([5] ++ [0] ++ [1, 2, 3, 6, 7]) = some sts ∧
      (finalState RingStep.cache r0 sts).caches[(0 / (4 / 2)) % 2]? = some sh ∧
      MultiRingCache.get 2 (pureFn Unit (fun k : Nat => k))
        (finalState RingStep.cache r0 sts) 0 = some st ∧
      st.shard = (0 / (4 / 2)) % 2 ∧ st.step.calls = [] ∧ IsHit sh st.step :=
  ⟨by decide, by decide,
    ring_reaccess_is_hit.1 Unit Nat (fun k : Nat => k) 4 2 (by decide) [5] [1, 2, 3, 6, 7] 0
      (by decide)⟩

/-! ## Opportunistic ring cache: shard selection -/

theorem get_pure_ok {K V : Type} [DecidableEq K] (B : Bool) (E : Type) (P : K → V)
    (c : SingleCache K V) (k : K) (hcap : 1 ≤ c.capacity) :
    ∃ s v, SingleCache.get B (pureFn E P) c k = some s ∧ s.outcome = Except.ok v ∧
      s.cache.capacity = c.capacity := by
  rcases get_pure_cases B E P c k hcap with ⟨v, _, hg⟩ | ⟨_, _, hg⟩ | ⟨_, _, e, rest, _, hg⟩
  · exact ⟨_, v, hg, rfl, rfl⟩
  · exact ⟨_, P k, hg, rfl, rfl⟩
  · exact ⟨_, P k, hg, rfl, rfl⟩

theorem list_set_same {α : Type} (l : List α) (i : Nat) (a : α) (h : l[i]? = some a) :
    l.set i a = l := by
  induction l generalizing i with
  | nil => rfl
  | cons x xs ih =>
    cases i with
    | zero =>
      simp only [List.getElem?_cons_zero, Option.some.injEq] at h
      simp [h]
    | succ j =>
      simp only [List.getElem?_cons_succ] at h
      simp [ih j h]

theorem priorityIndex_eq (S N k i : Nat) (hS : 1 ≤ S) (hN : 1 ≤ N)
    (hk : k / S + i < UINT64_RANGE) :
    priorityIndex S N k i = some (((k / S) % N + i) % N) := by
  have h : ¬ (S = 0 ∨ N = 0) := by omega
  simp only [priorityIndex, h, if_false, Nat.mod_eq_of_lt hk, Nat.mod_add_mod]

/-- The shard call made with the lock of shard `idx` taken from the unset
state: with a returning producer the lock is unset again, so the locks end as
they were. -/
theorem priority_dispatch_pure {E V : Type} (P : Nat → V) (r : MultiRingPriorityCache V)
    (idx k : Nat) (sh : SingleCache Nat V) (hsh : r.caches[idx]? = some sh)
    (hcap : 1 ≤ sh.capacity) (hfree : r.locks[idx]? = some false) :
    ∃ s, SingleCache.get false (pureFn E P) sh k = some s ∧
      s.cache.capacity = sh.capacity ∧
      priority_dispatch (pureFn E P) r (r.locks.set idx true) idx k = some
        { shard := idx, step := s,
          cache := { r with caches := r.caches.set idx s.cache } } := by
  obtain ⟨s, v, hg, hout, hc⟩ := get_pure_ok false E P sh k hcap
  have hlt : idx < r.locks.length := by
    rcases Nat.lt_or_ge idx r.locks.length with h | h
    · exact h
    · rw [List.getElem?_eq_none h] at hfree; cases hfree
  have hset : (r.locks.set idx true)[idx]? = some true := List.getElem?_set_self hlt
  have hback : (r.locks.set idx true).set idx false = r.locks := by
    rw [List.set_set]
    exact list_set_same r.locks idx false hfree
  refine ⟨s, hg, hc, ?_⟩
  simp only [priority_dispatch, hsh, hg, hout, omp_unset_lock, hset, hback]

/-- The loop returns from the first offset whose lock is unset. -/
theorem priority_loop_first_free {E V : Type} (P : Nat → V) (N S : Nat)
    (r : MultiRingPriorityCache V) (k d : Nat) (sh : SingleCache Nat V) (s : Step Nat E V)
    (hS : 1 ≤ S) (hN : 1 ≤ N) (hsc : r.single_capacity = S)
    (hk : k / S + N ≤ UINT64_RANGE) (hd : d < N)
    (hfree : r.locks[((k / S) % N + d) % N]? = some false)
    (hsh : r.caches[((k / S) % N + d) % N]? = some sh) (hcap : 1 ≤ sh.capacity)
    (hs : SingleCache.get false (pureFn E P) sh k = some s) :
    ∀ n i, i + n = N → i ≤ d →
      (∀ j, i ≤ j → j < d → r.locks[((k / S) % N + j) % N]? = some true) →
      priority_loop N (pureFn E P) r k n i = some (some
        { shard := ((k / S) % N + d) % N, step := s,
          cache := { r with caches := r.caches.set (((k / S) % N + d) % N) s.cache } }) := by
  intro n
  induction n with
  | zero => intro i hi hid _; omega
  | succ n ih =>
    intro i hi hid hheld
    have hidx : priorityIndex r.single_capacity N k i = some (((k / S) % N + i) % N) := by
      rw [hsc]; exact priorityIndex_eq S N k i hS hN (by omega)
    rcases Nat.lt_or_ge i d with hlt | hge
    · have hl := hheld i (le_refl _) hlt
      have ht : omp_test_lock r.locks (((k / S) % N + i) % N) = some (false, r.locks) := by
        simp only [omp_test_lock, hl]
      simp only [priority_loop, hidx, ht]
      exact ih (i + 1) (by omega) (by omega) (fun j hj hjd => hheld j (by omega) hjd)
    · have hid2 : i = d := by omega
      subst hid2
      have ht : omp_test_lock r.locks (((k / S) % N + i) % N)
          = some (true, r.locks.set (((k / S) % N + i) % N) true) := by
        simp only [omp_test_lock, hfree]
      obtain ⟨s2, hs2, _, hdisp⟩ := priority_dispatch_pure (E := E) P r
        (((k / S) % N + i) % N) k sh hsh hcap hfree
      rw [hs] at hs2
      cases hs2
      simp only [priority_loop, hidx, ht, hdisp]

/-- When every lock is set the loop ends without a return. -/
theorem priority_loop_all_held {E V : Type} (fn : Nat → Except E V) (N S : Nat)
    (r : MultiRingPriorityCache V) (k : Nat) (hS : 1 ≤ S) (hN : 1 ≤ N)
    (hsc : r.single_capacity = S) (hheld : ∀ j, j < N → r.locks[j]? = some true) :
    ∀ n i, priority_loop N fn r k n i = some none := by
  intro n
  induction n with
  | zero => intro i; rfl
  | succ n ih =>
    intro i
    obtain ⟨idx, hidx, hlt⟩ := priorityIndex_lt S N k i hS hN
    rw [← hsc] at hidx
    have ht : omp_test_lock r.locks idx = some (false, r.locks) := by
      simp [omp_test_lock, hheld idx hlt]
    simp only [priority_loop, hidx, ht]
    exact ih (i + 1)

theorem priorityWF_shard {V : Type} {N C : Nat} {r : MultiRingPriorityCache V}
    (h : PriorityWF N C r) (idx : Nat) (hidx : idx < N) :
    ∃ sh, r.caches[idx]? = some sh ∧ sh.capacity = C / N := by
  have hlt : idx < r.caches.length := by rw [h.2.1]; exact hidx
  exact ⟨r.caches[idx], List.getElem?_eq_getElem hlt, h.2.2.2 _ (List.getElem_mem hlt)⟩

theorem priorityWF_set {V : Type} {N C : Nat} {r : MultiRingPriorityCache V}
    (h : PriorityWF N C r) (idx : Nat) (c : SingleCache Nat V) (hc : c.capacity = C / N) :
    PriorityWF N C { r with caches := r.caches.set idx c } := by
  refine ⟨h.1, by simpa using h.2.1, h.2.2.1, ?_⟩
  intro x hx
  rcases List.mem_or_eq_of_mem_set hx with hm | hm
  · exact h.2.2.2 x hm
  · rw [hm, hc]

/-- Shard selection of the opportunistic ring cache away from the top of the key
range (`S = C / N ≥ 1`, pure producer, key with `k / S + N ≤ 2 ^ 64` so that the
`size_t` sum of the loop does not wrap), with the lock states as part of the
state in which the call starts and `i0 = (k / S) % N`.  If `d` is the smallest
offset below `N` whose lock `(i0 + d) % N` is unset, the call is the non-locking
Single call on shard `(i0 + d) % N`; that shard is replaced by its new state and
all other shards and all locks are as before.  If every lock is set, the call is
suspended on the lock of the owner shard `i0`; once that lock is granted it is
the Single call on shard `i0`, again leaving the other shards and the locks as
it found them.  When no lock is set the call has the shard, the result and the
shard states of the call on the ring cache.  The constructed object has all
locks unset.  Scenario `N = 2`, `C = 4`, lock 0 set: the call for key 0 (owner
shard 0) is made on shard 1, where it invokes the producer. -/
theorem opportunistic_selection_without_wrap :
    (∀ (E V : Type) (P : Nat → V) (C N : Nat), 1 ≤ C / N →
      ∀ (r : MultiRingPriorityCache V) (k : Nat), PriorityWF N C r →
      k / (C / N) + N ≤ UINT64_RANGE →
      (∀ d, d < N → r.locks[((k / (C / N)) % N + d) % N]? = some false →
        (∀ j, j < d → r.locks[((k / (C / N)) % N + j) % N]? = some true) →
        ∃ sh s, r.caches[((k / (C / N)) % N + d) % N]? = some sh ∧
          SingleCache.get false (pureFn E P) sh k = some s ∧
          MultiRingPriorityCache.get N (pureFn E P) r k = some (PriorityResult.returned
            { shard := ((k / (C / N)) % N + d) % N, step := s,
              cache := { r with
                caches := r.caches.set (((k / (C / N)) % N + d) % N) s.cache } }) ∧
          PriorityWF N C
            { r with caches := r.caches.set (((k / (C / N)) % N + d) % N) s.cache }) ∧
      ((∀ j, j < N → r.locks[j]? = some true) →
        MultiRingPriorityCache.get N (pureFn E P) r k
          = some (PriorityResult.blocked ((k / (C / N)) % N))) ∧
      (r.locks[(k / (C / N)) % N]? = some false →
        ∃ sh s, r.caches[(k / (C / N)) % N]? = some sh ∧
          SingleCache.get false (pureFn E P) sh k = some s ∧
          MultiRingPriorityCache.get_granted N (pureFn E P) r k = some
            { shard := (k / (C / N)) % N, step := s,
              cache := { r with caches := r.caches.set ((k / (C / N)) % N) s.cache } } ∧
          PriorityWF N C { r with caches := r.caches.set ((k / (C / N)) % N) s.cache }) ∧
      ((∀ j, j < N → r.locks[j]? = some false) →
        ∃ st, MultiRingCache.get N (pureFn E P) r.toRing k = some st ∧
          MultiRingPriorityCache.get N (pureFn E P) r k = some (PriorityResult.returned
            { shard := st.shard, step := st.step,
              cache := { r with caches := st.cache.caches } }))) ∧
    (∀ (V : Type) (C N : Nat), 1 ≤ N →
      ∃ r0 : MultiRingPriorityCache V, MultiRingPriorityCache.construct N C = some r0 ∧
        PriorityWF N C r0 ∧ ∀ j, j < N → r0.locks[j]? = some false) ∧
    (∃ r0 res, (MultiRingPriorityCache.construct 2 4 :
          Constructed (MultiRingPriorityCache Nat)) = some r0 ∧
      MultiRingPriorityCache.get 2 (pureFn Unit (fun k : Nat => k))
        { r0 with locks := [true, false] } 0 = some (PriorityResult.returned res) ∧
      res.shard = 1 ∧ res.step.calls = [0] ∧ res.cache.locks = [true, false] ∧
      res.cache.caches.map (fun sh => sh.container) = [[], [(0, 0)]]) := by
  refine ⟨?_, ?_, ⟨_, _, rfl, rfl, rfl, rfl, rfl, rfl⟩⟩
  · intro E V P C N hS r k hwf hk
    have hN : 1 ≤ N := by
      rcases Nat.eq_zero_or_pos N with h | h
      · subst h; simp at hS
      · exact h
    have hi0 : (k / (C / N)) % N < N := Nat.mod_lt _ (by omega)
    have hring : ringIndex r.single_capacity N k = some ((k / (C / N)) % N) := by
      rw [hwf.1]; exact ringIndex_eq _ N k hS hN
    refine ⟨?_, ?_, ?_, ?_⟩
    · intro d hd hfree hheld
      obtain ⟨sh, hsh, hcap⟩ := priorityWF_shard hwf (((k / (C / N)) % N + d) % N)
        (Nat.mod_lt _ (by omega))
      obtain ⟨s, v, hs, _, hc⟩ := get_pure_ok false E P sh k (by omega)
      have hloop := priority_loop_first_free P N (C / N) r k d sh s hS hN hwf.1 hk hd hfree
        hsh (by omega) hs N 0 (by omega) (by omega) (fun j _ hj => hheld j hj)
      refine ⟨sh, s, hsh, hs, ?_, priorityWF_set hwf _ s.cache (by omega)⟩
      simp only [MultiRingPriorityCache.get, hloop]
    · intro hheld
      have hloop := priority_loop_all_held (pureFn E P) N (C / N) r k hS hN hwf.1 hheld N 0
      simp only [MultiRingPriorityCache.get, hloop, hring, hheld _ hi0]
    · intro hfree
      obtain ⟨sh, hsh, hcap⟩ := priorityWF_shard hwf ((k / (C / N)) % N) hi0
      obtain ⟨s, hs, hc, hdisp⟩ := priority_dispatch_pure (E := E) P r ((k / (C / N)) % N) k
        sh hsh (by omega) hfree
      refine ⟨sh, s, hsh, hs, ?_, priorityWF_set hwf _ s.cache (by omega)⟩
      simp only [MultiRingPriorityCache.get_granted, hring, omp_set_lock_granted, hfree, hdisp]
    · intro hfree
      obtain ⟨sh, hsh, hcap⟩ := priorityWF_shard hwf ((k / (C / N)) % N) hi0
      obtain ⟨s, v, hs, _, hc⟩ := get_pure_ok false E P sh k (by omega)
      have h0 : ((k / (C / N)) % N + 0) % N = (k / (C / N)) % N := by
        rw [Nat.add_zero, Nat.mod_mod]
      have hloop := priority_loop_first_free P N (C / N) r k 0 sh s hS hN hwf.1 hk (by omega)
        (by rw [h0]; exact hfree _ hi0) (by rw [h0]; exact hsh) (by omega) hs N 0 (by omega)
        (by omega) (fun j _ hj => by omega)
      rw [h0] at hloop
      refine ⟨{ shard := (k / (C / N)) % N, step := s,
                cache := { r.toRing with
                  caches := r.toRing.caches.set ((k / (C / N)) % N) s.cache } }, ?_, ?_⟩
      · have hring2 : ringIndex r.toRing.single_capacity N k = some ((k / (C / N)) % N) := hring
        have hsh2 : r.toRing.caches[(k / (C / N)) % N]? = some sh := hsh
        simp only [MultiRingCache.get, hring2, hsh2, hs]
      · simp only [MultiRingPriorityCache.get, hloop]
        rfl
  · intro V C N hN
    have hN0 : N ≠ 0 := by omega
    refine ⟨{ caches := List.replicate N (SingleCache.fresh (C / N)),
              locks := List.replicate N false, capacity := C, single_capacity := C / N },
      by simp only [MultiRingPriorityCache.construct, hN0, if_false],
      ⟨rfl, by simp, by simp, ?_⟩, ?_⟩
    · intro sh hsh
      rw [List.eq_of_mem_replicate hsh]
      rfl
    · intro j hj
      simp [List.getElem?_replicate, hj]

/-- C15 (defect of the code). The loop of the opportunistic ring cache computes
the probed index as `((size_t)(k / S) + i) % N`, and the `size_t` sum wraps for
keys at the top of the range, so the probes are not the offsets
`(i0 + d) % N` of the owner shard.  For `C = N = 3` (hence `S = 1`) and the key
`2 ^ 64 - 1`, whose owner shard is `i0 = 0`, the three iterations probe the
shards 0, 0 and 1.  With the locks of shards 0 and 1 set and the lock of shard 2
unset, the smallest offset with an unset lock is `d = 2` and shard 2 should be
used; the call never probes it and is suspended on the lock of shard 0.  With
the same locks the call for key 0 (same owner shard, no wrap) is made on shard
2. -/
theorem ring_opportunistic_probe_wraps :
    18446744073709551615 < UINT64_RANGE ∧
    ringIndex (3 / 3) 3 18446744073709551615 = some 0 ∧
    priorityIndex (3 / 3) 3 18446744073709551615 0 = some 0 ∧
    priorityIndex (3 / 3) 3 18446744073709551615 1 = some 0 ∧
    priorityIndex (3 / 3) 3 18446744073709551615 2 = some 1 ∧
    ((18446744073709551615 / (3 / 3)) % 3 + 2) % 3 = 2 ∧
    (∃ r0, (MultiRingPriorityCache.construct 3 3 :
          Constructed (MultiRingPriorityCache Nat)) = some r0 ∧
      PriorityWF 3 3 { r0 with locks := [true, true, false] } ∧
      ({ r0 with locks := [true, true, false] } :
        MultiRingPriorityCache Nat).locks[0]? = some true ∧
      ({ r0 with locks := [true, true, false] } :
        MultiRingPriorityCache Nat).locks[1]? = some true ∧
      ({ r0 with locks := [true, true, false] } :
        MultiRingPriorityCache Nat).locks[2]? = some false ∧
      MultiRingPriorityCache.get 3 (pureFn Unit (fun k : Nat => k))
        { r0 with locks := [true, true, false] } 18446744073709551615
        = some (PriorityResult.blocked 0) ∧
      (∃ res, MultiRingPriorityCache.get 3 (pureFn Unit (fun k : Nat => k))
          { r0 with locks := [true, true, false] } 0 = some (PriorityResult.returned res) ∧
        res.shard = 2 ∧ res.step.calls = [0] ∧ res.cache.locks = [true, true, false])) := by
  refine ⟨by norm_num [UINT64_RANGE], by decide, by decide, by decide, by decide, by decide,
    ⟨_, rfl, ⟨rfl, rfl, rfl, ?_⟩, rfl, rfl, rfl, rfl, ⟨_, rfl, rfl, rfl, rfl⟩⟩⟩
  intro sh hsh
  simp only [List.replicate, List.mem_cons, List.mem_singleton, List.not_mem_nil, or_false,
    or_self] at hsh
  rw [hsh]
  rfl

end VocabTree
